import Mathlib

/-!
# str2dbl: string to IEEE-754 double conversion

A shallow embedding of `str2dbl.c` (parser state machine, 96-bit fixed-point
converter, driver) together with theorems about it.

Conventions of the embedding:

* a `double` is represented by its 64-bit pattern (`union HexDouble`), a `Nat`;
* `uint32_t` / `uint64_t` values are `Nat`s, every assignment that can exceed the
  width is reduced with `u32` / `u64`;
* `int32_t` values are `Int`s, arithmetic that is not guarded in the source is
  reduced with `wrap32` (two's complement wrap-around); the counters `digx`
  (at most 18) and `binexp` (a few thousand around 92 for the exponents -328..309
  that reach the converter) and the exponent inside the converter (which only moves
  towards zero) are not reduced;
* characters are byte values (`Nat`); classification macros only compare against
  ASCII constants, so the signedness of `char` is irrelevant;
* the input pointer is the list of bytes from the pointer to the end of the
  buffer, `GETC` on an exhausted buffer is an out-of-bounds read (`none`);
* `while` loops are iterated with explicit fuel, `none` = the loop did not finish:
  the parser loop gets one round per byte of the buffer and ten for the states, the
  loops over the decimal exponent as many rounds as the exponent counts, and the
  shift loops 96 rounds, one per bit of the accumulator.
-/

namespace Str2Dbl

/-! ## Machine integers -/

/-- Truncation to `uint32_t`. -/
def u32 (x : Nat) : Nat := x % 2 ^ 32

/-- Truncation to `uint64_t`. -/
def u64 (x : Nat) : Nat := x % 2 ^ 64

/-- Truncation to `int32_t` (two's complement wrap-around). -/
def wrap32 (x : Int) : Int := (x + 2 ^ 31) % 2 ^ 32 - 2 ^ 31

/-! ## Constants -/

def DIGITS : Nat := 18

def DOUBLE_PLUS_ZERO : Nat := 0x0000000000000000
def DOUBLE_MINUS_ZERO : Nat := 0x8000000000000000
def DOUBLE_PLUS_INFINITY : Nat := 0x7FF0000000000000
def DOUBLE_MINUS_INFINITY : Nat := 0xFFF0000000000000

/-! ## Generic `while` loop -/

/-- Iteration of `while (cond) body` with at most `fuel` executions of the body.
`none` when the body fails or the condition still holds after `fuel` rounds. -/
def whileLoop {σ : Type} (cond : σ → Bool) (body : σ → Option σ) : Nat → σ → Option σ
  | 0, st => if cond st then none else some st
  | fuel + 1, st => if cond st then (body st).bind (whileLoop cond body fuel) else some st

/-! ## 96-bit accumulator macros -/

/-- Three 32-bit limbs `(s2, s1, s0)` of a 96-bit integer. -/
structure Limbs where
  s2 : Nat
  s1 : Nat
  s0 : Nat
deriving DecidableEq, Repr

/-- Macro `lsr96(s2, s1, s0, d2, d1, d0)`: the destination limbs. -/
def lsr96 (s : Limbs) : Limbs :=
  { s0 := u32 ((s.s0 >>> 1) ||| u32 ((s.s1 &&& 1) <<< 31)),
    s1 := u32 ((s.s1 >>> 1) ||| u32 ((s.s2 &&& 1) <<< 31)),
    s2 := s.s2 >>> 1 }

/-- Macro `lsl96(s2, s1, s0, d2, d1, d0)`: the destination limbs. -/
def lsl96 (s : Limbs) : Limbs :=
  { s2 := u32 (u32 (s.s2 <<< 1) ||| ((s.s1 &&& u32 (1 <<< 31)) >>> 31)),
    s1 := u32 (u32 (s.s1 <<< 1) ||| ((s.s0 &&& u32 (1 <<< 31)) >>> 31)),
    s0 := u32 (s.s0 <<< 1) }

/-- Macro `add96(s2, s1, s0, d2, d1, d0)`, the variant selected by
`USE_64BIT_FOR_ADDSUB_MACROS`: the new value of `(s2, s1, s0)`. -/
def add96 (s d : Limbs) : Limbs :=
  let w := u64 (s.s0 + d.s0)
  let s0 := u32 w
  let w := w >>> 32
  let w := u64 (w + u64 (s.s1 + d.s1))
  let s1 := u32 w
  let w := w >>> 32
  let w := u64 (w + u64 (s.s2 + d.s2))
  let s2 := u32 w
  { s2 := s2, s1 := s1, s0 := s0 }

/-! ## Parser -/

/-- Parser state machine states (`FSM_A` .. `FSM_STOP`). -/
inductive Fsm where
  | FSM_A | FSM_B | FSM_C | FSM_D | FSM_E | FSM_F | FSM_G | FSM_H | FSM_I | FSM_STOP
deriving DecidableEq, Repr

/-- Numeric value of a state constant. -/
def Fsm.toNat : Fsm → Nat
  | .FSM_A => 0 | .FSM_B => 1 | .FSM_C => 2 | .FSM_D => 3 | .FSM_E => 4
  | .FSM_F => 5 | .FSM_G => 6 | .FSM_H => 7 | .FSM_I => 8 | .FSM_STOP => 9

def DPOINT : Nat := 46

def ISDIGIT (x : Nat) : Bool := decide (48 ≤ x) && decide (x ≤ 57)

def ISSPACE (x : Nat) : Bool := (decide (0x09 ≤ x) && decide (x ≤ 0x13)) || decide (x = 0x20)

def ISEXP (x : Nat) : Bool := decide (x = 69) || decide (x = 101)

/-- The structure filled by the parser, then given to the converter. -/
structure PrepNumber where
  negative : Nat
  exponent : Int
  mantissa : Nat
deriving DecidableEq, Repr

def PARSER_OK : Nat := 0
def PARSER_PZERO : Nat := 1
def PARSER_MZERO : Nat := 2
def PARSER_PINF : Nat := 3
def PARSER_MINF : Nat := 4

/-- Local variables of `parser` together with the record it fills. -/
structure ParserState where
  state : Fsm
  c : Nat
  s : List Nat
  digx : Nat
  expneg : Nat
  expexp : Int
  pn : PrepNumber
deriving DecidableEq, Repr

/-- Statement `c = GETC(s)`, i.e. `c = *s++`. -/
def GETC (st : ParserState) : Option ParserState :=
  match st.s with
  | [] => none
  | x :: rest => some { st with c := x, s := rest }

/-- One execution of the body of the `while (state != FSM_STOP)` loop. -/
def parserStep (st : ParserState) : Option ParserState :=
  match st.state with
  | .FSM_A =>
    if ISSPACE st.c then GETC st
    else some { st with state := .FSM_B }
  | .FSM_B =>
    let st := { st with state := .FSM_C }
    if st.c = 43 then GETC st
    else if st.c = 45 then GETC { st with pn := { st.pn with negative := 1 } }
    else if ISDIGIT st.c then some st
    else if st.c = DPOINT then some st
    else some { st with state := .FSM_STOP }
  | .FSM_C =>
    if st.c = 48 then GETC st
    else if st.c = DPOINT then GETC { st with state := .FSM_D }
    else some { st with state := .FSM_E }
  | .FSM_D =>
    if st.c = 48 then
      (GETC st).map fun st =>
        if st.pn.exponent > -2147483647 then
          { st with pn := { st.pn with exponent := st.pn.exponent - 1 } }
        else st
    else some { st with state := .FSM_F }
  | .FSM_E =>
    if ISDIGIT st.c then
      let st :=
        if st.digx < DIGITS then
          let m := u64 (st.pn.mantissa * 10)
          let m := u64 (m + (st.c - 48))
          { st with pn := { st.pn with mantissa := m }, digx := st.digx + 1 }
        else if st.pn.exponent < 2147483647 then
          { st with pn := { st.pn with exponent := st.pn.exponent + 1 } }
        else st
      GETC st
    else if st.c = DPOINT then GETC { st with state := .FSM_F }
    else some { st with state := .FSM_F }
  | .FSM_F =>
    if ISDIGIT st.c then
      let st :=
        if st.digx < DIGITS then
          let m := u64 (st.pn.mantissa * 10)
          let m := u64 (m + (st.c - 48))
          { st with
            pn := { st.pn with mantissa := m, exponent := wrap32 (st.pn.exponent - 1) },
            digx := st.digx + 1 }
        else st
      GETC st
    else if ISEXP st.c then GETC { st with state := .FSM_G }
    else some { st with state := .FSM_G }
  | .FSM_G =>
    let st' := { st with state := .FSM_H }
    if st.c = 43 then GETC st'
    else if st.c = 45 then GETC { st' with expneg := 1 }
    else some st'
  | .FSM_H =>
    if st.c = 48 then GETC st
    else some { st with state := .FSM_I }
  | .FSM_I =>
    if ISDIGIT st.c then
      let st :=
        if st.expexp < 214748364 then
          { st with expexp := st.expexp * 10 + ((st.c : Int) - 48) }
        else st
      GETC st
    else some { st with state := .FSM_STOP }
  | .FSM_STOP => some st

/-- Initial values of the locals of `parser`. -/
def parserInit (s : List Nat) (pn : PrepNumber) : ParserState :=
  { state := .FSM_A, c := 32, s := s, digx := 0, expneg := 0, expexp := 0, pn := pn }

/-- The part of `parser` after the loop: sign of the explicit exponent, its
addition to the record, and the classification. -/
def parserFinish (st : ParserState) : Nat × PrepNumber :=
  let expexp := if st.expneg ≠ 0 then -st.expexp else st.expexp
  let pn : PrepNumber := { st.pn with exponent := wrap32 (st.pn.exponent + expexp) }
  let result :=
    if pn.mantissa = 0 then
      if pn.negative ≠ 0 then PARSER_MZERO else PARSER_PZERO
    else if pn.exponent > 309 then
      if pn.negative ≠ 0 then PARSER_MINF else PARSER_PINF
    else if pn.exponent < -328 then
      if pn.negative ≠ 0 then PARSER_MZERO else PARSER_PZERO
    else PARSER_OK
  (result, pn)

/-- Function `parser`: the status and the filled record. The loop is given one
round per byte of the buffer plus one per state. -/
def parser (s : List Nat) (pn : PrepNumber) : Option (Nat × PrepNumber) :=
  (whileLoop (fun st => decide (st.state ≠ Fsm.FSM_STOP)) parserStep (s.length + 10)
    (parserInit s pn)).map parserFinish

/-! ## Converter -/

/-- Locals of `converter` that live across loop iterations. -/
structure ConvState where
  s : Limbs
  binexp : Int
  exponent : Int
deriving DecidableEq, Repr

/-- Local `mask28 = 0xF << 28`: the top four bits of a limb. -/
def mask28 : Nat := u32 (0xF <<< 28)

/-- Body shared by the two left-shift normalisation loops. -/
def shiftLeftStep (st : ConvState) : Option ConvState :=
  some { st with s := lsl96 st.s, binexp := st.binexp - 1 }

/-- Body of the right-shift renormalisation loop. -/
def shiftRightStep (st : ConvState) : Option ConvState :=
  some { st with s := lsr96 st.s, binexp := st.binexp + 1 }

/-- Body of `while (pn->exponent > 0)`. -/
def mulStep (st : ConvState) : Option ConvState :=
  let q := lsl96 st.s
  let r := lsl96 q
  let s := lsl96 r
  let s := add96 s q
  whileLoop (fun t => decide (t.s.s2 &&& mask28 ≠ 0)) shiftRightStep 96
    { s := s, binexp := st.binexp, exponent := st.exponent - 1 }

/-- The manual long division by ten of the accumulator. -/
def div10 (s : Limbs) : Limbs :=
  let q2 := s.s2 / 10
  let r1 := s.s2 % 10
  let r2 := u32 ((s.s1 >>> 8) ||| u32 (r1 <<< 24))
  let q1 := r2 / 10
  let r1 := r2 % 10
  let r2 := u32 (u32 ((s.s1 &&& 0xFF) <<< 16) ||| (s.s0 >>> 16) ||| u32 (r1 <<< 24))
  let r0 := r2 / 10
  let r1 := r2 % 10
  let q1 := u32 (u32 (q1 <<< 8) ||| ((r0 &&& 0x00FF0000) >>> 16))
  let q0 := u32 (r0 <<< 16)
  let r2 := u32 ((s.s0 &&& 0xFFFF) ||| u32 (r1 <<< 16))
  let q0 := u32 (q0 ||| (r2 / 10))
  { s2 := q2, s1 := q1, s0 := q0 }

/-- Body of `while (pn->exponent < 0)`. -/
def divStep (st : ConvState) : Option ConvState :=
  (whileLoop (fun t => decide (t.s.s2 &&& u32 (1 <<< 31) = 0)) shiftLeftStep 96 st).map
    fun t => { t with s := div10 t.s, exponent := t.exponent + 1 }

/-- The final normalisation `if (s2 || s1 || s0) while (!(s2 & mask28)) ...`. -/
def normalize (st : ConvState) : Option ConvState :=
  if st.s.s2 ≠ 0 ∨ st.s.s1 ≠ 0 ∨ st.s.s0 ≠ 0 then
    whileLoop (fun t => decide (t.s.s2 &&& mask28 = 0)) shiftLeftStep 96 st
  else some st

/-- Assembly of the bit pattern from the biased exponent and the accumulator. -/
def assemble (negative : Nat) (binexp : Int) (s : Limbs) : Nat :=
  if binexp > 2046 then
    if negative ≠ 0 then DOUBLE_MINUS_INFINITY else DOUBLE_PLUS_INFINITY
  else if binexp < 1 then
    if negative ≠ 0 then DOUBLE_MINUS_ZERO else 0
  else if s.s2 ≠ 0 then
    let binexs2 := u64 (binexp.toNat <<< 52)
    let q := u64 ((s.s2 &&& (0xFFFFFFFF ^^^ mask28)) <<< 24) ||| (u64 (s.s1 + 128) >>> 8)
      ||| binexs2
    if negative ≠ 0 then q ||| u64 (1 <<< 63) else q
  else 0

/-- Function `converter`: the bit pattern of the returned double. -/
def converter (pn : PrepNumber) : Option Nat :=
  let st : ConvState :=
    { s := { s0 := u32 (pn.mantissa &&& 0xFFFFFFFF), s1 := u32 (pn.mantissa >>> 32), s2 := 0 },
      binexp := 92, exponent := pn.exponent }
  (whileLoop (fun t => decide (t.exponent > 0)) mulStep pn.exponent.toNat st).bind fun st =>
  (whileLoop (fun t => decide (t.exponent < 0)) divStep (-pn.exponent).toNat st).bind fun st =>
  (normalize st).map fun st =>
  assemble pn.negative (st.binexp + 1023) st.s

/-! ## Driver -/

/-- Function `str2dbl`: the bit pattern of the returned double, for the buffer `s`. -/
def str2dbl (s : List Nat) : Option Nat :=
  let pn : PrepNumber := { mantissa := 0, negative := 0, exponent := 0 }
  (parser s pn).bind fun r =>
    if r.1 = PARSER_OK then converter r.2
    else if r.1 = PARSER_PZERO then some DOUBLE_PLUS_ZERO
    else if r.1 = PARSER_MZERO then some DOUBLE_MINUS_ZERO
    else if r.1 = PARSER_PINF then some DOUBLE_PLUS_INFINITY
    else if r.1 = PARSER_MINF then some DOUBLE_MINUS_INFINITY
    else none

/-- The NUL-terminated buffer holding the characters of a string literal. -/
def cstr (t : String) : List Nat := t.toList.map Char.toNat ++ [0]

/-! ## Reading a bit pattern -/

/-- Bit 63 of a pattern. -/
def signField (p : Nat) : Nat := p / 2 ^ 63

/-- The 11-bit exponent field of a pattern. -/
def expField (p : Nat) : Nat := p / 2 ^ 52 % 2 ^ 11

/-- The 52-bit fraction field of a pattern. -/
def fracField (p : Nat) : Nat := p % 2 ^ 52

/-- Magnitude of the normal double with the given pattern. -/
def magnitude (p : Nat) : ℚ := (2 ^ 52 + (fracField p : ℚ)) * (2 : ℚ) ^ ((expField p : ℤ) - 1075)

/-! ## Specification-side readings of the accumulator -/

/-- The 96-bit integer held by the limbs. -/
def Limbs.val (s : Limbs) : Nat := s.s2 * 2 ^ 64 + s.s1 * 2 ^ 32 + s.s0

/-- Every limb fits in 32 bits. -/
def Limbs.wf (s : Limbs) : Prop := s.s2 < 2 ^ 32 ∧ s.s1 < 2 ^ 32 ∧ s.s0 < 2 ^ 32

/-- The fraction field assembled from the accumulator: the low 28 bits of `s2` and
the rounded top 24 bits of `s1`, combined with `|`. -/
def fracBits (s : Limbs) : Nat := (s.s2 % 2 ^ 28) * 2 ^ 24 ||| (s.s1 + 128) / 256

/-- The pointer is inside a NUL-terminated buffer, or just behind the terminator that
was read last. -/
def bufOK (st : ParserState) : Prop :=
  (∃ t, st.s = t ++ [0]) ∨ (st.s = [] ∧ st.c = 0)

/-- Termination measure of the parser loop. -/
def parserMeasure (st : ParserState) : Nat := st.s.length + (9 - st.state.toNat)

/-- The loop body without its read: the state after the assignments of the chosen
branch, and whether the branch executes `c = GETC(s)`. (A device for proofs; it is
related to `parserStep` by `parserStep_eq_core`.) -/
def parserCore (st : ParserState) : ParserState × Bool :=
  match st.state with
  | .FSM_A =>
    if ISSPACE st.c then (st, true)
    else ({ st with state := .FSM_B }, false)
  | .FSM_B =>
    if st.c = 43 then ({ st with state := .FSM_C }, true)
    else if st.c = 45 then
      ({ st with state := .FSM_C, pn := { st.pn with negative := 1 } }, true)
    else if ISDIGIT st.c then ({ st with state := .FSM_C }, false)
    else if st.c = DPOINT then ({ st with state := .FSM_C }, false)
    else ({ st with state := .FSM_STOP }, false)
  | .FSM_C =>
    if st.c = 48 then (st, true)
    else if st.c = DPOINT then ({ st with state := .FSM_D }, true)
    else ({ st with state := .FSM_E }, false)
  | .FSM_D =>
    if st.c = 48 then
      (if st.pn.exponent > -2147483647 then
          { st with pn := { st.pn with exponent := st.pn.exponent - 1 } }
        else st, true)
    else ({ st with state := .FSM_F }, false)
  | .FSM_E =>
    if ISDIGIT st.c then
      (if st.digx < DIGITS then
          { st with
            pn := { st.pn with mantissa := u64 (u64 (st.pn.mantissa * 10) + (st.c - 48)) },
            digx := st.digx + 1 }
        else if st.pn.exponent < 2147483647 then
          { st with pn := { st.pn with exponent := st.pn.exponent + 1 } }
        else st, true)
    else if st.c = DPOINT then ({ st with state := .FSM_F }, true)
    else ({ st with state := .FSM_F }, false)
  | .FSM_F =>
    if ISDIGIT st.c then
      (if st.digx < DIGITS then
          { st with
            pn := { st.pn with
                    mantissa := u64 (u64 (st.pn.mantissa * 10) + (st.c - 48)),
                    exponent := wrap32 (st.pn.exponent - 1) },
            digx := st.digx + 1 }
        else st, true)
    else if ISEXP st.c then ({ st with state := .FSM_G }, true)
    else ({ st with state := .FSM_G }, false)
  | .FSM_G =>
    if st.c = 43 then ({ st with state := .FSM_H }, true)
    else if st.c = 45 then ({ st with state := .FSM_H, expneg := 1 }, true)
    else ({ st with state := .FSM_H }, false)
  | .FSM_H =>
    if st.c = 48 then (st, true)
    else ({ st with state := .FSM_I }, false)
  | .FSM_I =>
    if ISDIGIT st.c then
      (if st.expexp < 214748364 then
          { st with expexp := st.expexp * 10 + ((st.c : Int) - 48) }
        else st, true)
    else ({ st with state := .FSM_STOP }, false)
  | .FSM_STOP => (st, false)

/-- The first character after the leading whitespace of a buffer (NUL if none). -/
def firstNonSpace (s : List Nat) : Nat := (s.dropWhile ISSPACE).headD 0

/-- Invariant: at most 18 digits have been absorbed into the mantissa. -/
def mantOK (st : ParserState) : Prop := st.digx ≤ 18 ∧ st.pn.mantissa < 10 ^ st.digx

/-- Invariant: the sign flag is set exactly when the first character after the leading
whitespace, `f`, is '-'. -/
def signOK (f : Nat) (st : ParserState) : Prop :=
  st.pn.negative ≤ 1 ∧
  (st.state = Fsm.FSM_A → st.pn.negative = 0 ∧ firstNonSpace (st.c :: st.s) = f) ∧
  (st.state = Fsm.FSM_B → st.pn.negative = 0 ∧ st.c = f) ∧
  (st.state ≠ Fsm.FSM_A → st.state ≠ Fsm.FSM_B → (st.pn.negative ≠ 0 ↔ f = 45))

/-- Invariant: no digit has been or will be read, and the mantissa is still zero. -/
def noDigit (st : ParserState) : Prop :=
  (∀ x ∈ st.c :: st.s, ISDIGIT x = false) ∧ st.pn.mantissa = 0

/-- The sign bit selected by the `negative` flag. -/
def signBits (negative : Nat) : Nat := if negative ≠ 0 then 2 ^ 63 else 0

/-- The three shapes of a returned pattern: signed zero, signed infinity, or a normal
number with biased exponent in 1..2046. -/
def shapeOK (negative p : Nat) : Prop :=
  p = signBits negative ∨ p = signBits negative + 0x7FF0000000000000 ∨
  ∃ B f : Nat, 1 ≤ B ∧ B ≤ 2046 ∧ f < 2 ^ 52 ∧ p = signBits negative + B * 2 ^ 52 + f

/-- A character that no state of the parser consumes: not whitespace, not a sign, not a
digit, not the decimal point and not an exponent marker. -/
def inert (c : Nat) : Prop :=
  ISSPACE c = false ∧ c ≠ 43 ∧ c ≠ 45 ∧ ISDIGIT c = false ∧ c ≠ DPOINT ∧ ISEXP c = false

/-- The state entered from each state on a character that is not consumed. -/
def skipState : Fsm → Fsm
  | .FSM_A => .FSM_B | .FSM_B => .FSM_STOP | .FSM_C => .FSM_E | .FSM_D => .FSM_F
  | .FSM_E => .FSM_F | .FSM_F => .FSM_G | .FSM_G => .FSM_H | .FSM_H => .FSM_I
  | .FSM_I => .FSM_STOP | .FSM_STOP => .FSM_STOP

/-- Two parser states agree on everything but the current character and the pointer. -/
def sameCtl (a b : ParserState) : Prop :=
  a.state = b.state ∧ a.digx = b.digx ∧ a.expneg = b.expneg ∧ a.expexp = b.expexp ∧ a.pn = b.pn

/-- Simulation relation between a run on `t ++ [0]` and a run on `t ++ x :: rest`: either
both are at the same place of the common prefix, or both look at a character that is
not consumed. -/
def simRel (x : Nat) (rest : List Nat) (a b : ParserState) : Prop :=
  sameCtl a b ∧
  ((a.c = b.c ∧ ∃ t, a.s = t ++ [0] ∧ b.s = t ++ x :: rest) ∨ (inert a.c ∧ inert b.c))

/-- Executions of the parser loop: `Steps a b` when the loop started in `a` passes
through `b`. -/
inductive Steps : ParserState → ParserState → Prop
  | refl (a : ParserState) : Steps a a
  | step {a a' b : ParserState} (hne : a.state ≠ Fsm.FSM_STOP) (h : parserStep a = some a')
      (rest : Steps a' b) : Steps a b

/-- Horner evaluation of decimal digit characters on top of `m`. -/
def horner (m : Nat) (ds : List Nat) : Nat := ds.foldl (fun acc d => acc * 10 + (d - 48)) m

/-- The decimal value of a string of digit characters. -/
def decValue (ds : List Nat) : Nat := horner 0 ds

/-- The decimal representation of `k` (most significant digit first, no leading
zero, empty for 0) as characters. -/
def decimal (k : Nat) : List Nat := (Nat.digits 10 k).reverse.map (· + 48)

/-- The update of the explicit-exponent accumulator made by `FSM_I` for one digit. -/
def absorbExp (e : Int) (d : Nat) : Int := if e < 214748364 then e * 10 + ((d : Int) - 48) else e

/-- Invariant of the multiply loop on an exact value `X = m * 10 ^ E`: no bit has been
lost, i.e. accumulator times `2 ^ (binexp - 92)` times ten to the remaining exponent is
still `X`. -/
def mulInv (X : Nat) (t : ConvState) : Prop :=
  t.s.wf ∧ 0 < t.s.val ∧ t.s.val < 2 ^ 92 ∧
  ∃ b x : Nat, t.binexp = 92 + (b : Int) ∧ t.exponent = (x : Int) ∧
    t.s.val * 2 ^ b * 10 ^ x = X

/-- Invariant of the divide loop on an exact value `m / 10 ^ N`: after `d` divisions and
`sh` left shifts the accumulator times `10 ^ d` is `m * 2 ^ sh`. -/
def divInv (m N : Nat) (e : Int) (t : ConvState) : Prop :=
  t.s.wf ∧ 0 < t.s.val ∧ (t.exponent = e ∨ t.s.val < 2 ^ 93) ∧
  ∃ d sh x : Nat, t.exponent = -(x : Int) ∧ t.binexp = 92 - (sh : Int) ∧ d + x = N ∧
    t.s.val * 10 ^ d = m * 2 ^ sh

/-- Subtraction of `uint32_t` values. -/
def sub32 (a b : Nat) : Nat := (u32 a + 2 ^ 32 - u32 b) % 2 ^ 32

/-- Subtraction of `uint64_t` values. -/
def sub64 (a b : Nat) : Nat := (u64 a + 2 ^ 64 - u64 b) % 2 ^ 64

/-- Macro `sub96(s2, s1, s0, d2, d1, d0)`, the variant selected by
`USE_64BIT_FOR_ADDSUB_MACROS`: the new value of `(s2, s1, s0)`. -/
def sub96 (s d : Limbs) : Limbs :=
  let w := sub64 s.s0 d.s0
  let s0 := u32 w
  let w := w >>> 32
  let w := u64 (w + sub64 s.s1 d.s1)
  let s1 := u32 w
  let w := w >>> 32
  let w := u64 (w + sub64 s.s2 d.s2)
  let s2 := u32 w
  { s2 := s2, s1 := s1, s0 := s0 }

/-- Macro `add96`, the variant compiled when `USE_64BIT_FOR_ADDSUB_MACROS` is not
defined (32-bit arithmetic with an explicit carry `_c`). -/
def add96_32 (s d : Limbs) : Limbs :=
  let x := s.s0
  let s0 := u32 (s.s0 + d.s0)
  let c := if s0 < x then 1 else 0
  let x := s.s1
  let s1 := u32 (s.s1 + u32 (d.s1 + c))
  let c := if s1 < x ∨ (s1 = x ∧ c ≠ 0) then 1 else 0
  let s2 := u32 (s.s2 + u32 (d.s2 + c))
  { s2 := s2, s1 := s1, s0 := s0 }

/-- Macro `sub96`, the variant compiled when `USE_64BIT_FOR_ADDSUB_MACROS` is not
defined (32-bit arithmetic with an explicit borrow `_c`). -/
def sub96_32 (s d : Limbs) : Limbs :=
  let x := s.s0
  let s0 := sub32 s.s0 d.s0
  let c := if s0 > x then 1 else 0
  let x := s.s1
  let s1 := sub32 s.s1 (u32 (d.s1 + c))
  let c := if s1 > x ∨ (s1 = x ∧ c ≠ 0) then 1 else 0
  let s2 := sub32 s.s2 (u32 (d.s2 + c))
  { s2 := s2, s1 := s1, s0 := s0 }

/-- The locals with which `converter` reaches the biased-exponent checks: the part of
`converter` before `binexp += 1023`. -/
def converterAcc (pn : PrepNumber) : Option ConvState :=
  let st : ConvState :=
    { s := { s0 := u32 (pn.mantissa &&& 0xFFFFFFFF), s1 := u32 (pn.mantissa >>> 32), s2 := 0 },
      binexp := 92, exponent := pn.exponent }
  (whileLoop (fun t => decide (t.exponent > 0)) mulStep pn.exponent.toNat st).bind fun st =>
  (whileLoop (fun t => decide (t.exponent < 0)) divStep (-pn.exponent).toNat st).bind normalize

/-- The value of the local `r0` in the division by ten of `converter`. -/
def div10R0 (s : Limbs) : Nat :=
  let r1 := s.s2 % 10
  let r2 := u32 ((s.s1 >>> 8) ||| u32 (r1 <<< 24))
  let r1 := r2 % 10
  let r2 := u32 (u32 ((s.s1 &&& 0xFF) <<< 16) ||| (s.s0 >>> 16) ||| u32 (r1 <<< 24))
  r2 / 10

/-- The values of the shifts and bitwise ors of the division by ten of `converter` before
they are reduced to 32 bits, in the order of the source, except the shift `r0 << 16`. -/
def div10Wide (s : Limbs) : List Nat :=
  let r1 := s.s2 % 10
  let a1 := r1 <<< 24
  let a2 := (s.s1 >>> 8) ||| u32 a1
  let r2 := u32 a2
  let q1 := r2 / 10
  let r1 := r2 % 10
  let a3 := (s.s1 &&& 0xFF) <<< 16
  let a4 := r1 <<< 24
  let a5 := u32 a3 ||| (s.s0 >>> 16) ||| u32 a4
  let r2 := u32 a5
  let r0 := r2 / 10
  let r1 := r2 % 10
  let a6 := q1 <<< 8
  let a7 := u32 a6 ||| ((r0 &&& 0x00FF0000) >>> 16)
  let q0 := u32 (r0 <<< 16)
  let a8 := r1 <<< 16
  let a9 := (s.s0 &&& 0xFFFF) ||| u32 a8
  let r2 := u32 a9
  let a10 := q0 ||| (r2 / 10)
  [a1, a2, a3, a4, a5, a6, a7, a8, a9, a10]

/-- Invariant of the parser loop on a buffer whose first NUL is followed by `b`: either
the NUL and `b` are still unread, or the NUL is the current character and exactly `b` is
unread. -/
def readOK (b : List Nat) (st : ParserState) : Prop :=
  (∃ t, st.s = t ++ 0 :: b) ∨ (st.c = 0 ∧ st.s = b)

/-- The property of one multiplication by ten that nothing leaves the 96-bit field: the
limbs are below 2^32, the accumulator is below 2^92, and the values after the three
`lsl96` and after the `add96` are 2 s, 4 s, 8 s and 10 s. -/
def mulExact (t : ConvState) : Bool :=
  decide (t.s.s2 < 2 ^ 32 ∧ t.s.s1 < 2 ^ 32 ∧ t.s.s0 < 2 ^ 32 ∧ t.s.val < 2 ^ 92 ∧
    (lsl96 t.s).val = 2 * t.s.val ∧ (lsl96 (lsl96 t.s)).val = 4 * t.s.val ∧
    (lsl96 (lsl96 (lsl96 t.s))).val = 8 * t.s.val ∧
    (add96 (lsl96 (lsl96 (lsl96 t.s))) (lsl96 t.s)).val = 10 * t.s.val)

/-- What one pass of the body of the multiply loop leaves, from the locals `t` before to
the locals `r` after: the accumulator is 10 s shifted right by the number of times binexp
was incremented, with limbs below 2^32 and value below 2^92, and the decimal exponent is
one less. -/
def mulLeaves (t r : ConvState) : Bool :=
  decide (r.s.val = 10 * t.s.val / 2 ^ (r.binexp - t.binexp).toNat ∧ t.binexp ≤ r.binexp ∧
    r.exponent = t.exponent - 1 ∧
    r.s.s2 < 2 ^ 32 ∧ r.s.s1 < 2 ^ 32 ∧ r.s.s0 < 2 ^ 32 ∧ r.s.val < 2 ^ 92)

/-- The parser state whose current character and unread buffer are the head and the tail
of the stream `L`. -/
def mkSt (f : Fsm) (L : List Nat) (digx expneg : Nat) (expexp : Int) (neg : Nat) (e : Int)
    (m : Nat) : ParserState :=
  ⟨f, L.headD 0, L.tail, digx, expneg, expexp, ⟨neg, e, m⟩⟩

/-- The update of (digx, exponent, mantissa) made by `FSM_E` for one digit. -/
def absorbE (a : Nat × Int × Nat) (d : Nat) : Nat × Int × Nat :=
  if a.1 < DIGITS then (a.1 + 1, a.2.1, u64 (u64 (a.2.2 * 10) + (d - 48)))
  else if a.2.1 < 2147483647 then (a.1, a.2.1 + 1, a.2.2)
  else a

/-- The update of (digx, exponent, mantissa) made by `FSM_F` for one digit. -/
def absorbF (a : Nat × Int × Nat) (d : Nat) : Nat × Int × Nat :=
  if a.1 < DIGITS then (a.1 + 1, wrap32 (a.2.1 - 1), u64 (u64 (a.2.2 * 10) + (d - 48)))
  else a

/-- The update of the exponent made by `FSM_D` for one zero. -/
def skipD (e : Int) (_d : Nat) : Int := if e > -2147483647 then e - 1 else e

/-! ## Loop rules -/

theorem whileLoop_stop {σ : Type} (cond : σ → Bool) (body : σ → Option σ) (fuel : Nat) (st : σ)
    (h : cond st = false) : whileLoop cond body fuel st = some st := by
  cases fuel <;> simp [whileLoop, h]

theorem whileLoop_step {σ : Type} (cond : σ → Bool) (body : σ → Option σ) (fuel : Nat)
    (st st' : σ) (h : cond st = true) (hb : body st = some st') :
    whileLoop cond body (fuel + 1) st = whileLoop cond body fuel st' := by
  simp [whileLoop, h, hb]

/-- Total correctness: an invariant whose measure decreases gives a result within
`μ st` rounds. -/
theorem whileLoop_total {σ : Type} (cond : σ → Bool) (body : σ → Option σ) (P : σ → Prop)
    (μ : σ → Nat)
    (hstep : ∀ t, P t → cond t = true → ∃ t', body t = some t' ∧ P t' ∧ μ t' < μ t) :
    ∀ (fuel : Nat) (st : σ), P st → μ st ≤ fuel →
      ∃ r, whileLoop cond body fuel st = some r ∧ P r ∧ cond r = false := by
  intro fuel
  induction fuel with
  | zero =>
    intro st hP hμ
    cases hc : cond st with
    | false => exact ⟨st, whileLoop_stop cond body 0 st hc, hP, hc⟩
    | true =>
      obtain ⟨t', -, -, hlt⟩ := hstep st hP hc
      omega
  | succ n ih =>
    intro st hP hμ
    cases hc : cond st with
    | false => exact ⟨st, whileLoop_stop cond body _ st hc, hP, hc⟩
    | true =>
      obtain ⟨t', hb, hP', hlt⟩ := hstep st hP hc
      obtain ⟨r, hr, hPr, hcr⟩ := ih t' hP' (by omega)
      exact ⟨r, by rw [whileLoop_step cond body n st t' hc hb]; exact hr, hPr, hcr⟩

/-- Partial correctness: an invariant of the body holds of the result. -/
theorem whileLoop_partial {σ : Type} (cond : σ → Bool) (body : σ → Option σ) (P : σ → Prop)
    (hstep : ∀ t t', P t → cond t = true → body t = some t' → P t') :
    ∀ (fuel : Nat) (st r : σ), P st → whileLoop cond body fuel st = some r →
      P r ∧ cond r = false := by
  intro fuel
  induction fuel with
  | zero =>
    intro st r hP h
    cases hc : cond st with
    | false =>
      rw [whileLoop_stop cond body 0 st hc] at h
      cases h; exact ⟨hP, hc⟩
    | true => simp [whileLoop, hc] at h
  | succ n ih =>
    intro st r hP h
    cases hc : cond st with
    | false =>
      rw [whileLoop_stop cond body _ st hc] at h
      cases h; exact ⟨hP, hc⟩
    | true =>
      cases hb : body st with
      | none => simp [whileLoop, hc, hb] at h
      | some t' =>
        rw [whileLoop_step cond body n st t' hc hb] at h
        exact ih t' r (hstep st t' hP hc hb) h

/-- More fuel does not change a result. -/
theorem whileLoop_mono {σ : Type} (cond : σ → Bool) (body : σ → Option σ) :
    ∀ (fuel k : Nat) (st r : σ), whileLoop cond body fuel st = some r →
      whileLoop cond body (fuel + k) st = some r := by
  intro fuel
  induction fuel with
  | zero =>
    intro k st r h
    cases hc : cond st with
    | false =>
      rw [whileLoop_stop cond body 0 st hc] at h
      rw [whileLoop_stop cond body _ st hc]; exact h
    | true => simp [whileLoop, hc] at h
  | succ n ih =>
    intro k st r h
    cases hc : cond st with
    | false =>
      rw [whileLoop_stop cond body _ st hc] at h
      rw [whileLoop_stop cond body _ st hc]; exact h
    | true =>
      cases hb : body st with
      | none => simp [whileLoop, hc, hb] at h
      | some t' =>
        rw [whileLoop_step cond body n st t' hc hb] at h
        have : n + 1 + k = (n + k) + 1 := by omega
        rw [this, whileLoop_step cond body (n + k) st t' hc hb]
        exact ih k t' r h

/-! ## Bit operations as arithmetic -/

theorem and_shl_mask (x m a : Nat) : x &&& (m <<< a) = ((x >>> a) &&& m) <<< a := by
  apply Nat.eq_of_testBit_eq
  intro i
  simp only [Nat.testBit_and, Nat.testBit_shiftLeft, Nat.testBit_shiftRight]
  by_cases h : a ≤ i
  · have : a + (i - a) = i := by omega
    simp [h, this]
  · simp [h]

theorem and_bit (x a : Nat) : x &&& (2 ^ a) = (x / 2 ^ a % 2) * 2 ^ a := by
  have := and_shl_mask x 1 a
  rw [Nat.shiftLeft_eq, Nat.one_mul, Nat.and_one_is_mod, Nat.shiftRight_eq_div_pow,
    Nat.shiftLeft_eq] at this
  exact this

theorem and_mask_shifted (x b a : Nat) :
    x &&& ((2 ^ b - 1) * 2 ^ a) = (x / 2 ^ a % 2 ^ b) * 2 ^ a := by
  have := and_shl_mask x (2 ^ b - 1) a
  rw [Nat.shiftLeft_eq, Nat.and_pow_two_sub_one_eq_mod, Nat.shiftRight_eq_div_pow,
    Nat.shiftLeft_eq] at this
  exact this

theorem or_eq_add (x y i : Nat) (hx : x % 2 ^ i = 0) (hy : y < 2 ^ i) : x ||| y = x + y := by
  obtain ⟨a, rfl⟩ := Nat.dvd_of_mod_eq_zero hx
  exact (Nat.mul_add_lt_is_or hy a).symm

theorem or_eq_add' (x y i : Nat) (hx : x < 2 ^ i) (hy : y % 2 ^ i = 0) : x ||| y = x + y := by
  rw [Nat.or_comm, or_eq_add y x i hy hx, Nat.add_comm]

theorem lsl96_eq (s : Limbs) (h : s.wf) :
    lsl96 s = { s2 := (s.s2 * 2) % 2 ^ 32 + s.s1 / 2 ^ 31,
                s1 := (s.s1 * 2) % 2 ^ 32 + s.s0 / 2 ^ 31,
                s0 := (s.s0 * 2) % 2 ^ 32 } := by
  obtain ⟨h2, h1, h0⟩ := h
  have e31 : u32 (1 <<< 31) = 2 ^ 31 := by decide
  have b1 : (s.s1 &&& 2 ^ 31) >>> 31 = s.s1 / 2 ^ 31 := by
    rw [and_bit, Nat.shiftRight_eq_div_pow, Nat.mul_div_cancel _ (by norm_num)]; omega
  have b0 : (s.s0 &&& 2 ^ 31) >>> 31 = s.s0 / 2 ^ 31 := by
    rw [and_bit, Nat.shiftRight_eq_div_pow, Nat.mul_div_cancel _ (by norm_num)]; omega
  have o2 : (s.s2 * 2) % 2 ^ 32 ||| s.s1 / 2 ^ 31 = (s.s2 * 2) % 2 ^ 32 + s.s1 / 2 ^ 31 :=
    or_eq_add _ _ 1 (by omega) (by omega)
  have o1 : (s.s1 * 2) % 2 ^ 32 ||| s.s0 / 2 ^ 31 = (s.s1 * 2) % 2 ^ 32 + s.s0 / 2 ^ 31 :=
    or_eq_add _ _ 1 (by omega) (by omega)
  simp only [lsl96, e31, b1, b0]
  simp only [u32, Nat.shiftLeft_eq, pow_one, o2, o1]
  congr 1 <;> omega

theorem lsl96_wf (s : Limbs) : (lsl96 s).wf := by
  simp only [lsl96, Limbs.wf, u32]
  refine ⟨?_, ?_, ?_⟩ <;> exact Nat.mod_lt _ (by norm_num)

theorem lsl96_val (s : Limbs) (h : s.wf) : (lsl96 s).val = (2 * s.val) % 2 ^ 96 := by
  rw [lsl96_eq s h]
  obtain ⟨h2, h1, h0⟩ := h
  simp only [Limbs.val]
  omega

theorem lsr96_eq (s : Limbs) (h : s.wf) :
    lsr96 s = { s2 := s.s2 / 2,
                s1 := s.s1 / 2 + (s.s2 % 2) * 2 ^ 31,
                s0 := s.s0 / 2 + (s.s1 % 2) * 2 ^ 31 } := by
  obtain ⟨h2, h1, h0⟩ := h
  have o1 : s.s1 / 2 ||| (s.s2 % 2) * 2 ^ 31 = s.s1 / 2 + (s.s2 % 2) * 2 ^ 31 :=
    or_eq_add' _ _ 31 (by omega) (by omega)
  have o0 : s.s0 / 2 ||| (s.s1 % 2) * 2 ^ 31 = s.s0 / 2 + (s.s1 % 2) * 2 ^ 31 :=
    or_eq_add' _ _ 31 (by omega) (by omega)
  have m1 : (s.s1 % 2) * 2 ^ 31 % 2 ^ 32 = (s.s1 % 2) * 2 ^ 31 := by omega
  have m2 : (s.s2 % 2) * 2 ^ 31 % 2 ^ 32 = (s.s2 % 2) * 2 ^ 31 := by omega
  simp only [lsr96, u32, Nat.shiftLeft_eq, Nat.shiftRight_eq_div_pow, Nat.and_one_is_mod,
    pow_one, m1, m2, o1, o0]
  congr 1 <;> omega

theorem lsr96_wf (s : Limbs) (h : s.wf) : (lsr96 s).wf := by
  rw [lsr96_eq s h]
  obtain ⟨h2, h1, h0⟩ := h
  simp only [Limbs.wf]
  omega

theorem lsr96_val (s : Limbs) (h : s.wf) : (lsr96 s).val = s.val / 2 := by
  rw [lsr96_eq s h]
  obtain ⟨h2, h1, h0⟩ := h
  simp only [Limbs.val]
  omega

theorem add96_wf (s d : Limbs) : (add96 s d).wf := by
  simp only [add96, Limbs.wf, u32]
  refine ⟨?_, ?_, ?_⟩ <;> exact Nat.mod_lt _ (by norm_num)

theorem add96_val (s d : Limbs) (hs : s.wf) (hd : d.wf) :
    (add96 s d).val = (s.val + d.val) % 2 ^ 96 := by
  obtain ⟨h2, h1, h0⟩ := hs
  obtain ⟨g2, g1, g0⟩ := hd
  simp only [add96, Limbs.val, u32, u64, Nat.shiftRight_eq_div_pow]
  omega


/-! ## Long division by ten -/

theorem and_low (x b : Nat) (m : Nat) (hm : m = 2 ^ b - 1) : x &&& m = x % 2 ^ b := by
  subst hm; exact Nat.and_pow_two_sub_one_eq_mod x b

theorem div10_aux1 (x r : Nat) (hx : x < 2 ^ 32) (hr : r < 10) :
    u32 ((x >>> 8) ||| u32 (r <<< 24)) = x / 256 + r * 2 ^ 24 := by
  simp only [u32, Nat.shiftLeft_eq, Nat.shiftRight_eq_div_pow]
  have : r * 2 ^ 24 % 2 ^ 32 = r * 2 ^ 24 := by omega
  rw [this, or_eq_add' _ _ 24 (by omega) (by omega)]
  omega

theorem div10_aux2 (x y r : Nat) (hy : y < 2 ^ 32) (hr : r < 10) :
    u32 (u32 ((x &&& 0xFF) <<< 16) ||| (y >>> 16) ||| u32 (r <<< 24))
      = (x % 256) * 2 ^ 16 + y / 2 ^ 16 + r * 2 ^ 24 := by
  rw [and_low x 8 0xFF (by norm_num)]
  simp only [u32, Nat.shiftLeft_eq, Nat.shiftRight_eq_div_pow]
  have e1 : r * 2 ^ 24 % 2 ^ 32 = r * 2 ^ 24 := by omega
  have e2 : x % 2 ^ 8 * 2 ^ 16 % 2 ^ 32 = x % 2 ^ 8 * 2 ^ 16 := by omega
  rw [e1, e2, or_eq_add (x % 2 ^ 8 * 2 ^ 16) (y / 2 ^ 16) 16 (by omega) (by omega),
    or_eq_add' (x % 2 ^ 8 * 2 ^ 16 + y / 2 ^ 16) (r * 2 ^ 24) 24 (by omega) (by omega)]
  omega

theorem div10_aux3 (q r0 : Nat) (hq : q < 2 ^ 24) (hr : r0 < 2 ^ 24) :
    u32 (u32 (q <<< 8) ||| ((r0 &&& 0x00FF0000) >>> 16)) = q * 256 + r0 / 2 ^ 16 := by
  have hm : (0x00FF0000 : Nat) = (2 ^ 8 - 1) * 2 ^ 16 := by norm_num
  rw [hm, and_mask_shifted]
  simp only [u32, Nat.shiftLeft_eq, Nat.shiftRight_eq_div_pow]
  rw [Nat.mul_div_cancel _ (by norm_num)]
  have e1 : q * 2 ^ 8 % 2 ^ 32 = q * 2 ^ 8 := by omega
  rw [e1, or_eq_add _ _ 8 (by omega) (by omega)]
  omega

theorem div10_aux4 (y r : Nat) (hr : r < 10) :
    u32 ((y &&& 0xFFFF) ||| u32 (r <<< 16)) = y % 2 ^ 16 + r * 2 ^ 16 := by
  rw [and_low y 16 0xFFFF (by norm_num)]
  simp only [u32, Nat.shiftLeft_eq]
  have e1 : r * 2 ^ 16 % 2 ^ 32 = r * 2 ^ 16 := by omega
  rw [e1, or_eq_add' _ _ 16 (by omega) (by omega)]
  omega

theorem div10_aux5 (r0 z : Nat) (hz : z < 2 ^ 16) :
    u32 (u32 (r0 <<< 16) ||| z) = (r0 % 2 ^ 16) * 2 ^ 16 + z := by
  simp only [u32, Nat.shiftLeft_eq]
  rw [or_eq_add _ _ 16 (by omega) hz]
  omega

theorem div10_eq (s : Limbs) (h : s.wf) :
    div10 s =
      { s2 := s.s2 / 10,
        s1 := (s.s1 / 256 + s.s2 % 10 * 2 ^ 24) / 10 * 256 +
          (s.s1 % 256 * 2 ^ 16 + s.s0 / 2 ^ 16 +
            (s.s1 / 256 + s.s2 % 10 * 2 ^ 24) % 10 * 2 ^ 24) / 10 / 2 ^ 16,
        s0 := (s.s1 % 256 * 2 ^ 16 + s.s0 / 2 ^ 16 +
            (s.s1 / 256 + s.s2 % 10 * 2 ^ 24) % 10 * 2 ^ 24) / 10 % 2 ^ 16 * 2 ^ 16 +
          (s.s0 % 2 ^ 16 + (s.s1 % 256 * 2 ^ 16 + s.s0 / 2 ^ 16 +
            (s.s1 / 256 + s.s2 % 10 * 2 ^ 24) % 10 * 2 ^ 24) % 10 * 2 ^ 16) / 10 } := by
  obtain ⟨h2, h1, h0⟩ := h
  simp only [div10]
  rw [div10_aux1 _ _ h1 (Nat.mod_lt _ (by norm_num)),
    div10_aux2 _ _ _ h0 (Nat.mod_lt _ (by norm_num)),
    div10_aux3 _ _ (by omega) (by omega),
    div10_aux4 _ _ (Nat.mod_lt _ (by norm_num)),
    div10_aux5 _ _ (by omega)]

theorem div10_wf (s : Limbs) (h : s.wf) : (div10 s).wf := by
  rw [div10_eq s h]
  obtain ⟨h2, h1, h0⟩ := h
  simp only [Limbs.wf]
  omega

theorem div10_val (s : Limbs) (h : s.wf) : (div10 s).val = s.val / 10 := by
  rw [div10_eq s h]
  obtain ⟨h2, h1, h0⟩ := h
  simp only [Limbs.val]
  omega

/-! ## Loop conditions of the converter -/

theorem mask28_eq : mask28 = (2 ^ 4 - 1) * 2 ^ 28 := by decide

theorem cond_mask28 (s : Limbs) (h : s.wf) : s.s2 &&& mask28 ≠ 0 ↔ 2 ^ 92 ≤ s.val := by
  obtain ⟨h2, h1, h0⟩ := h
  rw [mask28_eq, and_mask_shifted]
  simp only [Limbs.val]
  omega

theorem cond_bit31 (s : Limbs) (h : s.wf) : s.s2 &&& u32 (1 <<< 31) = 0 ↔ s.val < 2 ^ 95 := by
  obtain ⟨h2, h1, h0⟩ := h
  have e31 : u32 (1 <<< 31) = 2 ^ 31 := by decide
  rw [e31, and_bit]
  simp only [Limbs.val]
  omega

theorem cond_nonzero (s : Limbs) : (s.s2 ≠ 0 ∨ s.s1 ≠ 0 ∨ s.s0 ≠ 0) ↔ 0 < s.val := by
  simp only [Limbs.val]
  omega

/-! ## The inner loops of the converter -/

/-- A left-shift normalisation loop with threshold `B` multiplies the accumulator by
a power of two until it reaches `B`. -/
theorem shiftLeft_loop (cond : ConvState → Bool) (B : Nat) (hB : B ≤ 2 ^ 95)
    (hcond : ∀ t : ConvState, t.s.wf → (cond t = true ↔ t.s.val < B)) :
    ∀ (fuel : Nat) (st : ConvState), st.s.wf → B ≤ st.s.val * 2 ^ fuel →
      ∃ (t : Nat) (r : ConvState), whileLoop cond shiftLeftStep fuel st = some r ∧ r.s.wf ∧
        r.s.val = st.s.val * 2 ^ t ∧ r.binexp = st.binexp - t ∧ r.exponent = st.exponent ∧
        B ≤ r.s.val ∧ (t = 0 ∨ r.s.val < 2 * B) := by
  intro fuel
  induction fuel with
  | zero =>
    intro st hwf hfuel
    have hc : cond st = false := by
      rw [Bool.eq_false_iff, Ne, hcond st hwf]; simpa using hfuel
    exact ⟨0, st, whileLoop_stop _ _ _ _ hc, hwf, by simp, by simp, rfl, by simpa using hfuel,
      Or.inl rfl⟩
  | succ n ih =>
    intro st hwf hfuel
    cases hc : cond st with
    | false =>
      have hge : B ≤ st.s.val := by
        have := (hcond st hwf).not
        rw [hc] at this; simpa using this
      exact ⟨0, st, whileLoop_stop _ _ _ _ hc, hwf, by simp, by simp, rfl, hge, Or.inl rfl⟩
    | true =>
      have hlt : st.s.val < B := (hcond st hwf).1 hc
      have hv : (lsl96 st.s).val = 2 * st.s.val := by
        rw [lsl96_val _ hwf]; omega
      have hpow : st.s.val * 2 ^ (n + 1) = (2 * st.s.val) * 2 ^ n := by ring
      obtain ⟨t, r, hr, hrwf, hrv, hrb, hre, hrB, hrt⟩ :=
        ih { st with s := lsl96 st.s, binexp := st.binexp - 1 } (lsl96_wf _)
          (by simp only [hv]; rw [← hpow]; exact hfuel)
      refine ⟨t + 1, r, ?_, hrwf, ?_, ?_, hre, hrB, Or.inr ?_⟩
      · rw [whileLoop_step cond shiftLeftStep n st _ hc rfl]; exact hr
      · rw [hrv]; simp only [hv]; ring
      · rw [hrb]; push_cast; ring
      · rcases hrt with h0 | h
        · subst h0; rw [hrv]; simp only [hv]; omega
        · exact h

/-- The right-shift renormalisation loop halves the accumulator until it is below
2^92. -/
theorem shiftRight_loop :
    ∀ (fuel : Nat) (st : ConvState), st.s.wf → st.s.val < 2 ^ 92 * 2 ^ fuel →
      ∃ (t : Nat) (r : ConvState),
        whileLoop (fun t => decide (t.s.s2 &&& mask28 ≠ 0)) shiftRightStep fuel st = some r ∧
        r.s.wf ∧ r.s.val = st.s.val / 2 ^ t ∧ r.binexp = st.binexp + t ∧
        r.exponent = st.exponent ∧ r.s.val < 2 ^ 92 ∧ (t = 0 ∨ 2 ^ 91 ≤ r.s.val) ∧
        t ≤ fuel := by
  intro fuel
  induction fuel with
  | zero =>
    intro st hwf hfuel
    have hlt : st.s.val < 2 ^ 92 := by simpa using hfuel
    have hc : (fun t : ConvState => decide (t.s.s2 &&& mask28 ≠ 0)) st = false := by
      simp only [decide_eq_false_iff_not]
      rw [cond_mask28 _ hwf]; omega
    exact ⟨0, st, whileLoop_stop _ _ _ _ hc, hwf, by simp, by simp, rfl, hlt, Or.inl rfl,
      le_refl _⟩
  | succ n ih =>
    intro st hwf hfuel
    by_cases hge : 2 ^ 92 ≤ st.s.val
    · have hc : (fun t : ConvState => decide (t.s.s2 &&& mask28 ≠ 0)) st = true := by
        simp only [decide_eq_true_eq]
        rw [cond_mask28 _ hwf]; exact hge
      have hv : (lsr96 st.s).val = st.s.val / 2 := lsr96_val _ hwf
      have hpow : (2 : Nat) ^ 92 * 2 ^ (n + 1) = 2 * (2 ^ 92 * 2 ^ n) := by ring
      obtain ⟨t, r, hr, hrwf, hrv, hrb, hre, hrB, hrt, htn⟩ :=
        ih { st with s := lsr96 st.s, binexp := st.binexp + 1 } (lsr96_wf _ hwf)
          (by simp only [hv]; rw [hpow] at hfuel; omega)
      refine ⟨t + 1, r, ?_, hrwf, ?_, ?_, hre, hrB, Or.inr ?_, by omega⟩
      · rw [whileLoop_step _ shiftRightStep n st _ hc rfl]; exact hr
      · rw [hrv]; simp only [hv]
        rw [Nat.div_div_eq_div_mul, ← pow_succ']
      · rw [hrb]; push_cast; ring
      · rcases hrt with h0 | h
        · subst h0; rw [hrv]; simp only [hv]; simp only [pow_zero, Nat.div_one]; omega
        · exact h
    · have hc : (fun t : ConvState => decide (t.s.s2 &&& mask28 ≠ 0)) st = false := by
        simp only [decide_eq_false_iff_not]
        rw [cond_mask28 _ hwf]; exact hge
      exact ⟨0, st, whileLoop_stop _ _ _ _ hc, hwf, by simp, by simp, rfl, by omega, Or.inl rfl,
        by omega⟩

/-- One round of the multiply loop: the accumulator becomes `10 * s / 2 ^ t`. -/
theorem mulStep_spec (st : ConvState) (hwf : st.s.wf) (hlt : st.s.val < 2 ^ 92) :
    ∃ (t : Nat) (r : ConvState), mulStep st = some r ∧ r.s.wf ∧
      r.s.val = 10 * st.s.val / 2 ^ t ∧ r.binexp = st.binexp + t ∧
      r.exponent = st.exponent - 1 ∧ r.s.val < 2 ^ 92 ∧ (t = 0 ∨ 2 ^ 91 ≤ r.s.val) ∧
      t ≤ 96 := by
  have h1 : (lsl96 st.s).val = 2 * st.s.val := by rw [lsl96_val _ hwf]; omega
  have h2 : (lsl96 (lsl96 st.s)).val = 4 * st.s.val := by
    rw [lsl96_val _ (lsl96_wf _), h1]; omega
  have h3 : (lsl96 (lsl96 (lsl96 st.s))).val = 8 * st.s.val := by
    rw [lsl96_val _ (lsl96_wf _), h2]; omega
  have h4 : (add96 (lsl96 (lsl96 (lsl96 st.s))) (lsl96 st.s)).val = 10 * st.s.val := by
    rw [add96_val _ _ (lsl96_wf _) (lsl96_wf _), h3, h1]; omega
  obtain ⟨t, r, hr, hrwf, hrv, hrb, hre, hrB, hrt, ht⟩ :=
    shiftRight_loop 96
      { s := add96 (lsl96 (lsl96 (lsl96 st.s))) (lsl96 st.s), binexp := st.binexp,
        exponent := st.exponent - 1 } (add96_wf _ _) (by simp only [h4]; omega)
  refine ⟨t, r, hr, hrwf, ?_, hrb, hre, hrB, hrt, ht⟩
  rw [hrv]; simp only [h4]

/-- One round of the divide loop: the accumulator is shifted up to bit 95 and then
divided by ten. -/
theorem divStep_spec (st : ConvState) (hwf : st.s.wf) (hpos : 0 < st.s.val) :
    ∃ (t : Nat) (r : ConvState), divStep st = some r ∧ r.s.wf ∧
      r.s.val = st.s.val * 2 ^ t / 10 ∧ 2 ^ 95 ≤ st.s.val * 2 ^ t ∧ st.s.val * 2 ^ t < 2 ^ 96 ∧
      r.binexp = st.binexp - t ∧ r.exponent = st.exponent + 1 := by
  have hval : st.s.val < 2 ^ 96 := by
    obtain ⟨h2, h1, h0⟩ := hwf
    simp only [Limbs.val]; omega
  obtain ⟨t, r, hr, hrwf, hrv, hrb, hre, hrB, hrt⟩ :=
    shiftLeft_loop (fun t => decide (t.s.s2 &&& u32 (1 <<< 31) = 0)) (2 ^ 95) (le_refl _)
      (fun t ht => by simp only [decide_eq_true_eq]; exact cond_bit31 _ ht) 96 st hwf
      (by omega)
  refine ⟨t, { r with s := div10 r.s, exponent := r.exponent + 1 }, ?_, div10_wf _ hrwf, ?_,
    ?_, ?_, hrb, ?_⟩
  · simp only [divStep, hr, Option.map_some']
  · simp only [div10_val _ hrwf, hrv]
  · rw [← hrv]; exact hrB
  · rw [← hrv]
    rcases hrt with h0 | h
    · subst h0; rw [hrv]; simpa using hval
    · omega
  · simp only [hre]

/-- The final normalisation brings a non-zero accumulator to at least 2^92. -/
theorem normalize_spec (st : ConvState) (hwf : st.s.wf) (hpos : 0 < st.s.val) :
    ∃ (t : Nat) (r : ConvState), normalize st = some r ∧ r.s.wf ∧
      r.s.val = st.s.val * 2 ^ t ∧ 2 ^ 92 ≤ r.s.val ∧ (t = 0 ∨ r.s.val < 2 ^ 93) ∧
      r.binexp = st.binexp - t ∧ r.exponent = st.exponent := by
  obtain ⟨t, r, hr, hrwf, hrv, hrb, hre, hrB, hrt⟩ :=
    shiftLeft_loop (fun t => decide (t.s.s2 &&& mask28 = 0)) (2 ^ 92) (by norm_num)
      (fun t ht => by
        simp only [decide_eq_true_eq]
        have := (cond_mask28 _ ht).not
        rw [not_not] at this; rw [this]; omega) 96 st hwf
      (by omega)
  refine ⟨t, r, ?_, hrwf, hrv, hrB, ?_, hrb, hre⟩
  · have : st.s.s2 ≠ 0 ∨ st.s.s1 ≠ 0 ∨ st.s.s0 ≠ 0 := (cond_nonzero _).2 hpos
    simp only [normalize, if_pos this, hr]
  · rcases hrt with h | h
    · exact Or.inl h
    · exact Or.inr (by omega)

theorem fracBits_lt (s : Limbs) (h : s.wf) : fracBits s < 2 ^ 52 := by
  obtain ⟨h2, h1, h0⟩ := h
  exact Nat.or_lt_two_pow (by omega) (by omega)

/-- The pattern assembled when the biased exponent is in range and `s2` is non-zero. -/
theorem assemble_normal (negative : Nat) (B : Int) (s : Limbs) (h : s.wf) (hs2 : s.s2 ≠ 0)
    (hB1 : 1 ≤ B) (hB2 : B ≤ 2046) :
    assemble negative B s =
      (if negative ≠ 0 then 2 ^ 63 else 0) + B.toNat * 2 ^ 52 + fracBits s := by
  have hf := fracBits_lt s h
  obtain ⟨h2, h1, h0⟩ := h
  have hm : 0xFFFFFFFF ^^^ mask28 = 2 ^ 28 - 1 := by decide
  have e63 : u64 (1 <<< 63) = 2 ^ 63 := by decide
  have hBn : B.toNat ≤ 2046 := by omega
  have hx : u64 ((s.s2 &&& (0xFFFFFFFF ^^^ mask28)) <<< 24) = (s.s2 % 2 ^ 28) * 2 ^ 24 := by
    rw [hm, Nat.and_pow_two_sub_one_eq_mod, Nat.shiftLeft_eq, u64]; omega
  have hy : u64 (s.s1 + 128) >>> 8 = (s.s1 + 128) / 256 := by
    rw [Nat.shiftRight_eq_div_pow, u64]; omega
  have hz : u64 (B.toNat <<< 52) = B.toNat * 2 ^ 52 := by
    rw [Nat.shiftLeft_eq, u64]; omega
  have hq : fracBits s ||| B.toNat * 2 ^ 52 = fracBits s + B.toNat * 2 ^ 52 :=
    or_eq_add' _ _ 52 hf (by omega)
  unfold assemble
  rw [if_neg (by omega), if_neg (by omega), if_pos hs2]
  simp only [hx, hy, hz, e63]
  change (if negative ≠ 0 then (fracBits s ||| B.toNat * 2 ^ 52) ||| 2 ^ 63
    else (fracBits s ||| B.toNat * 2 ^ 52)) = _
  rw [hq]
  split
  · rw [or_eq_add' _ _ 63 (by omega) (by omega)]; omega
  · omega

/-- The initial accumulator holds the mantissa. -/
theorem init_limbs (m : Nat) (hm : m < 2 ^ 64) :
    (Limbs.mk 0 (u32 (m >>> 32)) (u32 (m &&& 0xFFFFFFFF))).wf ∧
    (Limbs.mk 0 (u32 (m >>> 32)) (u32 (m &&& 0xFFFFFFFF))).val = m := by
  have e : m &&& 0xFFFFFFFF = m % 2 ^ 32 := and_low m 32 _ (by norm_num)
  simp only [Limbs.wf, Limbs.val, e, u32, Nat.shiftRight_eq_div_pow]
  omega

/-- The multiply loop terminates and keeps a non-zero accumulator below 2^92. -/
theorem mulLoop_total (st : ConvState) (hwf : st.s.wf) (hpos : 0 < st.s.val)
    (hlt : st.s.val < 2 ^ 92) (he : 0 ≤ st.exponent) (fuel : Nat)
    (hfuel : st.exponent.toNat ≤ fuel) :
    ∃ r, whileLoop (fun t => decide (t.exponent > 0)) mulStep fuel st = some r ∧
      r.s.wf ∧ 0 < r.s.val ∧ r.s.val < 2 ^ 92 ∧ r.exponent = 0 := by
  have key := whileLoop_total (fun t : ConvState => decide (t.exponent > 0)) mulStep
      (fun t => t.s.wf ∧ 0 < t.s.val ∧ t.s.val < 2 ^ 92 ∧ 0 ≤ t.exponent)
      (fun t => t.exponent.toNat)
      (by
        rintro t ⟨g1, g2, g3, g4⟩ hc
        simp only [decide_eq_true_eq] at hc
        obtain ⟨k, r, hr, hrwf, hrv, -, hre, hrB, hrt, -⟩ := mulStep_spec t g1 g3
        refine ⟨r, hr, ⟨hrwf, ?_, hrB, by omega⟩, ?_⟩
        · rcases hrt with h0 | h
          · subst h0; rw [hrv]; simp only [pow_zero, Nat.div_one]; omega
          · omega
        · show r.exponent.toNat < t.exponent.toNat
          omega)
      fuel st ⟨hwf, hpos, hlt, he⟩ hfuel
  obtain ⟨r, hr, hP, hc⟩ := key
  obtain ⟨h1, h2, h3, h4⟩ := hP
  simp only [decide_eq_false_iff_not] at hc
  exact ⟨r, hr, h1, h2, h3, by omega⟩

/-- The divide loop terminates and keeps a non-zero accumulator. -/
theorem divLoop_total (st : ConvState) (hwf : st.s.wf) (hpos : 0 < st.s.val)
    (he : st.exponent ≤ 0) (fuel : Nat) (hfuel : (-st.exponent).toNat ≤ fuel) :
    ∃ r, whileLoop (fun t => decide (t.exponent < 0)) divStep fuel st = some r ∧
      r.s.wf ∧ 0 < r.s.val ∧ r.exponent = 0 := by
  have key := whileLoop_total (fun t : ConvState => decide (t.exponent < 0)) divStep
      (fun t => t.s.wf ∧ 0 < t.s.val ∧ t.exponent ≤ 0)
      (fun t => (-t.exponent).toNat)
      (by
        rintro t ⟨g1, g2, g3⟩ hc
        simp only [decide_eq_true_eq] at hc
        obtain ⟨k, r, hr, hrwf, hrv, hlo, -, -, hre⟩ := divStep_spec t g1 g2
        refine ⟨r, hr, ⟨hrwf, ?_, by omega⟩, ?_⟩
        · rw [hrv]; omega
        · show (-r.exponent).toNat < (-t.exponent).toNat
          omega)
      fuel st ⟨hwf, hpos, he⟩ hfuel
  obtain ⟨r, hr, hP, hc⟩ := key
  obtain ⟨h1, h2, h3⟩ := hP
  simp only [decide_eq_false_iff_not] at hc
  exact ⟨r, hr, h1, h2, by omega⟩

/-- For a non-zero mantissa the converter returns, and what it returns is the
assembly of a normalised accumulator. -/
theorem converter_total (pn : PrepNumber) (hm0 : 0 < pn.mantissa) (hm : pn.mantissa < 2 ^ 64) :
    ∃ (B : Int) (s : Limbs), converter pn = some (assemble pn.negative B s) ∧ s.wf ∧
      2 ^ 92 ≤ s.val := by
  obtain ⟨hwf0, hv0⟩ := init_limbs pn.mantissa hm
  unfold converter
  simp only
  rcases le_or_lt 0 pn.exponent with he | he
  · obtain ⟨r1, hr1, h1wf, h1pos, h1lt, h1e⟩ :=
      mulLoop_total ⟨⟨0, u32 (pn.mantissa >>> 32), u32 (pn.mantissa &&& 0xFFFFFFFF)⟩, 92,
        pn.exponent⟩ hwf0 (by simp only [hv0]; exact hm0)
        (by simp only [hv0]; omega) he _ (le_refl _)
    have hc : (fun t : ConvState => decide (t.exponent < 0)) r1 = false := by
      simp only [decide_eq_false_iff_not]; omega
    obtain ⟨t, r3, hr3, h3wf, -, h3lo, -, -, -⟩ := normalize_spec r1 h1wf h1pos
    rw [hr1]
    simp only [Option.some_bind]
    rw [whileLoop_stop (fun t : ConvState => decide (t.exponent < 0)) divStep _ r1 hc]
    simp only [Option.some_bind, hr3, Option.map_some']
    exact ⟨_, _, rfl, h3wf, h3lo⟩
  · have hc : (fun t : ConvState => decide (t.exponent > 0))
        ⟨⟨0, u32 (pn.mantissa >>> 32), u32 (pn.mantissa &&& 0xFFFFFFFF)⟩, 92, pn.exponent⟩
        = false := by
      simp only [decide_eq_false_iff_not]; omega
    obtain ⟨r2, hr2, h2wf, h2pos, h2e⟩ :=
      divLoop_total ⟨⟨0, u32 (pn.mantissa >>> 32), u32 (pn.mantissa &&& 0xFFFFFFFF)⟩, 92,
        pn.exponent⟩ hwf0 (by simp only [hv0]; exact hm0) (by simp only; omega) _ (le_refl _)
    obtain ⟨t, r3, hr3, h3wf, -, h3lo, -, -, -⟩ := normalize_spec r2 h2wf h2pos
    rw [whileLoop_stop (fun t : ConvState => decide (t.exponent > 0)) mulStep _ _ hc]
    simp only [Option.some_bind, hr2, hr3, Option.map_some']
    exact ⟨_, _, rfl, h3wf, h3lo⟩

theorem ISSPACE_ne_zero {c : Nat} (h : ISSPACE c = true) : c ≠ 0 := by
  rintro rfl; simp [ISSPACE] at h

theorem ISDIGIT_ne_zero {c : Nat} (h : ISDIGIT c = true) : c ≠ 0 := by
  rintro rfl; simp [ISDIGIT] at h

theorem ISEXP_ne_zero {c : Nat} (h : ISEXP c = true) : c ≠ 0 := by
  rintro rfl; simp [ISEXP] at h

theorem bufOK_ne_nil {st : ParserState} (h : bufOK st) (hc : st.c ≠ 0) : st.s ≠ [] := by
  rcases h with ⟨t, ht⟩ | ⟨-, h0⟩
  · rw [ht]; simp
  · exact absurd h0 hc

theorem GETC_eq_some {st t' : ParserState} (h : GETC st = some t') :
    ∃ x rest, st.s = x :: rest ∧ t' = { st with c := x, s := rest } := by
  unfold GETC at h
  split at h
  · cases h
  · next x rest hs => exact ⟨x, rest, hs, by cases h; rfl⟩

theorem GETC_isSome {st : ParserState} (h : st.s ≠ []) : (GETC st).isSome = true := by
  unfold GETC
  split
  · next hs => exact absurd hs h
  · rfl

theorem parserStep_isSome (st : ParserState) (h : bufOK st) : (parserStep st).isSome = true := by
  have key : st.c ≠ 0 → st.s ≠ [] := bufOK_ne_nil h
  unfold parserStep
  split <;> (try simp only []) <;> (try split_ifs) <;>
    first
    | rfl
    | (rw [Option.isSome_map']; apply GETC_isSome; apply key; omega)
    | (apply GETC_isSome; apply key
       first
       | omega
       | (apply ISSPACE_ne_zero; assumption)
       | (apply ISDIGIT_ne_zero; assumption)
       | (apply ISEXP_ne_zero; assumption)
       | (simp_all [DPOINT]))

theorem parserStep_eq_core (st : ParserState) :
    parserStep st = if (parserCore st).2 then GETC (parserCore st).1
      else some (parserCore st).1 := by
  rcases st with ⟨state, c, s, digx, expneg, expexp, pn⟩
  cases state <;> simp only [parserStep, parserCore] <;> (try split_ifs) <;>
    first
    | rfl
    | (cases s <;> simp_all [GETC])

theorem parserCore_c (st : ParserState) : (parserCore st).1.c = st.c := by
  rcases st with ⟨state, c, s, digx, expneg, expexp, pn⟩
  cases state <;> simp only [parserCore] <;> (try split_ifs) <;> rfl

theorem parserCore_s (st : ParserState) : (parserCore st).1.s = st.s := by
  rcases st with ⟨state, c, s, digx, expneg, expexp, pn⟩
  cases state <;> simp only [parserCore] <;> (try split_ifs) <;> rfl

theorem parserCore_read (st : ParserState) (h : (parserCore st).2 = true) : st.c ≠ 0 := by
  rcases st with ⟨state, c, s, digx, expneg, expexp, pn⟩
  rintro rfl
  cases state <;> simp [parserCore, ISSPACE, ISDIGIT, ISEXP, DPOINT] at h

theorem parserCore_state (st : ParserState) :
    st.state.toNat ≤ (parserCore st).1.state.toNat ∧
    ((parserCore st).2 = false → st.state ≠ Fsm.FSM_STOP →
      st.state.toNat < (parserCore st).1.state.toNat) := by
  rcases st with ⟨state, c, s, digx, expneg, expexp, pn⟩
  cases state <;> simp only [parserCore] <;> (try split_ifs) <;> simp [Fsm.toNat]

theorem parserStep_cases {t t' : ParserState} (h : parserStep t = some t') :
    ((parserCore t).2 = false ∧ t' = (parserCore t).1) ∨
    ((parserCore t).2 = true ∧ ∃ x rest, t.s = x :: rest ∧
      t' = { (parserCore t).1 with c := x, s := rest }) := by
  rw [parserStep_eq_core] at h
  cases hrd : (parserCore t).2 with
  | false =>
    rw [hrd] at h
    simp only [Bool.false_eq_true, if_false, Option.some.injEq] at h
    exact Or.inl ⟨rfl, h.symm⟩
  | true =>
    rw [hrd] at h
    simp only [if_true] at h
    obtain ⟨x, rest, hs, ht⟩ := GETC_eq_some h
    rw [parserCore_s] at hs
    exact Or.inr ⟨rfl, x, rest, hs, ht⟩

theorem parserStep_bufOK {t t' : ParserState} (hb : bufOK t) (h : parserStep t = some t') :
    bufOK t' ∧ (t.state ≠ Fsm.FSM_STOP → parserMeasure t' < parserMeasure t) := by
  have hst := parserCore_state t
  rcases parserStep_cases h with ⟨hrd, rfl⟩ | ⟨hrd, x, rest, hs, rfl⟩
  · constructor
    · simp only [bufOK, parserCore_s, parserCore_c]; exact hb
    · intro hne
      have := hst.2 hrd hne
      have hle : (parserCore t).1.state.toNat ≤ 9 := by
        cases (parserCore t).1.state <;> simp [Fsm.toNat]
      simp only [parserMeasure, parserCore_s]
      omega
  · constructor
    · rcases hb with ⟨u, hu⟩ | ⟨hnil, -⟩
      · rw [hs] at hu
        cases u with
        | nil =>
          simp only [List.nil_append, List.cons.injEq] at hu
          exact Or.inr ⟨hu.2, hu.1⟩
        | cons y u' =>
          simp only [List.cons_append, List.cons.injEq] at hu
          exact Or.inl ⟨u', hu.2⟩
      · rw [hs] at hnil; cases hnil
    · intro _
      have hle : (parserCore t).1.state.toNat ≤ 9 := by
        cases (parserCore t).1.state <;> simp [Fsm.toNat]
      have h1 := hst.1
      have h9 : t.state.toNat ≤ 9 := by cases t.state <;> simp [Fsm.toNat]
      simp only [parserMeasure, hs, List.length_cons]
      omega

/-- The parser loop, started inside a NUL-terminated buffer with enough fuel, reaches
`FSM_STOP`, and every invariant of the loop body holds of the final state. -/
theorem parserLoop_total (Q : ParserState → Prop)
    (hQ : ∀ t t', bufOK t → Q t → parserStep t = some t' → Q t')
    (st : ParserState) (hb : bufOK st) (hq : Q st) (fuel : Nat)
    (hfuel : parserMeasure st ≤ fuel) :
    ∃ r, whileLoop (fun st => decide (st.state ≠ Fsm.FSM_STOP)) parserStep fuel st = some r ∧
      r.state = Fsm.FSM_STOP ∧ bufOK r ∧ Q r := by
  have key := whileLoop_total (fun st : ParserState => decide (st.state ≠ Fsm.FSM_STOP))
    parserStep (fun t => bufOK t ∧ Q t) parserMeasure
    (by
      rintro t ⟨hb, hq⟩ hc
      simp only [decide_eq_true_eq] at hc
      have hsome := parserStep_isSome t hb
      obtain ⟨t', ht'⟩ := Option.isSome_iff_exists.1 hsome
      have := parserStep_bufOK hb ht'
      exact ⟨t', ht', ⟨this.1, hQ t t' hb hq ht'⟩, this.2 hc⟩)
    fuel st ⟨hb, hq⟩ hfuel
  obtain ⟨r, hr, hP, hc⟩ := key
  simp only [ne_eq, decide_not, Bool.not_eq_false', decide_eq_true_eq] at hc
  exact ⟨r, hr, hc, hP.1, hP.2⟩

theorem bufOK_init (l : List Nat) (pn : PrepNumber) : bufOK (parserInit (l ++ [0]) pn) :=
  Or.inl ⟨l, rfl⟩

theorem parserMeasure_init (s : List Nat) (pn : PrepNumber) :
    parserMeasure (parserInit s pn) ≤ s.length + 10 := by
  simp [parserMeasure, parserInit, Fsm.toNat]

theorem absorb_bound (m c digx : Nat) (hm : m < 10 ^ digx) (hc : ISDIGIT c = true)
    (hx : digx < 18) :
    u64 (u64 (m * 10) + (c - 48)) = m * 10 + (c - 48) ∧ m * 10 + (c - 48) < 10 ^ (digx + 1) := by
  have hd : c - 48 ≤ 9 := by
    simp only [ISDIGIT, Bool.and_eq_true, decide_eq_true_eq] at hc; omega
  have h17 : 10 ^ digx ≤ 10 ^ 17 := Nat.pow_le_pow_right (by norm_num) (by omega)
  have hs : (10 : Nat) ^ (digx + 1) = 10 ^ digx * 10 := pow_succ 10 digx
  have h1 : m * 10 + (c - 48) < 10 ^ digx * 10 := by omega
  refine ⟨?_, by rw [hs]; exact h1⟩
  simp only [u64]
  have : m * 10 + (c - 48) < 2 ^ 64 := by
    have : (10 : Nat) ^ 17 * 10 < 2 ^ 64 := by norm_num
    omega
  omega

theorem parserCore_mantOK (st : ParserState) (h : mantOK st) : mantOK (parserCore st).1 := by
  rcases st with ⟨state, c, s, digx, expneg, expexp, pn⟩
  obtain ⟨h1, h2⟩ := h
  simp only at h1 h2
  cases state <;> simp only [parserCore] <;> (try split_ifs) <;>
    first
    | exact ⟨h1, h2⟩
    | (rename_i hd hx
       simp only [DIGITS] at hx
       obtain ⟨e1, e2⟩ := absorb_bound _ _ _ h2 hd hx
       exact ⟨by simp only; omega, by simp only [e1]; exact e2⟩)

theorem parserCore_mantissa_of_not_digit (st : ParserState) (h : ISDIGIT st.c = false) :
    (parserCore st).1.pn.mantissa = st.pn.mantissa := by
  rcases st with ⟨state, c, s, digx, expneg, expexp, pn⟩
  simp only at h
  cases state <;> simp only [parserCore, h] <;> (try split_ifs) <;> simp_all

theorem firstNonSpace_cons_space (c : Nat) (s : List Nat) (h : ISSPACE c = true) :
    firstNonSpace (c :: s) = firstNonSpace s := by
  simp [firstNonSpace, List.dropWhile, h]

theorem firstNonSpace_cons_other (c : Nat) (s : List Nat) (h : ISSPACE c = false) :
    firstNonSpace (c :: s) = c := by
  simp [firstNonSpace, List.dropWhile, h]

theorem parserStep_signOK (f : Nat) (t t' : ParserState) (hJ : signOK f t)
    (h : parserStep t = some t') : signOK f t' := by
  rcases t with ⟨state, c, s, digx, expneg, expexp, pn⟩
  obtain ⟨j0, j1, j2, j3⟩ := hJ
  simp only at j0 j1 j2 j3
  have hcases := parserStep_cases h
  cases state <;> simp only [parserCore] at hcases
  case FSM_A =>
    obtain ⟨hn, hf⟩ := j1 rfl
    by_cases hsp : ISSPACE c = true
    · simp only [hsp, if_true, Bool.true_eq_false, false_and, true_and, false_or] at hcases
      obtain ⟨x, rest, hs, rfl⟩ := hcases
      subst hs
      rw [firstNonSpace_cons_space _ _ hsp] at hf
      exact ⟨j0, fun _ => ⟨hn, hf⟩, by simp, by simp⟩
    · simp only [hsp, if_false, Bool.false_eq_true, false_and, true_and, or_false] at hcases
      subst hcases
      rw [firstNonSpace_cons_other _ _ (by simpa using hsp)] at hf
      exact ⟨j0, by simp, fun _ => ⟨hn, hf⟩, by simp⟩
  case FSM_B =>
    obtain ⟨hn, hf⟩ := j2 rfl
    subst hf
    split_ifs at hcases with h43 h45 hd hp <;>
      simp only [Bool.true_eq_false, Bool.false_eq_true, false_and, true_and, false_or,
        or_false] at hcases
    · obtain ⟨x, rest, hs, rfl⟩ := hcases
      exact ⟨j0, by simp, by simp, fun _ _ => by simp only [hn]; omega⟩
    · obtain ⟨x, rest, hs, rfl⟩ := hcases
      exact ⟨by simp, by simp, by simp, fun _ _ => by simp [h45]⟩
    · subst hcases
      exact ⟨j0, by simp, by simp, fun _ _ => by simp only [hn]; omega⟩
    · subst hcases
      exact ⟨j0, by simp, by simp, fun _ _ => by simp only [hn]; omega⟩
    · subst hcases
      exact ⟨j0, by simp, by simp, fun _ _ => by simp only [hn]; omega⟩
  all_goals
    have j := j3 (by simp) (by simp)
    (try split_ifs at hcases) <;>
      simp only [Bool.true_eq_false, Bool.false_eq_true, false_and, true_and, false_or,
        or_false] at hcases <;>
      first
      | (subst hcases; exact ⟨j0, by simp, by simp, fun _ _ => j⟩)
      | (obtain ⟨x, rest, hs, rfl⟩ := hcases
         exact ⟨j0, by simp, by simp, fun _ _ => j⟩)

theorem parserStep_mantOK (t t' : ParserState) (hm : mantOK t)
    (h : parserStep t = some t') : mantOK t' := by
  have := parserCore_mantOK t hm
  rcases parserStep_cases h with ⟨-, rfl⟩ | ⟨-, x, rest, -, rfl⟩
  · exact this
  · exact this

theorem parserStep_noDigit (t t' : ParserState) (hn : noDigit t)
    (h : parserStep t = some t') : noDigit t' := by
  obtain ⟨h1, h2⟩ := hn
  have hc : ISDIGIT t.c = false := h1 _ (List.mem_cons_self _ _)
  have hm := parserCore_mantissa_of_not_digit t hc
  rcases parserStep_cases h with ⟨-, rfl⟩ | ⟨-, x, rest, hs, rfl⟩
  · refine ⟨?_, by rw [hm]; exact h2⟩
    rw [parserCore_c, parserCore_s]; exact h1
  · refine ⟨?_, by simp only [hm]; exact h2⟩
    intro y hy
    apply h1
    rw [hs]
    exact List.mem_cons_of_mem _ hy

theorem assemble_shape (negative : Nat) (B : Int) (s : Limbs) (h : s.wf)
    (hv : 2 ^ 92 ≤ s.val) : shapeOK negative (assemble negative B s) := by
  have hs2 : s.s2 ≠ 0 := by
    obtain ⟨h2, h1, h0⟩ := h
    simp only [Limbs.val] at hv
    omega
  by_cases h1 : B > 2046
  · right; left
    simp only [assemble, if_pos h1, signBits, DOUBLE_MINUS_INFINITY, DOUBLE_PLUS_INFINITY]
    split <;> norm_num
  · by_cases h2 : B < 1
    · left
      simp only [assemble, if_neg h1, if_pos h2, signBits, DOUBLE_MINUS_ZERO]
      split <;> norm_num
    · right; right
      refine ⟨B.toNat, fracBits s, by omega, by omega, fracBits_lt s h, ?_⟩
      rw [assemble_normal negative B s h hs2 (by omega) (by omega)]
      rfl

/-- Every run of the parser on a NUL-terminated buffer reaches `FSM_STOP` with the
invariants of the loop. -/
theorem parser_run (l : List Nat) :
    ∃ r, parser (l ++ [0]) ⟨0, 0, 0⟩ = some (parserFinish r) ∧ r.state = Fsm.FSM_STOP ∧
      mantOK r ∧ signOK (firstNonSpace (l ++ [0])) r ∧
      ((∀ x ∈ l, ISDIGIT x = false) → noDigit r) := by
  have key := parserLoop_total
    (fun t => mantOK t ∧ signOK (firstNonSpace (l ++ [0])) t ∧
      ((∀ x ∈ l, ISDIGIT x = false) → noDigit t))
    (by
      rintro t t' - ⟨h1, h2, h3⟩ hstep
      exact ⟨parserStep_mantOK t t' h1 hstep, parserStep_signOK _ t t' h2 hstep,
        fun hl => parserStep_noDigit t t' (h3 hl) hstep⟩)
    (parserInit (l ++ [0]) ⟨0, 0, 0⟩) (bufOK_init l _)
    (by
      refine ⟨⟨by simp [parserInit], by simp [parserInit]⟩, ⟨by simp [parserInit], ?_, ?_, ?_⟩,
        ?_⟩
      · intro _
        refine ⟨rfl, ?_⟩
        exact firstNonSpace_cons_space 32 _ (by decide)
      · intro h; simp [parserInit] at h
      · intro h; simp [parserInit] at h
      · intro hl
        refine ⟨?_, rfl⟩
        intro x hx
        simp only [parserInit, List.mem_cons, List.mem_append, List.mem_singleton,
          List.not_mem_nil, or_false] at hx
        rcases hx with rfl | hx | rfl
        · decide
        · exact hl x hx
        · decide)
    ((l ++ [0]).length + 10) (parserMeasure_init _ _)
  obtain ⟨r, hr, hstop, -, hm, hs, hn⟩ := key
  exact ⟨r, by simp only [parser, hr, Option.map_some'], hstop, hm, hs, hn⟩

theorem str2dbl_eq_dispatch (s : List Nat) (q : Nat × PrepNumber)
    (h : parser s ⟨0, 0, 0⟩ = some q) :
    str2dbl s =
      if q.1 = PARSER_OK then converter q.2
      else if q.1 = PARSER_PZERO then some DOUBLE_PLUS_ZERO
      else if q.1 = PARSER_MZERO then some DOUBLE_MINUS_ZERO
      else if q.1 = PARSER_PINF then some DOUBLE_PLUS_INFINITY
      else if q.1 = PARSER_MINF then some DOUBLE_MINUS_INFINITY
      else none := by
  simp only [str2dbl, h, Option.some_bind]

theorem parserFinish_negative (r : ParserState) :
    (parserFinish r).2.negative = r.pn.negative := rfl

theorem parserFinish_mantissa (r : ParserState) :
    (parserFinish r).2.mantissa = r.pn.mantissa := rfl

/-- The classification made by the parser after the loop. -/
theorem parserFinish_status (r : ParserState) :
    (r.pn.mantissa = 0 ∧ r.pn.negative ≠ 0 ∧ (parserFinish r).1 = PARSER_MZERO) ∨
    (r.pn.mantissa = 0 ∧ r.pn.negative = 0 ∧ (parserFinish r).1 = PARSER_PZERO) ∨
    (r.pn.mantissa ≠ 0 ∧ (parserFinish r).2.exponent > 309 ∧ r.pn.negative ≠ 0 ∧
      (parserFinish r).1 = PARSER_MINF) ∨
    (r.pn.mantissa ≠ 0 ∧ (parserFinish r).2.exponent > 309 ∧ r.pn.negative = 0 ∧
      (parserFinish r).1 = PARSER_PINF) ∨
    (r.pn.mantissa ≠ 0 ∧ (parserFinish r).2.exponent < -328 ∧ r.pn.negative ≠ 0 ∧
      (parserFinish r).1 = PARSER_MZERO) ∨
    (r.pn.mantissa ≠ 0 ∧ (parserFinish r).2.exponent < -328 ∧ r.pn.negative = 0 ∧
      (parserFinish r).1 = PARSER_PZERO) ∨
    (r.pn.mantissa ≠ 0 ∧ -328 ≤ (parserFinish r).2.exponent ∧
      (parserFinish r).2.exponent ≤ 309 ∧ (parserFinish r).1 = PARSER_OK) := by
  unfold parserFinish
  simp only
  by_cases hz : r.pn.mantissa = 0
  · by_cases hng : r.pn.negative ≠ 0
    · left; exact ⟨hz, hng, by rw [if_pos hz, if_pos hng]⟩
    · right; left; exact ⟨hz, by simpa using hng, by rw [if_pos hz, if_neg hng]⟩
  · rw [if_neg hz]
    by_cases h309 : wrap32 (r.pn.exponent + if r.expneg ≠ 0 then -r.expexp else r.expexp) > 309
    · rw [if_pos h309]
      by_cases hng : r.pn.negative ≠ 0
      · right; right; left; exact ⟨hz, h309, hng, by rw [if_pos hng]⟩
      · right; right; right; left
        exact ⟨hz, h309, by simpa using hng, by rw [if_neg hng]⟩
    · rw [if_neg h309]
      by_cases h328 :
          wrap32 (r.pn.exponent + if r.expneg ≠ 0 then -r.expexp else r.expexp) < -328
      · rw [if_pos h328]
        by_cases hng : r.pn.negative ≠ 0
        · right; right; right; right; left; exact ⟨hz, h328, hng, by rw [if_pos hng]⟩
        · right; right; right; right; right; left
          exact ⟨hz, h328, by simpa using hng, by rw [if_neg hng]⟩
      · rw [if_neg h328]
        right; right; right; right; right; right
        exact ⟨hz, by omega, by omega, rfl⟩

/-- The driver returns a pattern of one of the three shapes, signed by the flag the
parser computed; a zero mantissa gives a signed zero. -/
theorem str2dbl_shape (l : List Nat) :
    ∃ (r : ParserState) (p : Nat), str2dbl (l ++ [0]) = some p ∧
      parser (l ++ [0]) ⟨0, 0, 0⟩ = some (parserFinish r) ∧
      shapeOK r.pn.negative p ∧ (r.pn.mantissa = 0 → p = signBits r.pn.negative) ∧
      r.pn.negative ≤ 1 ∧ (r.pn.negative ≠ 0 ↔ firstNonSpace (l ++ [0]) = 45) ∧
      ((∀ x ∈ l, ISDIGIT x = false) → r.pn.mantissa = 0) := by
  obtain ⟨r, hp, hstop, hm, hs, hn⟩ := parser_run l
  have hneg : r.pn.negative ≠ 0 ↔ firstNonSpace (l ++ [0]) = 45 :=
    hs.2.2.2 (by rw [hstop]; simp) (by rw [hstop]; simp)
  have hm64 : r.pn.mantissa < 2 ^ 64 := by
    have h18 : 10 ^ r.digx ≤ 10 ^ 18 := Nat.pow_le_pow_right (by norm_num) hm.1
    have := hm.2
    have : (10 : Nat) ^ 18 < 2 ^ 64 := by norm_num
    omega
  have hdrv := str2dbl_eq_dispatch _ _ hp
  have e1 : PARSER_PZERO ≠ PARSER_OK := by decide
  have e2 : PARSER_MZERO ≠ PARSER_OK := by decide
  have e3 : PARSER_MZERO ≠ PARSER_PZERO := by decide
  have e4 : PARSER_PINF ≠ PARSER_OK := by decide
  have e5 : PARSER_PINF ≠ PARSER_PZERO := by decide
  have e6 : PARSER_PINF ≠ PARSER_MZERO := by decide
  have e7 : PARSER_MINF ≠ PARSER_OK := by decide
  have e8 : PARSER_MINF ≠ PARSER_PZERO := by decide
  have e9 : PARSER_MINF ≠ PARSER_MZERO := by decide
  have e10 : PARSER_MINF ≠ PARSER_PINF := by decide
  have zneg : ∀ n : Nat, n ≠ 0 → DOUBLE_MINUS_ZERO = signBits n := by
    intro n hn; simp only [signBits, if_pos hn, DOUBLE_MINUS_ZERO]; norm_num
  have zpos : ∀ n : Nat, n = 0 → DOUBLE_PLUS_ZERO = signBits n := by
    intro n hn; simp only [signBits, hn, DOUBLE_PLUS_ZERO]; norm_num
  have ineg : ∀ n : Nat, n ≠ 0 → DOUBLE_MINUS_INFINITY = signBits n + 0x7FF0000000000000 := by
    intro n hn; simp only [signBits, if_pos hn, DOUBLE_MINUS_INFINITY]; norm_num
  have ipos : ∀ n : Nat, n = 0 → DOUBLE_PLUS_INFINITY = signBits n + 0x7FF0000000000000 := by
    intro n hn; simp only [signBits, hn, DOUBLE_PLUS_INFINITY]; norm_num
  have hfin : ∃ p, str2dbl (l ++ [0]) = some p ∧ shapeOK r.pn.negative p ∧
      (r.pn.mantissa = 0 → p = signBits r.pn.negative) := by
    rcases parserFinish_status r with ⟨hz, hng, hst⟩ | ⟨hz, hng, hst⟩ | ⟨hz, -, hng, hst⟩ |
      ⟨hz, -, hng, hst⟩ | ⟨hz, -, hng, hst⟩ | ⟨hz, -, hng, hst⟩ | ⟨hz, -, -, hst⟩
    · rw [hst, if_neg e2, if_neg e3, if_pos rfl] at hdrv
      exact ⟨_, hdrv, Or.inl (zneg _ hng), fun _ => zneg _ hng⟩
    · rw [hst, if_neg e1, if_pos rfl] at hdrv
      exact ⟨_, hdrv, Or.inl (zpos _ hng), fun _ => zpos _ hng⟩
    · rw [hst, if_neg e7, if_neg e8, if_neg e9, if_neg e10, if_pos rfl] at hdrv
      exact ⟨_, hdrv, Or.inr (Or.inl (ineg _ hng)), fun h => absurd h hz⟩
    · rw [hst, if_neg e4, if_neg e5, if_neg e6, if_pos rfl] at hdrv
      exact ⟨_, hdrv, Or.inr (Or.inl (ipos _ hng)), fun h => absurd h hz⟩
    · rw [hst, if_neg e2, if_neg e3, if_pos rfl] at hdrv
      exact ⟨_, hdrv, Or.inl (zneg _ hng), fun h => absurd h hz⟩
    · rw [hst, if_neg e1, if_pos rfl] at hdrv
      exact ⟨_, hdrv, Or.inl (zpos _ hng), fun h => absurd h hz⟩
    · rw [hst, if_pos rfl] at hdrv
      obtain ⟨B, s, hc, hwf, hv⟩ := converter_total (parserFinish r).2
        (by rw [parserFinish_mantissa]; exact Nat.pos_of_ne_zero hz)
        (by rw [parserFinish_mantissa]; exact hm64)
      rw [hc, parserFinish_negative] at hdrv
      exact ⟨_, hdrv, assemble_shape _ B s hwf hv, fun h => absurd h hz⟩
  obtain ⟨p, hp1, hp2, hp3⟩ := hfin
  exact ⟨r, p, hp1, hp, hp2, hp3, hs.1, hneg, fun hl => (hn hl).2⟩

theorem inert_zero : inert 0 := by
  simp [inert, ISSPACE, ISDIGIT, ISEXP, DPOINT]

theorem parserCore_inert (st : ParserState) (h : inert st.c) :
    parserCore st = ({ st with state := skipState st.state }, false) := by
  rcases st with ⟨state, c, s, digx, expneg, expexp, pn⟩
  obtain ⟨h1, h2, h3, h4, h5, h6⟩ := h
  simp only at h1 h2 h3 h4 h5 h6
  have h48 : c ≠ 48 := by
    rintro rfl; simp [ISDIGIT] at h4
  cases state <;> simp [parserCore, skipState, h1, h2, h3, h4, h5, h6, h48]

theorem parserCore_with_s (st : ParserState) (s' : List Nat) :
    parserCore { st with s := s' } =
      ({ (parserCore st).1 with s := s' }, (parserCore st).2) := by
  rcases st with ⟨state, c, s, digx, expneg, expexp, pn⟩
  cases state <;> simp only [parserCore] <;> (try split_ifs) <;> rfl

theorem sameCtl_eq {a b : ParserState} (h : sameCtl a b) (hc : a.c = b.c) :
    b = { a with s := b.s } := by
  rcases a with ⟨state, c, s, digx, expneg, expexp, pn⟩
  rcases b with ⟨state', c', s', digx', expneg', expexp', pn'⟩
  obtain ⟨h1, h2, h3, h4, h5⟩ := h
  simp only at h1 h2 h3 h4 h5 hc
  subst h1 h2 h3 h4 h5 hc
  rfl

theorem simRel_step (x : Nat) (rest : List Nat) (hx : inert x) (a b a' : ParserState)
    (hR : simRel x rest a b) (h : parserStep a = some a') :
    ∃ b', parserStep b = some b' ∧ simRel x rest a' b' := by
  obtain ⟨hctl, hcs⟩ := hR
  rcases hcs with ⟨hc, t, hat, hbt⟩ | ⟨hia, hib⟩
  · have hb := sameCtl_eq hctl hc
    have hcore : parserCore b = ({ (parserCore a).1 with s := b.s }, (parserCore a).2) := by
      rw [hb]; exact parserCore_with_s a b.s
    rw [parserStep_eq_core, hcore]
    rcases parserStep_cases h with ⟨hrd, rfl⟩ | ⟨hrd, y, r, hs, rfl⟩
    · refine ⟨{ (parserCore a).1 with s := b.s },
        by simp only [hrd, Bool.false_eq_true, if_false], ?_, Or.inl ?_⟩
      · exact ⟨rfl, rfl, rfl, rfl, rfl⟩
      · refine ⟨rfl, t, ?_, hbt⟩
        rw [parserCore_s]; exact hat
    · simp only [hrd, if_true]
      rw [hat] at hs
      cases t with
      | nil =>
        simp only [List.nil_append, List.cons.injEq] at hs
        obtain ⟨rfl, rfl⟩ := hs
        simp only [List.nil_append] at hbt
        refine ⟨{ (parserCore a).1 with c := x, s := rest }, ?_, ?_, Or.inr ⟨inert_zero, hx⟩⟩
        · simp only [GETC, hbt]
        · exact ⟨rfl, rfl, rfl, rfl, rfl⟩
      | cons z t' =>
        simp only [List.cons_append, List.cons.injEq] at hs
        obtain ⟨rfl, rfl⟩ := hs
        simp only [List.cons_append] at hbt
        refine ⟨{ (parserCore a).1 with c := z, s := t' ++ x :: rest }, ?_, ?_,
          Or.inl ⟨rfl, t', rfl, rfl⟩⟩
        · simp only [GETC, hbt]
        · exact ⟨rfl, rfl, rfl, rfl, rfl⟩
  · have ha := parserCore_inert a hia
    have hb := parserCore_inert b hib
    rw [parserStep_eq_core, ha] at h
    simp only [Bool.false_eq_true, if_false, Option.some.injEq] at h
    subst h
    refine ⟨{ b with state := skipState b.state }, ?_, ?_, Or.inr ⟨hia, hib⟩⟩
    · rw [parserStep_eq_core, hb]; simp only [Bool.false_eq_true, if_false]
    · obtain ⟨h1, h2, h3, h4, h5⟩ := hctl
      exact ⟨by simp only [h1], h2, h3, h4, h5⟩

theorem simRel_loop (x : Nat) (rest : List Nat) (hx : inert x) :
    ∀ (fuel1 : Nat) (a b r1 : ParserState), simRel x rest a b →
      whileLoop (fun st => decide (st.state ≠ Fsm.FSM_STOP)) parserStep fuel1 a = some r1 →
      ∀ (fuel2 : Nat) (r2 : ParserState),
        whileLoop (fun st => decide (st.state ≠ Fsm.FSM_STOP)) parserStep fuel2 b = some r2 →
        simRel x rest r1 r2 := by
  intro fuel1
  induction fuel1 with
  | zero =>
    intro a b r1 hR h1 fuel2 r2 h2
    by_cases hstop : a.state = Fsm.FSM_STOP
    · have hca : (fun st : ParserState => decide (st.state ≠ Fsm.FSM_STOP)) a = false := by
        simp [hstop]
      have hcb : (fun st : ParserState => decide (st.state ≠ Fsm.FSM_STOP)) b = false := by
        simp [← hR.1.1, hstop]
      rw [whileLoop_stop (fun st : ParserState => decide (st.state ≠ Fsm.FSM_STOP)) parserStep _ a hca] at h1
      rw [whileLoop_stop (fun st : ParserState => decide (st.state ≠ Fsm.FSM_STOP)) parserStep _ b hcb] at h2
      cases h1; cases h2; exact hR
    · simp [whileLoop, hstop] at h1
  | succ n ih =>
    intro a b r1 hR h1 fuel2 r2 h2
    by_cases hstop : a.state = Fsm.FSM_STOP
    · have hca : (fun st : ParserState => decide (st.state ≠ Fsm.FSM_STOP)) a = false := by
        simp [hstop]
      have hcb : (fun st : ParserState => decide (st.state ≠ Fsm.FSM_STOP)) b = false := by
        simp [← hR.1.1, hstop]
      rw [whileLoop_stop (fun st : ParserState => decide (st.state ≠ Fsm.FSM_STOP)) parserStep _ a hca] at h1
      rw [whileLoop_stop (fun st : ParserState => decide (st.state ≠ Fsm.FSM_STOP)) parserStep _ b hcb] at h2
      cases h1; cases h2; exact hR
    · have hca : (fun st : ParserState => decide (st.state ≠ Fsm.FSM_STOP)) a = true := by
        simp [hstop]
      have hcb : (fun st : ParserState => decide (st.state ≠ Fsm.FSM_STOP)) b = true := by
        simp [← hR.1.1, hstop]
      cases hsa : parserStep a with
      | none => simp [whileLoop, hstop, hsa] at h1
      | some a' =>
        rw [whileLoop_step (fun st : ParserState => decide (st.state ≠ Fsm.FSM_STOP)) parserStep n a a' hca hsa] at h1
        obtain ⟨b', hsb, hR'⟩ := simRel_step x rest hx a b a' hR hsa
        cases fuel2 with
        | zero => simp [whileLoop, hcb] at h2
        | succ m =>
          rw [whileLoop_step (fun st : ParserState => decide (st.state ≠ Fsm.FSM_STOP)) parserStep m b b' hcb hsb] at h2
          exact ih a' b' r1 hR' h1 m r2 h2

theorem parserFinish_sameCtl {a b : ParserState} (h : sameCtl a b) :
    parserFinish a = parserFinish b := by
  obtain ⟨-, -, h3, h4, h5⟩ := h
  simp only [parserFinish, h3, h4, h5]

/-- The parser result does not depend on what follows a character that is not
consumed. -/
theorem parser_ignores_tail (pn : PrepNumber) (p g : List Nat) (x : Nat) (hx : inert x) :
    parser (p ++ x :: g ++ [0]) pn = parser (p ++ [0]) pn := by
  obtain ⟨r1, h1, -, -, -⟩ := parserLoop_total (fun _ => True) (fun _ _ _ _ _ => trivial)
    (parserInit (p ++ [0]) pn) (bufOK_init p pn) trivial _ (parserMeasure_init _ _)
  have e : p ++ x :: g ++ [0] = (p ++ x :: g) ++ [0] := by simp
  obtain ⟨r2, h2, -, -, -⟩ := parserLoop_total (fun _ => True) (fun _ _ _ _ _ => trivial)
    (parserInit ((p ++ x :: g) ++ [0]) pn) (bufOK_init _ pn) trivial _ (parserMeasure_init _ _)
  have hR : simRel x (g ++ [0]) (parserInit (p ++ [0]) pn)
      (parserInit ((p ++ x :: g) ++ [0]) pn) :=
    ⟨⟨rfl, rfl, rfl, rfl, rfl⟩, Or.inl ⟨rfl, p, rfl, by simp [parserInit]⟩⟩
  have := simRel_loop x (g ++ [0]) hx _ _ _ r1 hR h1 _ r2 h2
  rw [e]
  simp only [parser, h1, h2, Option.map_some', parserFinish_sameCtl this.1]

theorem Steps.trans {a b c : ParserState} (h1 : Steps a b) (h2 : Steps b c) : Steps a c := by
  induction h1 with
  | refl => exact h2
  | step hne h _ ih => exact Steps.step hne h (ih h2)

theorem Steps.one {a a' : ParserState} (hne : a.state ≠ Fsm.FSM_STOP)
    (h : parserStep a = some a') : Steps a a' :=
  Steps.step hne h (Steps.refl a')

/-- The loop returns the `FSM_STOP` state of an execution. -/
theorem Steps.result {a b : ParserState} (h : Steps a b) (hb : b.state = Fsm.FSM_STOP) :
    ∀ (fuel : Nat) (r : ParserState),
      whileLoop (fun st => decide (st.state ≠ Fsm.FSM_STOP)) parserStep fuel a = some r →
      r = b := by
  induction h with
  | refl a =>
    intro fuel r hr
    have hc : (fun st : ParserState => decide (st.state ≠ Fsm.FSM_STOP)) a = false := by
      simp [hb]
    rw [whileLoop_stop (fun st : ParserState => decide (st.state ≠ Fsm.FSM_STOP))
      parserStep _ a hc] at hr
    cases hr; rfl
  | @step a a' b hne h _ ih =>
    intro fuel r hr
    have hc : (fun st : ParserState => decide (st.state ≠ Fsm.FSM_STOP)) a = true := by
      simp [hne]
    cases fuel with
    | zero => simp [whileLoop, hne] at hr
    | succ n =>
      rw [whileLoop_step (fun st : ParserState => decide (st.state ≠ Fsm.FSM_STOP))
        parserStep n a a' hc h] at hr
      exact ih hb n r hr

/-- An execution from the initial state to `FSM_STOP` determines the parser result. -/
theorem parser_of_steps (l : List Nat) (pn : PrepNumber) (b : ParserState)
    (h : Steps (parserInit (l ++ [0]) pn) b) (hb : b.state = Fsm.FSM_STOP) :
    parser (l ++ [0]) pn = some (parserFinish b) := by
  obtain ⟨r, hr, -, -, -⟩ := parserLoop_total (fun _ => True) (fun _ _ _ _ _ => trivial)
    (parserInit (l ++ [0]) pn) (bufOK_init l pn) trivial _ (parserMeasure_init _ _)
  have := Steps.result h hb _ r hr
  subst this
  simp only [parser, hr, Option.map_some']

/-! ### Single steps -/

theorem step_A_space (c x : Nat) (s : List Nat) (digx expneg : Nat) (expexp : Int)
    (pn : PrepNumber) (hc : ISSPACE c = true) :
    parserStep ⟨.FSM_A, c, x :: s, digx, expneg, expexp, pn⟩ =
      some ⟨.FSM_A, x, s, digx, expneg, expexp, pn⟩ := by
  simp [parserStep, GETC, hc]

theorem step_A_other (c : Nat) (s : List Nat) (digx expneg : Nat) (expexp : Int)
    (pn : PrepNumber) (hc : ISSPACE c = false) :
    parserStep ⟨.FSM_A, c, s, digx, expneg, expexp, pn⟩ =
      some ⟨.FSM_B, c, s, digx, expneg, expexp, pn⟩ := by
  simp [parserStep, hc]

theorem step_B_digit (c : Nat) (s : List Nat) (digx expneg : Nat) (expexp : Int)
    (pn : PrepNumber) (hc : ISDIGIT c = true) :
    parserStep ⟨.FSM_B, c, s, digx, expneg, expexp, pn⟩ =
      some ⟨.FSM_C, c, s, digx, expneg, expexp, pn⟩ := by
  have h1 : c ≠ 43 := by rintro rfl; simp [ISDIGIT] at hc
  have h2 : c ≠ 45 := by rintro rfl; simp [ISDIGIT] at hc
  simp [parserStep, hc, h1, h2]

theorem step_C_nonzero_digit (c : Nat) (s : List Nat) (digx expneg : Nat) (expexp : Int)
    (pn : PrepNumber) (hc : ISDIGIT c = true) (h0 : c ≠ 48) :
    parserStep ⟨.FSM_C, c, s, digx, expneg, expexp, pn⟩ =
      some ⟨.FSM_E, c, s, digx, expneg, expexp, pn⟩ := by
  have h1 : c ≠ DPOINT := by rintro rfl; simp [ISDIGIT, DPOINT] at hc
  simp [parserStep, h0, h1]

theorem step_E_absorb (c x : Nat) (s : List Nat) (digx expneg : Nat) (expexp : Int)
    (neg : Nat) (e : Int) (m : Nat) (hc : ISDIGIT c = true) (hx : digx < 18)
    (hm : m < 10 ^ digx) :
    parserStep ⟨.FSM_E, c, x :: s, digx, expneg, expexp, ⟨neg, e, m⟩⟩ =
      some ⟨.FSM_E, x, s, digx + 1, expneg, expexp, ⟨neg, e, m * 10 + (c - 48)⟩⟩ := by
  have := (absorb_bound m c digx hm hc hx).1
  simp [parserStep, GETC, hc, DIGITS, hx, this]

theorem step_E_skip (c x : Nat) (s : List Nat) (digx expneg : Nat) (expexp : Int)
    (neg : Nat) (e : Int) (m : Nat) (hc : ISDIGIT c = true) (hx : ¬ digx < 18)
    (he : e < 2147483647) :
    parserStep ⟨.FSM_E, c, x :: s, digx, expneg, expexp, ⟨neg, e, m⟩⟩ =
      some ⟨.FSM_E, x, s, digx, expneg, expexp, ⟨neg, e + 1, m⟩⟩ := by
  simp [parserStep, GETC, hc, DIGITS, hx, he]

theorem step_E_exp (c x : Nat) (s : List Nat) (digx expneg : Nat) (expexp : Int)
    (pn : PrepNumber) (hc : ISEXP c = true) :
    Steps ⟨.FSM_E, c, x :: s, digx, expneg, expexp, pn⟩
      ⟨.FSM_G, x, s, digx, expneg, expexp, pn⟩ := by
  have hd : ISDIGIT c = false := by
    simp only [ISEXP, Bool.or_eq_true, decide_eq_true_eq] at hc
    rcases hc with rfl | rfl <;> decide
  have hp : c ≠ DPOINT := by
    simp only [ISEXP, Bool.or_eq_true, decide_eq_true_eq] at hc
    rcases hc with rfl | rfl <;> decide
  have h1 : parserStep ⟨.FSM_E, c, x :: s, digx, expneg, expexp, pn⟩ =
      some ⟨.FSM_F, c, x :: s, digx, expneg, expexp, pn⟩ := by
    simp [parserStep, hd, hp]
  have h2 : parserStep ⟨.FSM_F, c, x :: s, digx, expneg, expexp, pn⟩ =
      some ⟨.FSM_G, x, s, digx, expneg, expexp, pn⟩ := by
    simp [parserStep, GETC, hd, hc]
  exact Steps.step (by simp) h1 (Steps.one (by simp) h2)

theorem step_G_digit (c : Nat) (s : List Nat) (digx expneg : Nat) (expexp : Int)
    (pn : PrepNumber) (hc : ISDIGIT c = true) :
    parserStep ⟨.FSM_G, c, s, digx, expneg, expexp, pn⟩ =
      some ⟨.FSM_H, c, s, digx, expneg, expexp, pn⟩ := by
  have h1 : c ≠ 43 := by rintro rfl; simp [ISDIGIT] at hc
  have h2 : c ≠ 45 := by rintro rfl; simp [ISDIGIT] at hc
  simp [parserStep, h1, h2]

theorem step_H_nonzero (c : Nat) (s : List Nat) (digx expneg : Nat) (expexp : Int)
    (pn : PrepNumber) (h0 : c ≠ 48) :
    parserStep ⟨.FSM_H, c, s, digx, expneg, expexp, pn⟩ =
      some ⟨.FSM_I, c, s, digx, expneg, expexp, pn⟩ := by
  simp [parserStep, h0]

theorem step_I_absorb (c x : Nat) (s : List Nat) (digx expneg : Nat) (expexp : Int)
    (pn : PrepNumber) (hc : ISDIGIT c = true) (he : expexp < 214748364) :
    parserStep ⟨.FSM_I, c, x :: s, digx, expneg, expexp, pn⟩ =
      some ⟨.FSM_I, x, s, digx, expneg, expexp * 10 + ((c : Int) - 48), pn⟩ := by
  simp [parserStep, GETC, hc, he]

/-- From any state looking at NUL the loop runs to `FSM_STOP` without reading and
without changing the record. -/
theorem steps_at_nul (st : Fsm) (s : List Nat) (digx expneg : Nat) (expexp : Int)
    (pn : PrepNumber) :
    Steps ⟨st, 0, s, digx, expneg, expexp, pn⟩ ⟨.FSM_STOP, 0, s, digx, expneg, expexp, pn⟩ := by
  have one : ∀ f : Fsm, f ≠ Fsm.FSM_STOP →
      parserStep ⟨f, 0, s, digx, expneg, expexp, pn⟩ =
        some ⟨skipState f, 0, s, digx, expneg, expexp, pn⟩ := by
    intro f _
    rw [parserStep_eq_core, parserCore_inert _ inert_zero]
    rfl
  have hI := Steps.one (by simp) (one .FSM_I (by simp))
  have hH := Steps.step (by simp) (one .FSM_H (by simp)) hI
  have hG := Steps.step (by simp) (one .FSM_G (by simp)) hH
  have hF := Steps.step (by simp) (one .FSM_F (by simp)) hG
  have hE := Steps.step (by simp) (one .FSM_E (by simp)) hF
  have hD := Steps.step (by simp) (one .FSM_D (by simp)) hF
  have hC := Steps.step (by simp) (one .FSM_C (by simp)) hE
  have hB := Steps.one (by simp) (one .FSM_B (by simp))
  have hA := Steps.step (by simp) (one .FSM_A (by simp)) hB
  cases st
  · exact hA
  · exact hB
  · exact hC
  · exact hD
  · exact hE
  · exact hF
  · exact hG
  · exact hH
  · exact hI
  · exact Steps.refl _

theorem horner_cons (m c : Nat) (ds : List Nat) :
    horner m (c :: ds) = horner (m * 10 + (c - 48)) ds := by
  simp [horner]

theorem horner_pos (ds : List Nat) : ∀ m : Nat, 0 < m → 0 < horner m ds := by
  induction ds with
  | nil => intro m hm; simpa [horner] using hm
  | cons d ds ih =>
    intro m hm
    rw [horner_cons]
    exact ih _ (by omega)

theorem steps_E_absorb (y : Nat) (rest : List Nat) (expneg : Nat) (expexp : Int) (neg : Nat)
    (e : Int) :
    ∀ (ds : List Nat) (c digx m : Nat), (∀ d ∈ c :: ds, ISDIGIT d = true) →
      digx + (ds.length + 1) ≤ 18 → m < 10 ^ digx →
      Steps ⟨.FSM_E, c, ds ++ y :: rest, digx, expneg, expexp, ⟨neg, e, m⟩⟩
        ⟨.FSM_E, y, rest, digx + (ds.length + 1), expneg, expexp,
          ⟨neg, e, horner m (c :: ds)⟩⟩ := by
  intro ds
  induction ds with
  | nil =>
    intro c digx m hd hx hm
    have hc := hd c (List.mem_cons_self _ _)
    simp only [List.length_nil, zero_add] at hx
    have := step_E_absorb c y rest digx expneg expexp neg e m hc (by omega) hm
    simp only [List.nil_append, horner_cons, List.length_nil, zero_add]
    exact Steps.one (by simp) this
  | cons d ds ih =>
    intro c digx m hd hx hm
    have hc := hd c (List.mem_cons_self _ _)
    simp only [List.length_cons] at hx
    have h1 := step_E_absorb c d (ds ++ y :: rest) digx expneg expexp neg e m hc (by omega) hm
    have hb := (absorb_bound m c digx hm hc (by omega)).2
    have h2 := ih d (digx + 1) (m * 10 + (c - 48))
      (fun z hz => hd z (List.mem_cons_of_mem _ hz)) (by omega) hb
    rw [horner_cons]
    have e1 : digx + ((d :: ds).length + 1) = digx + 1 + (ds.length + 1) := by
      simp only [List.length_cons]; omega
    rw [e1]
    exact Steps.step (by simp) h1 h2

theorem steps_E_skip (y : Nat) (rest : List Nat) (digx expneg : Nat) (expexp : Int) (neg : Nat)
    (m : Nat) (hx : ¬ digx < 18) :
    ∀ (ds : List Nat) (c : Nat) (e : Int), (∀ d ∈ c :: ds, ISDIGIT d = true) →
      e + (ds.length + 1 : Nat) ≤ 2147483647 →
      Steps ⟨.FSM_E, c, ds ++ y :: rest, digx, expneg, expexp, ⟨neg, e, m⟩⟩
        ⟨.FSM_E, y, rest, digx, expneg, expexp, ⟨neg, e + (ds.length + 1 : Nat), m⟩⟩ := by
  intro ds
  induction ds with
  | nil =>
    intro c e hd he
    have hc := hd c (List.mem_cons_self _ _)
    simp only [List.length_nil, zero_add, Nat.cast_one] at he ⊢
    exact Steps.one (by simp)
      (step_E_skip c y rest digx expneg expexp neg e m hc hx (by omega))
  | cons d ds ih =>
    intro c e hd he
    have hc := hd c (List.mem_cons_self _ _)
    simp only [List.length_cons, Nat.cast_add, Nat.cast_one] at he
    have h1 := step_E_skip c d (ds ++ y :: rest) digx expneg expexp neg e m hc hx (by omega)
    have h2 := ih d (e + 1) (fun z hz => hd z (List.mem_cons_of_mem _ hz))
      (by push_cast; omega)
    have e1 : e + ((d :: ds).length + 1 : Nat) = e + 1 + (ds.length + 1 : Nat) := by
      simp only [List.length_cons]; push_cast; ring
    rw [e1]
    exact Steps.step (by simp) h1 h2

theorem step_I_any (c x : Nat) (s : List Nat) (digx expneg : Nat) (expexp : Int)
    (pn : PrepNumber) (hc : ISDIGIT c = true) :
    parserStep ⟨.FSM_I, c, x :: s, digx, expneg, expexp, pn⟩ =
      some ⟨.FSM_I, x, s, digx, expneg, absorbExp expexp c, pn⟩ := by
  by_cases he : expexp < 214748364
  · simp [parserStep, GETC, hc, he, absorbExp]
  · simp [parserStep, GETC, hc, he, absorbExp]

theorem steps_I_absorb (y : Nat) (rest : List Nat) (digx expneg : Nat) (pn : PrepNumber) :
    ∀ (ds : List Nat) (c : Nat) (expexp : Int), (∀ d ∈ c :: ds, ISDIGIT d = true) →
      Steps ⟨.FSM_I, c, ds ++ y :: rest, digx, expneg, expexp, pn⟩
        ⟨.FSM_I, y, rest, digx, expneg, (c :: ds).foldl absorbExp expexp, pn⟩ := by
  intro ds
  induction ds with
  | nil =>
    intro c expexp hd
    exact Steps.one (by simp)
      (step_I_any c y rest digx expneg expexp pn (hd c (List.mem_cons_self _ _)))
  | cons d ds ih =>
    intro c expexp hd
    have h1 := step_I_any c d (ds ++ y :: rest) digx expneg expexp pn
      (hd c (List.mem_cons_self _ _))
    have h2 := ih d (absorbExp expexp c) (fun z hz => hd z (List.mem_cons_of_mem _ hz))
    exact Steps.step (by simp) h1 h2

/-! ### Decimal representations -/

theorem decimal_zero : decimal 0 = [] := by simp [decimal]

theorem decimal_pos (k : Nat) (hk : 0 < k) :
    decimal k = decimal (k / 10) ++ [k % 10 + 48] := by
  simp only [decimal]
  rw [Nat.digits_def' (by norm_num) hk]
  simp

theorem decimal_isdigit (k : Nat) : ∀ d ∈ decimal k, ISDIGIT d = true := by
  intro d hd
  simp only [decimal, List.mem_map, List.mem_reverse] at hd
  obtain ⟨x, hx, rfl⟩ := hd
  have := Nat.digits_lt_base (by norm_num : 1 < 10) hx
  simp only [ISDIGIT, Bool.and_eq_true, decide_eq_true_eq]
  omega

theorem decimal_head (k : Nat) (hk : 0 < k) : ∃ c ds, decimal k = c :: ds ∧ c ≠ 48 := by
  induction k using Nat.strong_induction_on with
  | _ k ih =>
    rw [decimal_pos k hk]
    by_cases h10 : k < 10
    · have : k / 10 = 0 := by omega
      rw [this, decimal_zero]
      exact ⟨k % 10 + 48, [], rfl, by omega⟩
    · obtain ⟨c, ds, hds, hc⟩ := ih (k / 10) (by omega) (by omega)
      rw [hds]
      exact ⟨c, ds ++ [k % 10 + 48], rfl, hc⟩

theorem absorbExp_of_lt (e : Int) (d : Nat) (h : e < 214748364) :
    absorbExp e d = e * 10 + ((d : Int) - 48) := by
  unfold absorbExp
  exact if_pos h

theorem foldl_snoc_aux (l : List Nat) (x : Nat) (e : Int) :
    (l ++ [x]).foldl absorbExp e = absorbExp (l.foldl absorbExp e) x := by
  rw [List.foldl_append]; rfl

theorem decimal_last_digit (k : Nat)  :
   ((k / 10 : Nat) : Int) * 10 + (((k % 10 + 48 : Nat) : Int) - 48) = (k : Int) := by
  push_cast
  omega

theorem foldl_absorbExp_decimal (k : Nat) (hk : k < 2147483640) :
    (decimal k).foldl absorbExp 0 = (k : Int) := by
  induction k using Nat.strong_induction_on with
  | _ k ih =>
    by_cases h0 : k = 0
    · subst h0; rw [decimal_zero]; rfl
    · have ih' := ih (k / 10) (by omega) (by omega)
      have hlt : ((k / 10 : Nat) : Int) < 214748364 := by omega
      rw [decimal_pos k (by omega), foldl_snoc_aux, ih', absorbExp_of_lt _ _ hlt]
      exact decimal_last_digit k

theorem ISDIGIT_not_space {c : Nat} (h : ISDIGIT c = true) : ISSPACE c = false := by
  simp only [ISDIGIT, Bool.and_eq_true, decide_eq_true_eq] at h
  simp only [ISSPACE, Bool.or_eq_false_iff, Bool.and_eq_false_iff, decide_eq_false_iff_not]
  omega

/-- From the initial state the loop reaches `FSM_E` looking at a leading non-zero
digit. -/
theorem steps_to_E (d : Nat) (s : List Nat) (pn : PrepNumber) (hd : ISDIGIT d = true)
    (h0 : d ≠ 48) : Steps (parserInit (d :: s) pn) ⟨.FSM_E, d, s, 0, 0, 0, pn⟩ := by
  refine Steps.step (by simp [parserInit]) (step_A_space 32 d s 0 0 0 pn (by decide)) ?_
  refine Steps.step (by simp) (step_A_other d s 0 0 0 pn (ISDIGIT_not_space hd)) ?_
  refine Steps.step (by simp) (step_B_digit d s 0 0 0 pn hd) ?_
  exact Steps.one (by simp) (step_C_nonzero_digit d s 0 0 0 pn hd h0)

theorem wrap32_of_range (x : Int) (h1 : -2147483648 ≤ x) (h2 : x < 2147483648) :
    wrap32 x = x := by
  unfold wrap32
  omega

theorem parserFinish_pos (f : Fsm) (c : Nat) (s : List Nat) (digx : Nat) (ee e : Int) (M : Nat)
    (hM : M ≠ 0) (K : Nat) (hK : e + ee = (K : Int)) (hK1 : 1 ≤ K) (hK2 : K < 2 ^ 31) :
    parserFinish ⟨f, c, s, digx, 0, ee, ⟨0, e, M⟩⟩ =
      (if K ≤ 309 then PARSER_OK else PARSER_PINF, ⟨0, (K : Int), M⟩) := by
  have hw : wrap32 (e + ee) = (K : Int) := by
    rw [hK]; exact wrap32_of_range _ (by omega) (by omega)
  simp only [parserFinish, ne_eq, not_true_eq_false, if_false, hw, if_neg hM]
  by_cases h309 : K ≤ 309
  · have h1 : ¬ ((K : Int) > 309) := by omega
    have h2 : ¬ ((K : Int) < -328) := by omega
    simp only [h1, h2, if_false, if_pos h309]
  · have h1 : (K : Int) > 309 := by omega
    simp only [h1, if_true, if_neg h309]

/-! ## Number theory of exact conversions -/

/-- A number that is at least `2 ^ q` and whose odd part divides `K < 2 ^ p` is
divisible by `2 ^ (q + 1 - p)`. -/
theorem two_pow_dvd_of_small_odd_part (Y C K n p q : Nat) (h : Y * C = K * 2 ^ n) (hK0 : 0 < K)
    (hK : K < 2 ^ p) (hY : 2 ^ q ≤ Y) : 2 ^ (q + 1 - p) ∣ Y := by
  have hY0 : Y ≠ 0 := by
    have : 0 < 2 ^ q := pow_pos (by norm_num) _
    omega
  obtain ⟨α, o, ho, rfl⟩ := Nat.exists_eq_two_pow_mul_odd hY0
  have hdvd : o ∣ K * 2 ^ n := by
    rw [← h]
    exact Dvd.dvd.mul_right (Dvd.intro_left _ rfl) C
  have hcop : Nat.Coprime o (2 ^ n) := Nat.Coprime.pow_right n ho.coprime_two_right
  have hoK : o ∣ K := hcop.dvd_of_dvd_mul_right hdvd
  have hle : o ≤ K := Nat.le_of_dvd hK0 hoK
  have hlt : 2 ^ q < 2 ^ (α + p) := by
    calc 2 ^ q ≤ 2 ^ α * o := hY
      _ < 2 ^ α * 2 ^ p := by
        exact mul_lt_mul_of_pos_left (by omega) (pow_pos (by norm_num) _)
      _ = 2 ^ (α + p) := (pow_add 2 α p).symm
  have hqa : q < α + p := (Nat.pow_lt_pow_iff_right (by norm_num)).1 hlt
  exact Dvd.dvd.mul_right (Nat.pow_dvd_pow 2 (by omega)) o

/-- Divisibility by five passes through a power of two. -/
theorem five_dvd_of_mul_two_pow (Y a K x : Nat) (h : Y * 2 ^ a = K * 10 ^ x) (hx : 1 ≤ x) :
    5 ∣ Y := by
  have h5 : 5 ∣ Y * 2 ^ a := by
    rw [h]
    apply Dvd.dvd.mul_left
    exact Dvd.dvd.trans (by norm_num) (dvd_pow_self 10 (by omega))
  have hcop : Nat.Coprime 5 (2 ^ a) := Nat.Coprime.pow_right a (by norm_num)
  exact hcop.dvd_of_dvd_mul_right h5

/-- A normalised accumulator that represents a 53-bit significand is that significand
shifted by 40 bits. -/
theorem normal_unique (s u k v : Nat) (h : s * 2 ^ u = k * 2 ^ v) (hs1 : 2 ^ 92 ≤ s)
    (hs2 : s < 2 ^ 93) (hk1 : 2 ^ 52 ≤ k) (hk2 : k < 2 ^ 53) : v = u + 40 ∧ s = k * 2 ^ 40 := by
  have hu : 0 < 2 ^ u := pow_pos (by norm_num) _
  have hv : 0 < 2 ^ v := pow_pos (by norm_num) _
  have h1 : 2 ^ (92 + u) < 2 ^ (53 + v) := by
    calc 2 ^ (92 + u) = 2 ^ 92 * 2 ^ u := pow_add 2 92 u
      _ ≤ s * 2 ^ u := Nat.mul_le_mul_right _ hs1
      _ = k * 2 ^ v := h
      _ < 2 ^ 53 * 2 ^ v := Nat.mul_lt_mul_of_pos_right hk2 hv
      _ = 2 ^ (53 + v) := (pow_add 2 53 v).symm
  have h2 : 2 ^ (52 + v) < 2 ^ (93 + u) := by
    calc 2 ^ (52 + v) = 2 ^ 52 * 2 ^ v := pow_add 2 52 v
      _ ≤ k * 2 ^ v := Nat.mul_le_mul_right _ hk1
      _ = s * 2 ^ u := h.symm
      _ < 2 ^ 93 * 2 ^ u := Nat.mul_lt_mul_of_pos_right hs2 hu
      _ = 2 ^ (93 + u) := (pow_add 2 93 u).symm
  have e1 := (Nat.pow_lt_pow_iff_right (by norm_num : 1 < 2)).1 h1
  have e2 := (Nat.pow_lt_pow_iff_right (by norm_num : 1 < 2)).1 h2
  have hvu : v = u + 40 := by omega
  refine ⟨hvu, ?_⟩
  subst hvu
  have : s * 2 ^ u = (k * 2 ^ 40) * 2 ^ u := by rw [h, pow_add]; ring
  exact Nat.eq_of_mul_eq_mul_right hu this

/-- Splitting an integer power of a rational into numerator and denominator. -/
theorem zpow_split (B : ℚ) (z : ℤ) :
    B ^ z = B ^ z.toNat / B ^ (-z).toNat := by
  rcases le_or_lt 0 z with hz | hz
  · have e1 : (-z).toNat = 0 := by omega
    have e2 : (z.toNat : ℤ) = z := Int.toNat_of_nonneg hz
    rw [e1, pow_zero, div_one, ← zpow_natCast, e2]
  · have e1 : z.toNat = 0 := by omega
    have e2 : ((-z).toNat : ℤ) = -z := Int.toNat_of_nonneg (by omega)
    rw [e1, pow_zero, one_div, ← zpow_natCast, e2, zpow_neg, inv_inv]

/-- The exactness hypothesis `m * 10^e = k * 2^j` over the rationals, cleared of
denominators. -/
theorem exact_value_nat (m k : Nat) (e j : Int)
    (h : (m : ℚ) * (10 : ℚ) ^ e = (k : ℚ) * (2 : ℚ) ^ j) :
    m * 10 ^ e.toNat * 2 ^ (-j).toNat = k * 2 ^ j.toNat * 10 ^ (-e).toNat := by
  rw [zpow_split 10 e, zpow_split 2 j] at h
  have h10 : ((10 : ℚ) ^ (-e).toNat) ≠ 0 := pow_ne_zero _ (by norm_num)
  have h2 : ((2 : ℚ) ^ (-j).toNat) ≠ 0 := pow_ne_zero _ (by norm_num)
  field_simp at h
  have : ((m * 10 ^ e.toNat * 2 ^ (-j).toNat : Nat) : ℚ) =
      ((k * 2 ^ j.toNat * 10 ^ (-e).toNat : Nat) : ℚ) := by
    push_cast
    linarith
  exact_mod_cast this

theorem shift_count_exact (Y u k c C : Nat) (hY : Y * C = k * 2 ^ c) (hk0 : 0 < k)
    (hk : k < 2 ^ 53) (hlt : Y < 10 * 2 ^ 92) (h91 : u = 0 ∨ 2 ^ 91 ≤ Y / 2 ^ u) :
    2 ^ u ∣ Y := by
  rcases Nat.eq_zero_or_pos u with h0 | hupos
  · subst h0; simp
  · have h91' : 2 ^ 91 ≤ Y / 2 ^ u := by
      rcases h91 with h | h
      · omega
      · exact h
    have hge : 2 ^ 91 * 2 ^ u ≤ Y :=
      (Nat.le_div_iff_mul_le (pow_pos (by norm_num) u)).1 h91'
    have hu4 : u < 5 := by
      have h96 : 2 ^ 91 * 2 ^ u < 2 ^ 91 * 2 ^ 5 := by omega
      have := Nat.lt_of_mul_lt_mul_left h96
      exact (Nat.pow_lt_pow_iff_right (by norm_num : 1 < 2)).1 this
    have h92 : 2 ^ 92 ≤ Y := by
      have : 2 ^ 1 ≤ 2 ^ u := Nat.pow_le_pow_right (by norm_num) hupos
      omega
    have h40 : 2 ^ 40 ∣ Y := two_pow_dvd_of_small_odd_part Y C k c 53 92 hY hk0 hk h92
    exact Dvd.dvd.trans (Nat.pow_dvd_pow 2 (by omega)) h40

theorem pow_ten_pred (x : Nat) (hx : 1 ≤ x) : (10 : Nat) ^ x = 10 * 10 ^ (x - 1) := by
  obtain ⟨y, rfl⟩ : ∃ y, x = y + 1 := ⟨x - 1, by omega⟩
  rw [Nat.add_sub_cancel, pow_succ, Nat.mul_comm]

theorem mulStep_exact (X a k c : Nat) (hX : X * 2 ^ a = k * 2 ^ c) (hk0 : 0 < k)
    (hk : k < 2 ^ 53) (t : ConvState) (hP : mulInv X t) (hpos : 0 < t.exponent) :
    ∃ r, mulStep t = some r ∧ mulInv X r ∧ r.exponent = t.exponent - 1 := by
  obtain ⟨hwf, hv0, hv, b, x, hb, hx, hinv⟩ := hP
  obtain ⟨u, r, hr, hrwf, hrv, hrb, hre, hrlt, hru, -⟩ := mulStep_spec t hwf hv
  have hx1 : 1 ≤ x := by omega
  have e10 := pow_ten_pred x hx1
  have hY : 10 * t.s.val * (2 ^ b * 10 ^ (x - 1) * 2 ^ a) = k * 2 ^ c := by
    rw [← hX, ← hinv, e10]; ring
  have hdvd : 2 ^ u ∣ 10 * t.s.val :=
    shift_count_exact _ u k c _ hY hk0 hk (by omega) (by rw [← hrv]; exact hru)
  have hmul : r.s.val * 2 ^ u = 10 * t.s.val := by
    rw [hrv]; exact Nat.div_mul_cancel hdvd
  have hrpos : 0 < r.s.val := by
    rcases Nat.eq_zero_or_pos r.s.val with h0 | h0
    · rw [h0, Nat.zero_mul] at hmul; omega
    · exact h0
  have hbin : r.binexp = 92 + ((b + u : Nat) : Int) := by
    rw [hrb, hb]; push_cast; ring
  have hexp : r.exponent = ((x - 1 : Nat) : Int) := by
    rw [hre, hx]; omega
  have hnew : r.s.val * 2 ^ (b + u) * 10 ^ (x - 1) = X := by
    rw [← hinv, e10, pow_add]
    calc r.s.val * (2 ^ b * 2 ^ u) * 10 ^ (x - 1)
        = (r.s.val * 2 ^ u) * 2 ^ b * 10 ^ (x - 1) := by ring
      _ = 10 * t.s.val * 2 ^ b * 10 ^ (x - 1) := by rw [hmul]
      _ = t.s.val * 2 ^ b * (10 * 10 ^ (x - 1)) := by ring
  exact ⟨r, hr, ⟨hrwf, hrpos, hrlt, b + u, x - 1, hbin, hexp, hnew⟩, hre⟩

theorem ten_dvd_shifted (Y d m n a k c N x : Nat) (hY : Y * 10 ^ d = m * 2 ^ n)
    (hval : m * 2 ^ a = k * 2 ^ c * 10 ^ N) (hdx : d + x = N) (hx1 : 1 ≤ x)
    (hm0 : 0 < m) (hm : m < 2 ^ 60) (hlo : 2 ^ 95 ≤ Y) : 10 ∣ Y := by
  have h36 : 2 ^ 36 ∣ Y :=
    two_pow_dvd_of_small_odd_part Y (10 ^ d) m n 60 95 hY hm0 hm hlo
  have h2 : 2 ∣ Y := Dvd.dvd.trans (by norm_num) h36
  have h5 : 5 ∣ Y := by
    have h10 : 0 < 10 ^ d := pow_pos (by norm_num) d
    have key : Y * 2 ^ a * 10 ^ d = k * 2 ^ (c + n) * 10 ^ x * 10 ^ d := by
      have eN : (10 : Nat) ^ N = 10 ^ d * 10 ^ x := by rw [← hdx, pow_add]
      calc Y * 2 ^ a * 10 ^ d
          = (Y * 10 ^ d) * 2 ^ a := by ring
        _ = m * 2 ^ n * 2 ^ a := by rw [hY]
        _ = (m * 2 ^ a) * 2 ^ n := by ring
        _ = k * 2 ^ c * 10 ^ N * 2 ^ n := by rw [hval]
        _ = k * 2 ^ (c + n) * 10 ^ x * 10 ^ d := by rw [eN, pow_add]; ring
    have key' := Nat.eq_of_mul_eq_mul_right h10 key
    exact five_dvd_of_mul_two_pow _ a _ x key' hx1
  have : (2 * 5) ∣ Y := Nat.Coprime.mul_dvd_of_dvd_of_dvd (by norm_num) h2 h5
  exact this

theorem divStep_exact (m N a k c : Nat) (e : Int) (hval : m * 2 ^ a = k * 2 ^ c * 10 ^ N)
    (hm0 : 0 < m) (hm : m < 2 ^ 60) (t : ConvState) (hP : divInv m N e t)
    (hneg : t.exponent < 0) :
    ∃ r, divStep t = some r ∧ divInv m N e r ∧ r.exponent = t.exponent + 1 := by
  obtain ⟨hwf, hv0, -, d, sh, x, hx, hb, hdx, hinv⟩ := hP
  obtain ⟨u, r, hr, hrwf, hrv, hlo, hhi, hrb, hre⟩ := divStep_spec t hwf hv0
  have hx1 : 1 ≤ x := by omega
  have hY : t.s.val * 2 ^ u * 10 ^ d = m * 2 ^ (sh + u) := by
    rw [pow_add, ← mul_assoc, ← hinv]; ring
  have h10 : 10 ∣ t.s.val * 2 ^ u :=
    ten_dvd_shifted _ d m (sh + u) a k c N x hY hval hdx hx1 hm0 hm hlo
  have hmul : r.s.val * 10 = t.s.val * 2 ^ u := by
    rw [hrv]; exact Nat.div_mul_cancel h10
  have hrpos : 0 < r.s.val := by omega
  have hr93 : r.s.val < 2 ^ 93 := by omega
  have hexp : r.exponent = -((x - 1 : Nat) : Int) := by
    rw [hre, hx]; omega
  have hbin : r.binexp = 92 - ((sh + u : Nat) : Int) := by
    rw [hrb, hb]; push_cast; ring
  have hnew : r.s.val * 10 ^ (d + 1) = m * 2 ^ (sh + u) := by
    rw [← hY, ← hmul, pow_succ]; ring
  exact ⟨r, hr, ⟨hrwf, hrpos, Or.inr hr93, d + 1, sh + u, x - 1, hexp, hbin, by omega, hnew⟩,
    hre⟩

/-- The pattern assembled from the accumulator `k * 2 ^ 40`. -/
theorem assemble_exact (n : Nat) (B : Int) (s : Limbs) (k : Nat) (hn : n ≤ 1) (hwf : s.wf)
    (hs : s.val = k * 2 ^ 40) (hk1 : 2 ^ 52 ≤ k) (hk2 : k < 2 ^ 53) (hB1 : 1 ≤ B)
    (hB2 : B ≤ 2046) :
    assemble n B s = n * 2 ^ 63 + B.toNat * 2 ^ 52 + (k - 2 ^ 52) := by
  have hwf' := hwf
  obtain ⟨h2, h1, h0⟩ := hwf'
  simp only [Limbs.val] at hs
  have hs2 : s.s2 = k / 2 ^ 24 := by omega
  have hs1 : s.s1 = (k % 2 ^ 24) * 2 ^ 8 := by omega
  have hne : s.s2 ≠ 0 := by omega
  rw [assemble_normal n B s hwf hne hB1 hB2]
  have hf : fracBits s = k - 2 ^ 52 := by
    unfold fracBits
    rw [or_eq_add _ _ 24 (by omega) (by omega)]
    omega
  rw [hf]
  have hsign : (if n ≠ 0 then 2 ^ 63 else 0) = n * 2 ^ 63 := by
    rcases Nat.eq_zero_or_pos n with h | h
    · subst h; simp
    · have : n = 1 := by omega
      subst this; simp
  rw [hsign]

theorem mulLoop_exact (X a k c : Nat) (hX : X * 2 ^ a = k * 2 ^ c) (hk0 : 0 < k)
    (hk : k < 2 ^ 53) (st : ConvState) (hP : mulInv X st) (fuel : Nat)
    (hfuel : st.exponent.toNat ≤ fuel) :
    ∃ r, whileLoop (fun t => decide (t.exponent > 0)) mulStep fuel st = some r ∧
      mulInv X r ∧ r.exponent = 0 := by
  have key := whileLoop_total (fun t : ConvState => decide (t.exponent > 0)) mulStep
      (mulInv X) (fun t => t.exponent.toNat)
      (by
        intro t hPt hc
        simp only [decide_eq_true_eq] at hc
        obtain ⟨r, hr, hPr, hre⟩ := mulStep_exact X a k c hX hk0 hk t hPt hc
        refine ⟨r, hr, hPr, ?_⟩
        show r.exponent.toNat < t.exponent.toNat
        omega)
      fuel st hP hfuel
  obtain ⟨r, hr, hPr, hc⟩ := key
  simp only [decide_eq_false_iff_not] at hc
  obtain ⟨-, -, -, b, x, -, hx, -⟩ := id hPr
  exact ⟨r, hr, hPr, by omega⟩

theorem divLoop_exact (m N a k c : Nat) (e : Int) (hval : m * 2 ^ a = k * 2 ^ c * 10 ^ N)
    (hm0 : 0 < m) (hm : m < 2 ^ 60) (st : ConvState) (hP : divInv m N e st) (fuel : Nat)
    (hfuel : (-st.exponent).toNat ≤ fuel) :
    ∃ r, whileLoop (fun t => decide (t.exponent < 0)) divStep fuel st = some r ∧
      divInv m N e r ∧ r.exponent = 0 := by
  have key := whileLoop_total (fun t : ConvState => decide (t.exponent < 0)) divStep
      (divInv m N e) (fun t => (-t.exponent).toNat)
      (by
        intro t hPt hc
        simp only [decide_eq_true_eq] at hc
        obtain ⟨r, hr, hPr, hre⟩ := divStep_exact m N a k c e hval hm0 hm t hPt hc
        refine ⟨r, hr, hPr, ?_⟩
        show (-r.exponent).toNat < (-t.exponent).toNat
        omega)
      fuel st hP hfuel
  obtain ⟨r, hr, hPr, hc⟩ := key
  simp only [decide_eq_false_iff_not] at hc
  obtain ⟨-, -, -, d, sh, x, hx, -⟩ := id hPr
  exact ⟨r, hr, hPr, by omega⟩

/-- The converter on an exact value, with the exactness hypothesis cleared of
denominators. -/
theorem converter_exact_nat (n m : Nat) (e : Int) (k a c : Nat) (hn : n ≤ 1) (hm0 : 0 < m)
    (hm : m < 10 ^ 18) (hk1 : 2 ^ 52 ≤ k) (hk2 : k < 2 ^ 53)
    (hval : m * 10 ^ e.toNat * 2 ^ a = k * 2 ^ c * 10 ^ (-e).toNat)
    (hj1 : 1 ≤ (c : Int) - a + 1075) (hj2 : (c : Int) - a + 1075 ≤ 2046) :
    converter ⟨n, e, m⟩ =
      some (n * 2 ^ 63 + ((c : Int) - a + 1075).toNat * 2 ^ 52 + (k - 2 ^ 52)) := by
  have hm64 : m < 2 ^ 64 := by
    have : (10 : Nat) ^ 18 < 2 ^ 64 := by norm_num
    omega
  have hm60 : m < 2 ^ 60 := by
    have : (10 : Nat) ^ 18 < 2 ^ 60 := by norm_num
    omega
  have hk0 : 0 < k := by
    have : 0 < 2 ^ 52 := by norm_num
    omega
  obtain ⟨hwf0, hv0⟩ := init_limbs m hm64
  unfold converter
  simp only
  rcases le_or_lt 0 e with he | he
  · -- multiply case
    have e0 : (-e).toNat = 0 := by omega
    rw [e0, pow_zero, mul_one] at hval
    have hP0 : mulInv (m * 10 ^ e.toNat)
        ⟨⟨0, u32 (m >>> 32), u32 (m &&& 0xFFFFFFFF)⟩, 92, e⟩ :=
      ⟨hwf0, by simp only [hv0]; exact hm0, by simp only [hv0]; omega, 0, e.toNat,
        by simp, by simp only; omega, by simp only [hv0]; ring⟩
    obtain ⟨r1, hr1, hP1, h1e⟩ := mulLoop_exact _ a k c hval hk0 hk2 _ hP0 e.toNat (le_refl _)
    obtain ⟨h1wf, h1pos, h1lt, b, x, h1b, h1x, h1inv⟩ := hP1
    have hx0 : x = 0 := by omega
    subst hx0
    rw [pow_zero, mul_one] at h1inv
    have hc : (fun t : ConvState => decide (t.exponent < 0)) r1 = false := by
      simp only [decide_eq_false_iff_not]; omega
    obtain ⟨t, r3, hr3, h3wf, h3v, h3lo, h3t, h3b, -⟩ := normalize_spec r1 h1wf h1pos
    have h3hi : r3.s.val < 2 ^ 93 := by
      rcases h3t with h | h
      · subst h; rw [h3v] at h3lo; simp only [pow_zero, mul_one] at h3lo; omega
      · exact h
    have heq : r3.s.val * 2 ^ (b + a) = k * 2 ^ (c + t) := by
      calc r3.s.val * 2 ^ (b + a)
          = (r1.s.val * 2 ^ b) * 2 ^ a * 2 ^ t := by rw [h3v, pow_add]; ring
        _ = k * 2 ^ c * 2 ^ t := by rw [h1inv, hval]
        _ = k * 2 ^ (c + t) := by rw [pow_add]; ring
    obtain ⟨hu, hs⟩ := normal_unique _ _ _ _ heq h3lo h3hi hk1 hk2
    have hB : r3.binexp + 1023 = (c : Int) - a + 1075 := by
      rw [h3b, h1b]; omega
    rw [hr1]
    simp only [Option.some_bind]
    rw [whileLoop_stop (fun t : ConvState => decide (t.exponent < 0)) divStep _ r1 hc]
    simp only [Option.some_bind, hr3, Option.map_some', hB]
    rw [assemble_exact n _ r3.s k hn h3wf hs hk1 hk2 hj1 hj2]
  · -- divide case
    have e0 : e.toNat = 0 := by omega
    rw [e0, pow_zero, mul_one] at hval
    have hc : (fun t : ConvState => decide (t.exponent > 0))
        ⟨⟨0, u32 (m >>> 32), u32 (m &&& 0xFFFFFFFF)⟩, 92, e⟩ = false := by
      simp only [decide_eq_false_iff_not]; omega
    have hP0 : divInv m (-e).toNat e
        ⟨⟨0, u32 (m >>> 32), u32 (m &&& 0xFFFFFFFF)⟩, 92, e⟩ :=
      ⟨hwf0, by simp only [hv0]; exact hm0, Or.inl rfl, 0, 0, (-e).toNat,
        by simp only; omega, by simp, by omega, by simp only [hv0]; ring⟩
    obtain ⟨r2, hr2, hP2, h2e⟩ :=
      divLoop_exact m _ a k c e hval hm0 hm60 _ hP0 (-e).toNat (by simp only; exact le_refl _)
    obtain ⟨h2wf, h2pos, h2lt, d, sh, x, h2x, h2b, h2dx, h2inv⟩ := hP2
    have hx0 : x = 0 := by omega
    subst hx0
    have h2lt' : r2.s.val < 2 ^ 93 := by
      rcases h2lt with h | h
      · omega
      · exact h
    obtain ⟨t, r3, hr3, h3wf, h3v, h3lo, h3t, h3b, -⟩ := normalize_spec r2 h2wf h2pos
    have h3hi : r3.s.val < 2 ^ 93 := by
      rcases h3t with h | h
      · subst h; rw [h3v]; simpa using h2lt'
      · exact h
    have hd : d = (-e).toNat := by omega
    have h10 : 0 < 10 ^ d := pow_pos (by norm_num) d
    have heq' : r3.s.val * 2 ^ a * 10 ^ d = k * 2 ^ (c + (sh + t)) * 10 ^ d := by
      calc r3.s.val * 2 ^ a * 10 ^ d
          = (r2.s.val * 10 ^ d) * 2 ^ t * 2 ^ a := by rw [h3v]; ring
        _ = (m * 2 ^ a) * 2 ^ (sh + t) := by rw [h2inv, pow_add]; ring
        _ = k * 2 ^ c * 10 ^ d * 2 ^ (sh + t) := by rw [hval, hd]
        _ = k * 2 ^ (c + (sh + t)) * 10 ^ d := by rw [pow_add 2 c]; ring
    have heq := Nat.eq_of_mul_eq_mul_right h10 heq'
    obtain ⟨hu, hs⟩ := normal_unique _ _ _ _ heq h3lo h3hi hk1 hk2
    have hB : r3.binexp + 1023 = (c : Int) - a + 1075 := by
      rw [h3b, h2b]; omega
    rw [whileLoop_stop (fun t : ConvState => decide (t.exponent > 0)) mulStep _ _ hc]
    simp only [Option.some_bind, hr2, hr3, Option.map_some', hB]
    rw [assemble_exact n _ r3.s k hn h3wf hs hk1 hk2 hj1 hj2]

theorem converter_eq_acc (pn : PrepNumber) :
    converter pn =
      (converterAcc pn).map fun st => assemble pn.negative (st.binexp + 1023) st.s := by
  unfold converter converterAcc
  simp only
  cases whileLoop (fun t => decide (t.exponent > 0)) mulStep pn.exponent.toNat _ with
  | none => rfl
  | some r1 =>
    simp only [Option.some_bind]
    cases whileLoop (fun t => decide (t.exponent < 0)) divStep (-pn.exponent).toNat r1 with
    | none => rfl
    | some r2 => rfl

/-! ## The two variants of the add and subtract macros -/

theorem add96_32_eq (s d : Limbs) (hs : s.wf) (hd : d.wf) : add96_32 s d = add96 s d := by
  obtain ⟨h2, h1, h0⟩ := hs
  obtain ⟨g2, g1, g0⟩ := hd
  simp only [add96_32, add96, u32, u64, Nat.shiftRight_eq_div_pow]
  by_cases b0 : (s.s0 + d.s0) % 2 ^ 32 < s.s0
  · simp only [if_pos b0]
    by_cases b1 : (s.s1 + (d.s1 + 1) % 2 ^ 32) % 2 ^ 32 < s.s1 ∨
        ((s.s1 + (d.s1 + 1) % 2 ^ 32) % 2 ^ 32 = s.s1 ∧ (1 : Nat) ≠ 0)
    · simp only [if_pos b1]
      congr 1 <;> omega
    · simp only [if_neg b1]
      congr 1 <;> omega
  · simp only [if_neg b0]
    by_cases b1 : (s.s1 + (d.s1 + 0) % 2 ^ 32) % 2 ^ 32 < s.s1 ∨
        ((s.s1 + (d.s1 + 0) % 2 ^ 32) % 2 ^ 32 = s.s1 ∧ (0 : Nat) ≠ 0)
    · simp only [if_pos b1]
      congr 1 <;> omega
    · simp only [if_neg b1]
      congr 1 <;> omega

theorem sub96_32_wf (s d : Limbs) : (sub96_32 s d).wf := by
  simp only [sub96_32, Limbs.wf, sub32]
  refine ⟨?_, ?_, ?_⟩ <;> exact Nat.mod_lt _ (by norm_num)

theorem sub32_eq (a b : Nat) (ha : a < 2 ^ 32) (hb : b < 2 ^ 32) :
    sub32 a b = if b ≤ a then a - b else a + 2 ^ 32 - b := by
  simp only [sub32, u32]
  split_ifs <;> omega

theorem sub96_32_val (s d : Limbs) (hs : s.wf) (hd : d.wf) :
    (sub96_32 s d).val = (s.val + 2 ^ 96 - d.val) % 2 ^ 96 := by
  obtain ⟨h2, h1, h0⟩ := hs
  obtain ⟨g2, g1, g0⟩ := hd
  simp only [sub96_32, Limbs.val]
  rw [sub32_eq s.s0 d.s0 h0 g0]
  by_cases b0 : d.s0 ≤ s.s0
  · have n0 : ¬ (s.s0 - d.s0 > s.s0) := by omega
    have u1 : u32 (d.s1 + 0) = d.s1 := by simp only [u32]; omega
    simp only [if_pos b0, if_neg n0, u1]
    rw [sub32_eq s.s1 d.s1 h1 g1]
    by_cases b1 : d.s1 ≤ s.s1
    · have n1 : ¬ (s.s1 - d.s1 > s.s1 ∨ (s.s1 - d.s1 = s.s1 ∧ (0 : Nat) ≠ 0)) := by omega
      have u2 : u32 (d.s2 + 0) = d.s2 := by simp only [u32]; omega
      simp only [if_pos b1, if_neg n1, u2]
      rw [sub32_eq s.s2 d.s2 h2 g2]
      split_ifs <;> omega
    · have p1 : s.s1 + 2 ^ 32 - d.s1 > s.s1 ∨
          (s.s1 + 2 ^ 32 - d.s1 = s.s1 ∧ (0 : Nat) ≠ 0) := by omega
      simp only [if_neg b1, if_pos p1]
      by_cases e2 : d.s2 + 1 < 2 ^ 32
      · have u2 : u32 (d.s2 + 1) = d.s2 + 1 := by simp only [u32]; omega
        rw [u2, sub32_eq s.s2 (d.s2 + 1) h2 e2]
        split_ifs <;> omega
      · have u2 : u32 (d.s2 + 1) = 0 := by simp only [u32]; omega
        rw [u2, sub32_eq s.s2 0 h2 (by norm_num)]
        split_ifs <;> omega
  · have p0 : s.s0 + 2 ^ 32 - d.s0 > s.s0 := by omega
    simp only [if_neg b0, if_pos p0]
    by_cases e1 : d.s1 + 1 < 2 ^ 32
    · have u1 : u32 (d.s1 + 1) = d.s1 + 1 := by simp only [u32]; omega
      rw [u1, sub32_eq s.s1 (d.s1 + 1) h1 e1]
      by_cases b1 : d.s1 + 1 ≤ s.s1
      · have n1 : ¬ (s.s1 - (d.s1 + 1) > s.s1 ∨
            (s.s1 - (d.s1 + 1) = s.s1 ∧ (1 : Nat) ≠ 0)) := by omega
        have u2 : u32 (d.s2 + 0) = d.s2 := by simp only [u32]; omega
        simp only [if_pos b1, if_neg n1, u2]
        rw [sub32_eq s.s2 d.s2 h2 g2]
        split_ifs <;> omega
      · have p1 : s.s1 + 2 ^ 32 - (d.s1 + 1) > s.s1 ∨
            (s.s1 + 2 ^ 32 - (d.s1 + 1) = s.s1 ∧ (1 : Nat) ≠ 0) := by omega
        simp only [if_neg b1, if_pos p1]
        by_cases e2 : d.s2 + 1 < 2 ^ 32
        · have u2 : u32 (d.s2 + 1) = d.s2 + 1 := by simp only [u32]; omega
          rw [u2, sub32_eq s.s2 (d.s2 + 1) h2 e2]
          split_ifs <;> omega
        · have u2 : u32 (d.s2 + 1) = 0 := by simp only [u32]; omega
          rw [u2, sub32_eq s.s2 0 h2 (by norm_num)]
          split_ifs <;> omega
    · have u1 : u32 (d.s1 + 1) = 0 := by simp only [u32]; omega
      rw [u1, sub32_eq s.s1 0 h1 (by norm_num)]
      have p1 : s.s1 - 0 > s.s1 ∨ (s.s1 - 0 = s.s1 ∧ (1 : Nat) ≠ 0) := by omega
      simp only [Nat.zero_le, if_true, if_pos p1]
      by_cases e2 : d.s2 + 1 < 2 ^ 32
      · have u2 : u32 (d.s2 + 1) = d.s2 + 1 := by simp only [u32]; omega
        rw [u2, sub32_eq s.s2 (d.s2 + 1) h2 e2]
        split_ifs <;> omega
      · have u2 : u32 (d.s2 + 1) = 0 := by simp only [u32]; omega
        rw [u2, sub32_eq s.s2 0 h2 (by norm_num)]
        split_ifs <;> omega

/-! ## Widths of the intermediate values of the division by ten -/

theorem wide_shl (r k : Nat) (hr : r * 2 ^ k < 2 ^ 32) : r <<< k < 2 ^ 32 := by
  rwa [Nat.shiftLeft_eq]

theorem wide_or (a b : Nat) (ha : a < 2 ^ 32) (hb : b < 2 ^ 32) : a ||| b < 2 ^ 32 :=
  Nat.or_lt_two_pow ha hb

theorem u32_lt (x : Nat) : u32 x < 2 ^ 32 := Nat.mod_lt _ (by norm_num)

theorem wide_shr (a k : Nat) (ha : a < 2 ^ 32) : a >>> k < 2 ^ 32 := by
  rw [Nat.shiftRight_eq_div_pow]
  exact lt_of_le_of_lt (Nat.div_le_self _ _) ha

theorem wide_mod10 (r k : Nat) (hk : 10 * 2 ^ k < 2 ^ 32) : (r % 10) <<< k < 2 ^ 32 := by
  apply wide_shl
  have h1 : r % 10 < 10 := Nat.mod_lt _ (by norm_num)
  calc r % 10 * 2 ^ k < 10 * 2 ^ k := Nat.mul_lt_mul_of_pos_right h1 (pow_pos (by norm_num) _)
    _ < 2 ^ 32 := hk

theorem u32_shl16 (r : Nat) : u32 (r <<< 16) = r % 2 ^ 16 * 2 ^ 16 := by
  simp only [u32, Nat.shiftLeft_eq]; omega

theorem div10_low_byte (X R : Nat) (hR : R < 2 ^ 24) :
    (X * 256 + R / 2 ^ 16) % 2 ^ 8 = R / 2 ^ 16 := by omega

theorem div10_high_half (R z : Nat) (hz : z < 2 ^ 16) :
    (R % 2 ^ 16 * 2 ^ 16 + z) / 2 ^ 16 = R % 2 ^ 16 := by omega

theorem div10_last (y Y : Nat) : (y % 2 ^ 16 + Y % 10 * 2 ^ 16) / 10 < 2 ^ 16 := by omega

/-! ## Reads of the parser -/

theorem parserStep_at_nul (st : ParserState) (h : st.c = 0) :
    ∃ st', parserStep st = some st' ∧ st'.s = st.s ∧ st'.c = 0 := by
  have hrd : (parserCore st).2 = false := by
    cases hb : (parserCore st).2 with
    | false => rfl
    | true => exact absurd h (parserCore_read st hb)
  refine ⟨(parserCore st).1, ?_, parserCore_s st, ?_⟩
  · rw [parserStep_eq_core, hrd]; rfl
  · rw [parserCore_c, h]

theorem parserStep_readOK (b : List Nat) (t : ParserState) (hb : readOK b t) :
    ∃ t', parserStep t = some t' ∧ readOK b t' ∧
      (t.state ≠ Fsm.FSM_STOP → parserMeasure t' < parserMeasure t) := by
  have hst := parserCore_state t
  have hle : (parserCore t).1.state.toNat ≤ 9 := by
    cases (parserCore t).1.state <;> simp [Fsm.toNat]
  cases hrd : (parserCore t).2 with
  | false =>
    refine ⟨(parserCore t).1, ?_, ?_, ?_⟩
    · rw [parserStep_eq_core, hrd]; rfl
    · simp only [readOK, parserCore_s, parserCore_c]; exact hb
    · intro hne
      have := hst.2 hrd hne
      simp only [parserMeasure, parserCore_s]
      omega
  | true =>
    have hc := parserCore_read t hrd
    rcases hb with ⟨u, hu⟩ | ⟨h0, -⟩
    · have h9 : t.state.toNat ≤ 9 := by cases t.state <;> simp [Fsm.toNat]
      have h1 := hst.1
      cases u with
      | nil =>
        simp only [List.nil_append] at hu
        refine ⟨{ (parserCore t).1 with c := 0, s := b }, ?_, Or.inr ⟨rfl, rfl⟩, ?_⟩
        · rw [parserStep_eq_core, hrd]
          simp only [if_true, GETC, parserCore_s, hu]
        · intro _
          simp only [parserMeasure, hu, List.length_cons]
          omega
      | cons y u' =>
        simp only [List.cons_append] at hu
        refine ⟨{ (parserCore t).1 with c := y, s := u' ++ 0 :: b }, ?_, Or.inl ⟨u', rfl⟩, ?_⟩
        · rw [parserStep_eq_core, hrd]
          simp only [if_true, GETC, parserCore_s, hu]
        · intro _
          simp only [parserMeasure, hu, List.length_cons]
          omega
    · exact absurd h0 hc

theorem parserLoop_readOK (b : List Nat) (st : ParserState) (hb : readOK b st) (fuel : Nat)
    (hfuel : parserMeasure st ≤ fuel) :
    ∃ r, whileLoop (fun st => decide (st.state ≠ Fsm.FSM_STOP)) parserStep fuel st = some r ∧
      r.state = Fsm.FSM_STOP ∧ readOK b r := by
  have key := whileLoop_total (fun st : ParserState => decide (st.state ≠ Fsm.FSM_STOP))
    parserStep (fun t => readOK b t) parserMeasure
    (by
      intro t hb hc
      simp only [decide_eq_true_eq] at hc
      obtain ⟨t', h1, h2, h3⟩ := parserStep_readOK b t hb
      exact ⟨t', h1, h2, h3 hc⟩)
    fuel st hb hfuel
  obtain ⟨r, hr, hP, hc⟩ := key
  simp only [ne_eq, decide_not, Bool.not_eq_false', decide_eq_true_eq] at hc
  exact ⟨r, hr, hc, hP⟩

/-! ## Loops with a checked body -/

/-- A loop whose body is run only where a check holds returns the result of the plain
loop. -/
theorem whileLoop_of_guarded {σ : Type} (cond : σ → Bool) (body : σ → Option σ)
    (G : σ → Bool) :
    ∀ (fuel : Nat) (st r : σ),
      whileLoop cond (fun t => if G t then body t else none) fuel st = some r →
      whileLoop cond body fuel st = some r := by
  intro fuel
  induction fuel with
  | zero =>
    intro st r h
    cases hc : cond st with
    | false =>
      rw [whileLoop_stop _ _ 0 st hc] at h
      rw [whileLoop_stop _ _ 0 st hc]; exact h
    | true => simp [whileLoop, hc] at h
  | succ n ih =>
    intro st r h
    cases hc : cond st with
    | false =>
      rw [whileLoop_stop _ _ _ st hc] at h
      rw [whileLoop_stop _ _ _ st hc]; exact h
    | true =>
      simp only [whileLoop, hc, if_true] at h ⊢
      cases hg : G st with
      | false => simp [hg] at h
      | true =>
        simp only [hg, if_true] at h
        cases hb : body st with
        | none => simp [hb] at h
        | some t' =>
          simp only [hb, Option.some_bind] at h ⊢
          exact ih t' r h

theorem mulExact_of (t : ConvState) (hwf : t.s.wf) (hlt : t.s.val < 2 ^ 92) :
    mulExact t = true := by
  have h1 : (lsl96 t.s).val = 2 * t.s.val := by rw [lsl96_val _ hwf]; omega
  have h2 : (lsl96 (lsl96 t.s)).val = 4 * t.s.val := by
    rw [lsl96_val _ (lsl96_wf _), h1]; omega
  have h3 : (lsl96 (lsl96 (lsl96 t.s))).val = 8 * t.s.val := by
    rw [lsl96_val _ (lsl96_wf _), h2]; omega
  have h4 : (add96 (lsl96 (lsl96 (lsl96 t.s))) (lsl96 t.s)).val = 10 * t.s.val := by
    rw [add96_val _ _ (lsl96_wf _) (lsl96_wf _), h3, h1]; omega
  obtain ⟨w2, w1, w0⟩ := hwf
  simp only [mulExact, decide_eq_true_eq]
  exact ⟨w2, w1, w0, hlt, h1, h2, h3, h4⟩

/-- The multiply loop with the check `mulExact` on every iteration terminates; the
accumulator stays below 2^92 and, if it was non-zero, non-zero. -/
theorem mulLoop_guarded (st : ConvState) (hwf : st.s.wf) (hlt : st.s.val < 2 ^ 92)
    (he : 0 ≤ st.exponent) (fuel : Nat) (hfuel : st.exponent.toNat ≤ fuel) :
    ∃ r, whileLoop (fun t => decide (t.exponent > 0))
        (fun t => if mulExact t then mulStep t else none) fuel st = some r ∧
      r.s.wf ∧ r.s.val < 2 ^ 92 ∧ r.exponent = 0 ∧ (0 < st.s.val → 0 < r.s.val) := by
  have key := whileLoop_total (fun t : ConvState => decide (t.exponent > 0))
      (fun t => if mulExact t then mulStep t else none)
      (fun t => t.s.wf ∧ t.s.val < 2 ^ 92 ∧ 0 ≤ t.exponent ∧ (0 < st.s.val → 0 < t.s.val))
      (fun t => t.exponent.toNat)
      (by
        rintro t ⟨g1, g3, g4, g5⟩ hc
        simp only [decide_eq_true_eq] at hc
        obtain ⟨k, r, hr, hrwf, hrv, -, hre, hrB, hrt, -⟩ := mulStep_spec t g1 g3
        refine ⟨r, ?_, ⟨hrwf, hrB, by omega, ?_⟩, ?_⟩
        · show (if mulExact t then mulStep t else none) = some r
          rw [mulExact_of t g1 g3]; exact hr
        · intro h0
          have g2 := g5 h0
          rcases hrt with rfl | h91
          · rw [hrv]; simp only [pow_zero, Nat.div_one]; omega
          · exact lt_of_lt_of_le (by norm_num) h91
        · show r.exponent.toNat < t.exponent.toNat
          omega)
      fuel st ⟨hwf, hlt, he, fun h => h⟩ hfuel
  obtain ⟨r, hr, ⟨g1, g3, g4, g5⟩, hc⟩ := key
  simp only [decide_eq_false_iff_not] at hc
  exact ⟨r, hr, g1, g3, by omega, g5⟩

/-- The divide loop with the check that the accumulator is non-zero on every iteration
terminates, and leaves a non-zero accumulator below 2^93. -/
theorem divLoop_guarded (st : ConvState) (hwf : st.s.wf) (hpos : 0 < st.s.val)
    (he : st.exponent < 0) (fuel : Nat) (hfuel : (-st.exponent).toNat ≤ fuel) :
    ∃ r, whileLoop (fun t => decide (t.exponent < 0))
        (fun t => if 0 < t.s.val then divStep t else none) fuel st = some r ∧
      r.s.wf ∧ 0 < r.s.val ∧ r.s.val < 2 ^ 93 ∧ r.exponent = 0 := by
  have key := whileLoop_total (fun t : ConvState => decide (t.exponent < 0))
      (fun t => if 0 < t.s.val then divStep t else none)
      (fun t => t.s.wf ∧ 0 < t.s.val ∧ t.exponent ≤ 0 ∧
        (st.exponent < t.exponent → t.s.val < 2 ^ 93))
      (fun t => (-t.exponent).toNat)
      (by
        rintro t ⟨g1, g2, g3, -⟩ hc
        simp only [decide_eq_true_eq] at hc
        obtain ⟨k, r, hr, hrwf, hrv, hlo, hhi, -, hre⟩ := divStep_spec t g1 g2
        refine ⟨r, ?_, ⟨hrwf, ?_, by omega, ?_⟩, ?_⟩
        · show (if 0 < t.s.val then divStep t else none) = some r
          rw [if_pos g2]; exact hr
        · rw [hrv]; omega
        · intro _; rw [hrv]; omega
        · show (-r.exponent).toNat < (-t.exponent).toNat
          omega)
      fuel st ⟨hwf, hpos, by omega, fun h => absurd h (lt_irrefl _)⟩ hfuel
  obtain ⟨r, hr, ⟨g1, g2, g3, g4⟩, hc⟩ := key
  simp only [decide_eq_false_iff_not] at hc
  exact ⟨r, hr, g1, g2, g4 (by omega), by omega⟩

/-- The three phases of `converter` on a record with a non-zero 64-bit mantissa: the
multiply loop (with the check `mulExact` on every iteration), the divide loop (run only
on a non-zero accumulator) and the final normalisation all return, and the normalised
accumulator lies in [2^92, 2^93). -/
theorem converter_run (pn : PrepNumber) (hm0 : pn.mantissa ≠ 0) (hm : pn.mantissa < 2 ^ 64) :
    ∃ a b c : ConvState,
      whileLoop (fun t => decide (t.exponent > 0))
        (fun t => if mulExact t then mulStep t else none) pn.exponent.toNat
        ⟨⟨0, u32 (pn.mantissa >>> 32), u32 (pn.mantissa &&& 0xFFFFFFFF)⟩, 92, pn.exponent⟩
          = some a ∧
      whileLoop (fun t => decide (t.exponent < 0))
        (fun t => if 0 < t.s.val then divStep t else none) (-pn.exponent).toNat a = some b ∧
      0 < b.s.val ∧ normalize b = some c ∧ c.s.wf ∧ 2 ^ 92 ≤ c.s.val ∧ c.s.val < 2 ^ 93 := by
  obtain ⟨hwf0, hv0⟩ := init_limbs pn.mantissa hm
  have hpos0 : 0 < pn.mantissa := Nat.pos_of_ne_zero hm0
  rcases le_or_lt 0 pn.exponent with he | he
  · obtain ⟨a, ha, hawf, halt, hae, hapos⟩ :=
      mulLoop_guarded ⟨⟨0, u32 (pn.mantissa >>> 32), u32 (pn.mantissa &&& 0xFFFFFFFF)⟩, 92,
        pn.exponent⟩ hwf0 (by simp only [hv0]; omega) he _ (le_refl _)
    have hap : 0 < a.s.val := hapos (by simp only [hv0]; exact hpos0)
    have hc : (fun t : ConvState => decide (t.exponent < 0)) a = false := by
      simp only [decide_eq_false_iff_not]; omega
    obtain ⟨t, c, hn, hcwf, hcv, hclo, hct, -, -⟩ := normalize_spec a hawf hap
    refine ⟨a, a, c, ha, whileLoop_stop _ _ _ a hc, hap, hn, hcwf, hclo, ?_⟩
    rcases hct with rfl | h
    · rw [hcv]; simp only [pow_zero, Nat.mul_one]; omega
    · exact h
  · have hc : (fun t : ConvState => decide (t.exponent > 0))
        ⟨⟨0, u32 (pn.mantissa >>> 32), u32 (pn.mantissa &&& 0xFFFFFFFF)⟩, 92, pn.exponent⟩
          = false := by
      simp only [decide_eq_false_iff_not]; omega
    obtain ⟨b, hb, hbwf, hbpos, hblt, hbe⟩ :=
      divLoop_guarded ⟨⟨0, u32 (pn.mantissa >>> 32), u32 (pn.mantissa &&& 0xFFFFFFFF)⟩, 92,
        pn.exponent⟩ hwf0 (by simp only [hv0]; exact hpos0) he _ (le_refl _)
    obtain ⟨t, c, hn, hcwf, hcv, hclo, hct, -, -⟩ := normalize_spec b hbwf hbpos
    refine ⟨_, b, c, whileLoop_stop _ _ _ _ hc, hb, hbpos, hn, hcwf, hclo, ?_⟩
    rcases hct with rfl | h
    · rw [hcv]; simp only [pow_zero, Nat.mul_one]; exact hblt
    · exact h

theorem converterAcc_of_run (pn : PrepNumber) (a b c : ConvState)
    (ha : whileLoop (fun t => decide (t.exponent > 0))
        (fun t => if mulExact t then mulStep t else none) pn.exponent.toNat
        ⟨⟨0, u32 (pn.mantissa >>> 32), u32 (pn.mantissa &&& 0xFFFFFFFF)⟩, 92, pn.exponent⟩
          = some a)
    (hb : whileLoop (fun t => decide (t.exponent < 0))
        (fun t => if 0 < t.s.val then divStep t else none) (-pn.exponent).toNat a = some b)
    (hc : normalize b = some c) : converterAcc pn = some c := by
  have ha' := whileLoop_of_guarded _ mulStep mulExact _ _ _ ha
  have hb' := whileLoop_of_guarded _ divStep (fun t => decide (0 < t.s.val)) _ _ _
    (by simpa only [decide_eq_true_eq] using hb)
  simp only [converterAcc, ha', hb', Option.some_bind, hc]

/-! ## Executions on streams -/

theorem append_cons_ne_nil (ds : List Nat) (x : Nat) (r : List Nat) :
    ∃ y t, ds ++ x :: r = y :: t := by
  cases ds with
  | nil => exact ⟨x, r, rfl⟩
  | cons d ds => exact ⟨d, ds ++ x :: r, rfl⟩

theorem sA_space (d y : Nat) (t : List Nat) (digx expneg : Nat) (expexp : Int) (neg : Nat)
    (e : Int) (m : Nat) (hd : ISSPACE d = true) :
    parserStep (mkSt .FSM_A (d :: y :: t) digx expneg expexp neg e m) =
      some (mkSt .FSM_A (y :: t) digx expneg expexp neg e m) := by
  simp [mkSt, parserStep, GETC, hd]

theorem sA_exit (y : Nat) (t : List Nat) (digx expneg : Nat) (expexp : Int) (neg : Nat)
    (e : Int) (m : Nat) (hd : ISSPACE y = false) :
    parserStep (mkSt .FSM_A (y :: t) digx expneg expexp neg e m) =
      some (mkSt .FSM_B (y :: t) digx expneg expexp neg e m) := by
  simp [mkSt, parserStep, hd]

theorem sB_plus (y : Nat) (t : List Nat) (digx expneg : Nat) (expexp : Int) (neg : Nat)
    (e : Int) (m : Nat) :
    parserStep (mkSt .FSM_B (43 :: y :: t) digx expneg expexp neg e m) =
      some (mkSt .FSM_C (y :: t) digx expneg expexp neg e m) := by
  simp [mkSt, parserStep, GETC]

theorem sB_minus (y : Nat) (t : List Nat) (digx expneg : Nat) (expexp : Int) (neg : Nat)
    (e : Int) (m : Nat) :
    parserStep (mkSt .FSM_B (45 :: y :: t) digx expneg expexp neg e m) =
      some (mkSt .FSM_C (y :: t) digx expneg expexp 1 e m) := by
  simp [mkSt, parserStep, GETC]

theorem sB_body (y : Nat) (t : List Nat) (digx expneg : Nat) (expexp : Int) (neg : Nat)
    (e : Int) (m : Nat) (hy : ISDIGIT y = true ∨ y = DPOINT) :
    parserStep (mkSt .FSM_B (y :: t) digx expneg expexp neg e m) =
      some (mkSt .FSM_C (y :: t) digx expneg expexp neg e m) := by
  have h1 : y ≠ 43 := by rintro rfl; simp [ISDIGIT, DPOINT] at hy
  have h2 : y ≠ 45 := by rintro rfl; simp [ISDIGIT, DPOINT] at hy
  rcases hy with hy | hy
  · simp [mkSt, parserStep, h1, h2, hy]
  · subst hy
    simp [mkSt, parserStep, DPOINT]

theorem sB_stop (y : Nat) (t : List Nat) (digx expneg : Nat) (expexp : Int) (neg : Nat)
    (e : Int) (m : Nat) (h1 : y ≠ 43) (h2 : y ≠ 45) (h3 : ISDIGIT y = false)
    (h4 : y ≠ DPOINT) :
    parserStep (mkSt .FSM_B (y :: t) digx expneg expexp neg e m) =
      some (mkSt .FSM_STOP (y :: t) digx expneg expexp neg e m) := by
  simp [mkSt, parserStep, h1, h2, h3, h4]

theorem sC_zero (y : Nat) (t : List Nat) (digx expneg : Nat) (expexp : Int) (neg : Nat)
    (e : Int) (m : Nat) :
    parserStep (mkSt .FSM_C (48 :: y :: t) digx expneg expexp neg e m) =
      some (mkSt .FSM_C (y :: t) digx expneg expexp neg e m) := by
  simp [mkSt, parserStep, GETC]

theorem sC_point (y : Nat) (t : List Nat) (digx expneg : Nat) (expexp : Int) (neg : Nat)
    (e : Int) (m : Nat) :
    parserStep (mkSt .FSM_C (46 :: y :: t) digx expneg expexp neg e m) =
      some (mkSt .FSM_D (y :: t) digx expneg expexp neg e m) := by
  simp [mkSt, parserStep, GETC, DPOINT]

theorem sC_exit (y : Nat) (t : List Nat) (digx expneg : Nat) (expexp : Int) (neg : Nat)
    (e : Int) (m : Nat) (h1 : y ≠ 48) (h2 : y ≠ DPOINT) :
    parserStep (mkSt .FSM_C (y :: t) digx expneg expexp neg e m) =
      some (mkSt .FSM_E (y :: t) digx expneg expexp neg e m) := by
  simp [mkSt, parserStep, h1, h2]

theorem sD_zero (y : Nat) (t : List Nat) (digx expneg : Nat) (expexp : Int) (neg : Nat)
    (e : Int) (m : Nat) :
    parserStep (mkSt .FSM_D (48 :: y :: t) digx expneg expexp neg e m) =
      some (mkSt .FSM_D (y :: t) digx expneg expexp neg (skipD e 48) m) := by
  by_cases he : e > -2147483647
  · simp [mkSt, parserStep, GETC, skipD, he]
  · simp [mkSt, parserStep, GETC, skipD, he]

theorem sD_exit (y : Nat) (t : List Nat) (digx expneg : Nat) (expexp : Int) (neg : Nat)
    (e : Int) (m : Nat) (h1 : y ≠ 48) :
    parserStep (mkSt .FSM_D (y :: t) digx expneg expexp neg e m) =
      some (mkSt .FSM_F (y :: t) digx expneg expexp neg e m) := by
  simp [mkSt, parserStep, h1]

theorem sE_digit (d y : Nat) (t : List Nat) (digx expneg : Nat) (expexp : Int) (neg : Nat)
    (e : Int) (m : Nat) (hd : ISDIGIT d = true) :
    parserStep (mkSt .FSM_E (d :: y :: t) digx expneg expexp neg e m) =
      some (mkSt .FSM_E (y :: t) (absorbE (digx, e, m) d).1 expneg expexp neg
        (absorbE (digx, e, m) d).2.1 (absorbE (digx, e, m) d).2.2) := by
  by_cases h1 : digx < DIGITS
  · simp [mkSt, parserStep, GETC, absorbE, hd, h1]
  · by_cases h2 : e < 2147483647
    · simp [mkSt, parserStep, GETC, absorbE, hd, h1, h2]
    · simp [mkSt, parserStep, GETC, absorbE, hd, h1, h2]

theorem sE_point (y : Nat) (t : List Nat) (digx expneg : Nat) (expexp : Int) (neg : Nat)
    (e : Int) (m : Nat) :
    parserStep (mkSt .FSM_E (46 :: y :: t) digx expneg expexp neg e m) =
      some (mkSt .FSM_F (y :: t) digx expneg expexp neg e m) := by
  simp [mkSt, parserStep, GETC, DPOINT, ISDIGIT]

theorem sE_exit (y : Nat) (t : List Nat) (digx expneg : Nat) (expexp : Int) (neg : Nat)
    (e : Int) (m : Nat) (h1 : ISDIGIT y = false) (h2 : y ≠ DPOINT) :
    parserStep (mkSt .FSM_E (y :: t) digx expneg expexp neg e m) =
      some (mkSt .FSM_F (y :: t) digx expneg expexp neg e m) := by
  simp [mkSt, parserStep, h1, h2]

theorem sF_digit (d y : Nat) (t : List Nat) (digx expneg : Nat) (expexp : Int) (neg : Nat)
    (e : Int) (m : Nat) (hd : ISDIGIT d = true) :
    parserStep (mkSt .FSM_F (d :: y :: t) digx expneg expexp neg e m) =
      some (mkSt .FSM_F (y :: t) (absorbF (digx, e, m) d).1 expneg expexp neg
        (absorbF (digx, e, m) d).2.1 (absorbF (digx, e, m) d).2.2) := by
  by_cases h1 : digx < DIGITS
  · simp [mkSt, parserStep, GETC, absorbF, hd, h1]
  · simp [mkSt, parserStep, GETC, absorbF, hd, h1]

theorem sF_exp (x y : Nat) (t : List Nat) (digx expneg : Nat) (expexp : Int) (neg : Nat)
    (e : Int) (m : Nat) (hx : ISEXP x = true) :
    parserStep (mkSt .FSM_F (x :: y :: t) digx expneg expexp neg e m) =
      some (mkSt .FSM_G (y :: t) digx expneg expexp neg e m) := by
  have hd : ISDIGIT x = false := by
    simp only [ISEXP, Bool.or_eq_true, decide_eq_true_eq] at hx
    rcases hx with rfl | rfl <;> decide
  simp [mkSt, parserStep, GETC, hd, hx]

theorem sF_exit (y : Nat) (t : List Nat) (digx expneg : Nat) (expexp : Int) (neg : Nat)
    (e : Int) (m : Nat) (h1 : ISDIGIT y = false) (h2 : ISEXP y = false) :
    parserStep (mkSt .FSM_F (y :: t) digx expneg expexp neg e m) =
      some (mkSt .FSM_G (y :: t) digx expneg expexp neg e m) := by
  simp [mkSt, parserStep, h1, h2]

theorem sG_plus (y : Nat) (t : List Nat) (digx expneg : Nat) (expexp : Int) (neg : Nat)
    (e : Int) (m : Nat) :
    parserStep (mkSt .FSM_G (43 :: y :: t) digx expneg expexp neg e m) =
      some (mkSt .FSM_H (y :: t) digx expneg expexp neg e m) := by
  simp [mkSt, parserStep, GETC]

theorem sG_minus (y : Nat) (t : List Nat) (digx expneg : Nat) (expexp : Int) (neg : Nat)
    (e : Int) (m : Nat) :
    parserStep (mkSt .FSM_G (45 :: y :: t) digx expneg expexp neg e m) =
      some (mkSt .FSM_H (y :: t) digx 1 expexp neg e m) := by
  simp [mkSt, parserStep, GETC]

theorem sG_exit (y : Nat) (t : List Nat) (digx expneg : Nat) (expexp : Int) (neg : Nat)
    (e : Int) (m : Nat) (h1 : y ≠ 43) (h2 : y ≠ 45) :
    parserStep (mkSt .FSM_G (y :: t) digx expneg expexp neg e m) =
      some (mkSt .FSM_H (y :: t) digx expneg expexp neg e m) := by
  simp [mkSt, parserStep, h1, h2]

theorem sH_zero (y : Nat) (t : List Nat) (digx expneg : Nat) (expexp : Int) (neg : Nat)
    (e : Int) (m : Nat) :
    parserStep (mkSt .FSM_H (48 :: y :: t) digx expneg expexp neg e m) =
      some (mkSt .FSM_H (y :: t) digx expneg expexp neg e m) := by
  simp [mkSt, parserStep, GETC]

theorem sH_exit (y : Nat) (t : List Nat) (digx expneg : Nat) (expexp : Int) (neg : Nat)
    (e : Int) (m : Nat) (h1 : y ≠ 48) :
    parserStep (mkSt .FSM_H (y :: t) digx expneg expexp neg e m) =
      some (mkSt .FSM_I (y :: t) digx expneg expexp neg e m) := by
  simp [mkSt, parserStep, h1]

theorem sI_digit (d y : Nat) (t : List Nat) (digx expneg : Nat) (expexp : Int) (neg : Nat)
    (e : Int) (m : Nat) (hd : ISDIGIT d = true) :
    parserStep (mkSt .FSM_I (d :: y :: t) digx expneg expexp neg e m) =
      some (mkSt .FSM_I (y :: t) digx expneg (absorbExp expexp d) neg e m) :=
  step_I_any d y t digx expneg expexp ⟨neg, e, m⟩ hd

theorem sI_exit (y : Nat) (t : List Nat) (digx expneg : Nat) (expexp : Int) (neg : Nat)
    (e : Int) (m : Nat) (h1 : ISDIGIT y = false) :
    parserStep (mkSt .FSM_I (y :: t) digx expneg expexp neg e m) =
      some (mkSt .FSM_STOP (y :: t) digx expneg expexp neg e m) := by
  simp [mkSt, parserStep, h1]

/-- A state that reads the characters `ds` one by one, updating its variables by `upd`,
runs from the stream `ds ++ x :: r` to the stream `x :: r`. -/
theorem steps_phase {α : Type} (upd : α → Nat → α) (mk : α → List Nat → ParserState)
    (P : Nat → Prop)
    (hstep : ∀ a d y t, P d → parserStep (mk a (d :: y :: t)) = some (mk (upd a d) (y :: t)))
    (hne : ∀ a L, (mk a L).state ≠ Fsm.FSM_STOP) (x : Nat) (r : List Nat) :
    ∀ (ds : List Nat) (a : α), (∀ d ∈ ds, P d) →
      Steps (mk a (ds ++ x :: r)) (mk (ds.foldl upd a) (x :: r)) := by
  intro ds
  induction ds with
  | nil => intro a _; exact Steps.refl _
  | cons d ds ih =>
    intro a hd
    obtain ⟨y, t, hyt⟩ := append_cons_ne_nil ds x r
    have h1 := hstep a d y t (hd d (List.mem_cons_self _ _))
    have h2 := ih (upd a d) (fun z hz => hd z (List.mem_cons_of_mem _ hz))
    rw [hyt] at h2
    simp only [List.cons_append, List.foldl_cons, hyt]
    exact Steps.step (hne _ _) h1 h2

theorem stepsA (ds : List Nat) (x : Nat) (r : List Nat) (digx expneg : Nat) (expexp : Int)
    (neg : Nat) (e : Int) (m : Nat) (hd : ∀ d ∈ ds, ISSPACE d = true) :
    Steps (mkSt .FSM_A (ds ++ x :: r) digx expneg expexp neg e m)
      (mkSt .FSM_A (x :: r) digx expneg expexp neg e m) := by
  have := steps_phase (fun (b : Unit) _ => b)
    (fun _ L => mkSt .FSM_A L digx expneg expexp neg e m) (fun d => ISSPACE d = true)
    (fun _ d y t h => sA_space d y t digx expneg expexp neg e m h)
    (fun _ _ => by simp [mkSt]) x r ds () hd
  exact this

theorem stepsC (ds : List Nat) (x : Nat) (r : List Nat) (digx expneg : Nat) (expexp : Int)
    (neg : Nat) (e : Int) (m : Nat) (hd : ∀ d ∈ ds, d = 48) :
    Steps (mkSt .FSM_C (ds ++ x :: r) digx expneg expexp neg e m)
      (mkSt .FSM_C (x :: r) digx expneg expexp neg e m) := by
  have := steps_phase (fun (b : Unit) _ => b)
    (fun _ L => mkSt .FSM_C L digx expneg expexp neg e m) (fun d => d = 48)
    (fun _ d y t h => by subst h; exact sC_zero y t digx expneg expexp neg e m)
    (fun _ _ => by simp [mkSt]) x r ds () hd
  exact this

theorem stepsH (ds : List Nat) (x : Nat) (r : List Nat) (digx expneg : Nat) (expexp : Int)
    (neg : Nat) (e : Int) (m : Nat) (hd : ∀ d ∈ ds, d = 48) :
    Steps (mkSt .FSM_H (ds ++ x :: r) digx expneg expexp neg e m)
      (mkSt .FSM_H (x :: r) digx expneg expexp neg e m) := by
  have := steps_phase (fun (b : Unit) _ => b)
    (fun _ L => mkSt .FSM_H L digx expneg expexp neg e m) (fun d => d = 48)
    (fun _ d y t h => by subst h; exact sH_zero y t digx expneg expexp neg e m)
    (fun _ _ => by simp [mkSt]) x r ds () hd
  exact this

theorem stepsD (ds : List Nat) (x : Nat) (r : List Nat) (digx expneg : Nat) (expexp : Int)
    (neg : Nat) (e : Int) (m : Nat) (hd : ∀ d ∈ ds, d = 48) :
    Steps (mkSt .FSM_D (ds ++ x :: r) digx expneg expexp neg e m)
      (mkSt .FSM_D (x :: r) digx expneg expexp neg (ds.foldl skipD e) m) := by
  have := steps_phase skipD
    (fun a L => mkSt .FSM_D L digx expneg expexp neg a m) (fun d => d = 48)
    (fun a d y t h => by subst h; exact sD_zero y t digx expneg expexp neg a m)
    (fun _ _ => by simp [mkSt]) x r ds e hd
  exact this

theorem stepsE (ds : List Nat) (x : Nat) (r : List Nat) (digx expneg : Nat) (expexp : Int)
    (neg : Nat) (e : Int) (m : Nat) (hd : ∀ d ∈ ds, ISDIGIT d = true) :
    Steps (mkSt .FSM_E (ds ++ x :: r) digx expneg expexp neg e m)
      (mkSt .FSM_E (x :: r) (ds.foldl absorbE (digx, e, m)).1 expneg expexp neg
        (ds.foldl absorbE (digx, e, m)).2.1 (ds.foldl absorbE (digx, e, m)).2.2) := by
  have := steps_phase absorbE
    (fun a L => mkSt .FSM_E L a.1 expneg expexp neg a.2.1 a.2.2) (fun d => ISDIGIT d = true)
    (fun a d y t h => sE_digit d y t a.1 expneg expexp neg a.2.1 a.2.2 h)
    (fun _ _ => by simp [mkSt]) x r ds (digx, e, m) hd
  exact this

theorem stepsF (ds : List Nat) (x : Nat) (r : List Nat) (digx expneg : Nat) (expexp : Int)
    (neg : Nat) (e : Int) (m : Nat) (hd : ∀ d ∈ ds, ISDIGIT d = true) :
    Steps (mkSt .FSM_F (ds ++ x :: r) digx expneg expexp neg e m)
      (mkSt .FSM_F (x :: r) (ds.foldl absorbF (digx, e, m)).1 expneg expexp neg
        (ds.foldl absorbF (digx, e, m)).2.1 (ds.foldl absorbF (digx, e, m)).2.2) := by
  have := steps_phase absorbF
    (fun a L => mkSt .FSM_F L a.1 expneg expexp neg a.2.1 a.2.2) (fun d => ISDIGIT d = true)
    (fun a d y t h => sF_digit d y t a.1 expneg expexp neg a.2.1 a.2.2 h)
    (fun _ _ => by simp [mkSt]) x r ds (digx, e, m) hd
  exact this

theorem stepsI (ds : List Nat) (x : Nat) (r : List Nat) (digx expneg : Nat) (expexp : Int)
    (neg : Nat) (e : Int) (m : Nat) (hd : ∀ d ∈ ds, ISDIGIT d = true) :
    Steps (mkSt .FSM_I (ds ++ x :: r) digx expneg expexp neg e m)
      (mkSt .FSM_I (x :: r) digx expneg (ds.foldl absorbExp expexp) neg e m) := by
  have := steps_phase absorbExp
    (fun a L => mkSt .FSM_I L digx expneg a neg e m) (fun d => ISDIGIT d = true)
    (fun a d y t h => sI_digit d y t digx expneg a neg e m h)
    (fun _ _ => by simp [mkSt]) x r ds expexp hd
  exact this

/-! ## The folds of the digit-absorbing states -/

theorem horner_append (m : Nat) (a b : List Nat) : horner m (a ++ b) = horner (horner m a) b := by
  simp [horner, List.foldl_append]

theorem horner_zeros (zs : List Nat) (hz : ∀ d ∈ zs, d = 48) : horner 0 zs = 0 := by
  induction zs with
  | nil => rfl
  | cons d ds ih =>
    have hd : d = 48 := hz d (List.mem_cons_self _ _)
    subst hd
    have := ih (fun z hz' => hz z (List.mem_cons_of_mem _ hz'))
    simpa [horner] using this

theorem foldl_absorbE (ds : List Nat) (hd : ∀ d ∈ ds, ISDIGIT d = true) :
    ∀ (digx : Nat) (e : Int) (m : Nat), digx + ds.length ≤ 18 → m < 10 ^ digx →
      ds.foldl absorbE (digx, e, m) = (digx + ds.length, e, horner m ds) ∧
      horner m ds < 10 ^ (digx + ds.length) := by
  induction ds with
  | nil => intro digx e m _ hm; exact ⟨rfl, hm⟩
  | cons d ds ih =>
    intro digx e m hx hm
    simp only [List.length_cons] at hx
    have hlt : digx < 18 := by omega
    obtain ⟨h1, h2⟩ := absorb_bound m d digx hm (hd d (List.mem_cons_self _ _)) hlt
    have step : absorbE (digx, e, m) d = (digx + 1, e, m * 10 + (d - 48)) := by
      simp only [absorbE, DIGITS, if_pos hlt, h1]
    obtain ⟨i1, i2⟩ := ih (fun z hz => hd z (List.mem_cons_of_mem _ hz)) (digx + 1) e
      (m * 10 + (d - 48)) (by omega) h2
    have e1 : digx + 1 + ds.length = digx + (ds.length + 1) := by omega
    refine ⟨?_, ?_⟩
    · rw [List.foldl_cons, step, i1, e1]; rfl
    · rw [List.length_cons, ← e1]; exact i2

theorem foldl_absorbF (ds : List Nat) (hd : ∀ d ∈ ds, ISDIGIT d = true) :
    ∀ (digx : Nat) (e : Int) (m : Nat), digx + ds.length ≤ 18 → m < 10 ^ digx →
      -2147483648 ≤ e - ds.length → e ≤ 2147483648 →
      ds.foldl absorbF (digx, e, m) = (digx + ds.length, e - ds.length, horner m ds) ∧
      horner m ds < 10 ^ (digx + ds.length) := by
  induction ds with
  | nil => intro digx e m _ hm _ _; exact ⟨by simp [horner], hm⟩
  | cons d ds ih =>
    intro digx e m hx hm he1 he2
    simp only [List.length_cons] at hx
    simp only [List.length_cons, Nat.cast_add, Nat.cast_one] at he1
    have hlt : digx < 18 := by omega
    obtain ⟨h1, h2⟩ := absorb_bound m d digx hm (hd d (List.mem_cons_self _ _)) hlt
    have hw : wrap32 (e - 1) = e - 1 := wrap32_of_range _ (by omega) (by omega)
    have step : absorbF (digx, e, m) d = (digx + 1, e - 1, m * 10 + (d - 48)) := by
      simp only [absorbF, DIGITS, if_pos hlt, h1, hw]
    obtain ⟨i1, i2⟩ := ih (fun z hz => hd z (List.mem_cons_of_mem _ hz)) (digx + 1) (e - 1)
      (m * 10 + (d - 48)) (by omega) h2 (by omega) (by omega)
    have e1 : digx + 1 + ds.length = digx + (ds.length + 1) := by omega
    refine ⟨?_, ?_⟩
    · rw [List.foldl_cons, step, i1, e1]
      simp only [List.length_cons, Nat.cast_add, Nat.cast_one, Prod.mk.injEq, true_and]
      exact ⟨by omega, rfl⟩
    · rw [List.length_cons, ← e1]; exact i2

theorem foldl_skipD (ds : List Nat) :
    ∀ e : Int, -2147483647 ≤ e - ds.length → ds.foldl skipD e = e - ds.length := by
  induction ds with
  | nil => intro e _; simp
  | cons d ds ih =>
    intro e he
    simp only [List.length_cons, Nat.cast_add, Nat.cast_one] at he
    have step : skipD e d = e - 1 := by
      simp only [skipD]; rw [if_pos (by omega)]
    rw [List.foldl_cons, step, ih (e - 1) (by omega)]
    simp only [List.length_cons, Nat.cast_add, Nat.cast_one]
    omega

theorem foldl_absorbExp_digits (ds : List Nat) (hd : ∀ d ∈ ds, ISDIGIT d = true) :
    ∀ (k a : Nat), k + ds.length ≤ 9 → a < 10 ^ k →
      ds.foldl absorbExp (a : Int) = ((horner a ds : Nat) : Int) ∧
      horner a ds < 10 ^ (k + ds.length) := by
  induction ds with
  | nil => intro k a _ ha; exact ⟨rfl, ha⟩
  | cons d ds ih =>
    intro k a hk ha
    simp only [List.length_cons] at hk
    have hdig := hd d (List.mem_cons_self _ _)
    simp only [ISDIGIT, Bool.and_eq_true, decide_eq_true_eq] at hdig
    have h8 : 10 ^ k ≤ 10 ^ 8 := Nat.pow_le_pow_right (by norm_num) (by omega)
    have hs : (10 : Nat) ^ (k + 1) = 10 ^ k * 10 := pow_succ 10 k
    have hlt : (a : Int) < 214748364 := by
      have : a < 10 ^ 8 := lt_of_lt_of_le ha h8
      omega
    have step : absorbExp (a : Int) d = ((a * 10 + (d - 48) : Nat) : Int) := by
      rw [absorbExp_of_lt _ _ hlt]
      push_cast
      omega
    have hb : a * 10 + (d - 48) < 10 ^ (k + 1) := by rw [hs]; omega
    obtain ⟨i1, i2⟩ := ih (fun z hz => hd z (List.mem_cons_of_mem _ hz)) (k + 1)
      (a * 10 + (d - 48)) (by omega) hb
    have e1 : k + 1 + ds.length = k + (ds.length + 1) := by omega
    refine ⟨?_, ?_⟩
    · rw [List.foldl_cons, step, i1]; rfl
    · rw [List.length_cons, ← e1]; exact i2

/-- Once 18 digits are absorbed `FSM_F` changes nothing. -/
theorem foldl_absorbF_full (ds : List Nat) (a : Nat × Int × Nat) (h : ¬ a.1 < 18) :
    ds.foldl absorbF a = a := by
  induction ds with
  | nil => rfl
  | cons d ds ih =>
    have step : absorbF a d = a := by simp only [absorbF, DIGITS, if_neg h]
    rw [List.foldl_cons, step, ih]

theorem absorbE_digx (a : Nat × Int × Nat) (d : Nat) (h : a.1 ≤ 18) :
    (absorbE a d).1 = min 18 (a.1 + 1) := by
  simp only [absorbE, DIGITS]
  split_ifs <;> omega

theorem absorbF_digx (a : Nat × Int × Nat) (d : Nat) (h : a.1 ≤ 18) :
    (absorbF a d).1 = min 18 (a.1 + 1) := by
  simp only [absorbF, DIGITS]
  split_ifs <;> omega

theorem foldl_absorbE_digx (ds : List Nat) :
    ∀ a : Nat × Int × Nat, a.1 ≤ 18 → (ds.foldl absorbE a).1 = min 18 (a.1 + ds.length) := by
  induction ds with
  | nil => intro a h; simp only [List.foldl_nil, List.length_nil]; omega
  | cons d ds ih =>
    intro a h
    have h1 := absorbE_digx a d h
    rw [List.foldl_cons, ih _ (by omega), h1, List.length_cons]
    omega

theorem foldl_absorbF_digx (ds : List Nat) :
    ∀ a : Nat × Int × Nat, a.1 ≤ 18 → (ds.foldl absorbF a).1 = min 18 (a.1 + ds.length) := by
  induction ds with
  | nil => intro a h; simp only [List.foldl_nil, List.length_nil]; omega
  | cons d ds ih =>
    intro a h
    have h1 := absorbF_digx a d h
    rw [List.foldl_cons, ih _ (by omega), h1, List.length_cons]
    omega

/-! ## The phases of a numeral -/

theorem zeros_split (X : List Nat) :
    ∃ zs X', X = zs ++ X' ∧ (∀ d ∈ zs, d = 48) ∧
      X' = X.dropWhile (fun d => decide (d = 48)) ∧
      (X' = [] ∨ ∃ y t, X' = y :: t ∧ y ≠ 48) := by
  induction X with
  | nil => exact ⟨[], [], rfl, by simp, rfl, Or.inl rfl⟩
  | cons a X ih =>
    by_cases ha : a = 48
    · obtain ⟨zs, X', h1, h2, h3, h4⟩ := ih
      refine ⟨a :: zs, X', by rw [h1]; rfl, ?_, ?_, h4⟩
      · intro d hd
        rcases List.mem_cons.1 hd with rfl | hd
        · exact ha
        · exact h2 d hd
      · rw [h3]; simp [List.dropWhile, ha]
    · exact ⟨[], a :: X, rfl, by simp, by simp [List.dropWhile, ha], Or.inr ⟨a, X, rfl, ha⟩⟩

theorem digit_ne_point {d : Nat} (h : ISDIGIT d = true) : d ≠ DPOINT := by
  rintro rfl; simp [ISDIGIT, DPOINT] at h

theorem digit_not_space {d : Nat} (h : ISDIGIT d = true) : ISSPACE d = false := by
  simp only [ISDIGIT, Bool.and_eq_true, decide_eq_true_eq] at h
  simp only [ISSPACE, Bool.or_eq_false_iff, Bool.and_eq_false_iff, decide_eq_false_iff_not]
  omega

/-- From the initial state over leading whitespace and a sign to `FSM_C`. -/
theorem steps_sign (ws sg : List Nat) (y : Nat) (t : List Nat)
    (hws : ∀ x ∈ ws, ISSPACE x = true) (hsg : sg = [] ∨ sg = [43] ∨ sg = [45])
    (hy : sg = [] → ISDIGIT y = true ∨ y = DPOINT) (hy' : ISSPACE y = false) :
    Steps (parserInit (ws ++ (sg ++ y :: t)) ⟨0, 0, 0⟩)
      (mkSt .FSM_C (y :: t) 0 0 0 (if sg = [45] then 1 else 0) 0 0) := by
  obtain ⟨z, u, hzu⟩ := append_cons_ne_nil sg y t
  have h0 : parserInit (ws ++ (sg ++ y :: t)) ⟨0, 0, 0⟩ =
      mkSt .FSM_A ((32 :: ws) ++ z :: u) 0 0 0 0 0 0 := by rw [hzu]; rfl
  have hA := stepsA (32 :: ws) z u 0 0 0 0 0 0 (by
    intro x hx
    rcases List.mem_cons.1 hx with rfl | hx
    · decide
    · exact hws x hx)
  rw [h0]
  refine hA.trans ?_
  rcases hsg with rfl | rfl | rfl
  · simp only [List.nil_append, List.cons.injEq] at hzu
    obtain ⟨rfl, rfl⟩ := hzu
    refine Steps.step (by simp [mkSt]) (sA_exit y t 0 0 0 0 0 0 hy') ?_
    exact Steps.one (by simp [mkSt]) (sB_body y t 0 0 0 0 0 0 (hy rfl))
  · simp only [List.singleton_append, List.cons.injEq] at hzu
    obtain ⟨rfl, rfl⟩ := hzu
    refine Steps.step (by simp [mkSt]) (sA_exit 43 (y :: t) 0 0 0 0 0 0 (by decide)) ?_
    exact Steps.one (by simp [mkSt]) (sB_plus y t 0 0 0 0 0 0)
  · simp only [List.singleton_append, List.cons.injEq] at hzu
    obtain ⟨rfl, rfl⟩ := hzu
    refine Steps.step (by simp [mkSt]) (sA_exit 45 (y :: t) 0 0 0 0 0 0 (by decide)) ?_
    exact Steps.one (by simp [mkSt]) (sB_minus y t 0 0 0 0 0 0)

/-- Integer part with a non-zero digit, followed by a point and a fraction. -/
theorem steps_int_point (zI I1 F : List Nat) (d0 x0 : Nat) (r0 : List Nat) (neg : Nat)
    (hz : ∀ d ∈ zI, d = 48) (hd0 : d0 ≠ 48) (hI : ∀ d ∈ d0 :: I1, ISDIGIT d = true)
    (hF : ∀ d ∈ F, ISDIGIT d = true) :
    Steps (mkSt .FSM_C (zI ++ (d0 :: I1 ++ 46 :: (F ++ x0 :: r0))) 0 0 0 neg 0 0)
      (mkSt .FSM_F (x0 :: r0) (F.foldl absorbF ((d0 :: I1).foldl absorbE (0, 0, 0))).1 0 0 neg
        (F.foldl absorbF ((d0 :: I1).foldl absorbE (0, 0, 0))).2.1
        (F.foldl absorbF ((d0 :: I1).foldl absorbE (0, 0, 0))).2.2) := by
  have h1 := stepsC zI d0 (I1 ++ 46 :: (F ++ x0 :: r0)) 0 0 0 neg 0 0 hz
  have h2 := sC_exit d0 (I1 ++ 46 :: (F ++ x0 :: r0)) 0 0 0 neg 0 0 hd0
    (digit_ne_point (hI d0 (List.mem_cons_self _ _)))
  have h3 := stepsE (d0 :: I1) 46 (F ++ x0 :: r0) 0 0 0 neg 0 0 hI
  obtain ⟨y, t, hyt⟩ := append_cons_ne_nil F x0 r0
  have h4 := sE_point y t ((d0 :: I1).foldl absorbE (0, 0, 0)).1 0 0 neg
    ((d0 :: I1).foldl absorbE (0, 0, 0)).2.1 ((d0 :: I1).foldl absorbE (0, 0, 0)).2.2
  have h5 := stepsF F x0 r0 ((d0 :: I1).foldl absorbE (0, 0, 0)).1 0 0 neg
    ((d0 :: I1).foldl absorbE (0, 0, 0)).2.1 ((d0 :: I1).foldl absorbE (0, 0, 0)).2.2 hF
  rw [hyt] at h1 h2 h3 h5 ⊢
  simp only [List.cons_append] at h1 h2 h3 ⊢
  exact h1.trans (Steps.step (by simp [mkSt]) h2 (h3.trans (Steps.step (by simp [mkSt]) h4 h5)))

/-- Integer part with a non-zero digit, not followed by a point. -/
theorem steps_int_only (zI I1 : List Nat) (d0 x0 : Nat) (r0 : List Nat) (neg : Nat)
    (hz : ∀ d ∈ zI, d = 48) (hd0 : d0 ≠ 48) (hI : ∀ d ∈ d0 :: I1, ISDIGIT d = true)
    (hx0 : ISDIGIT x0 = false) (hx1 : x0 ≠ DPOINT) :
    Steps (mkSt .FSM_C (zI ++ (d0 :: I1 ++ x0 :: r0)) 0 0 0 neg 0 0)
      (mkSt .FSM_F (x0 :: r0) ((d0 :: I1).foldl absorbE (0, 0, 0)).1 0 0 neg
        ((d0 :: I1).foldl absorbE (0, 0, 0)).2.1 ((d0 :: I1).foldl absorbE (0, 0, 0)).2.2) := by
  have h1 := stepsC zI d0 (I1 ++ x0 :: r0) 0 0 0 neg 0 0 hz
  have h2 := sC_exit d0 (I1 ++ x0 :: r0) 0 0 0 neg 0 0 hd0
    (digit_ne_point (hI d0 (List.mem_cons_self _ _)))
  have h3 := stepsE (d0 :: I1) x0 r0 0 0 0 neg 0 0 hI
  have h4 := sE_exit x0 r0 ((d0 :: I1).foldl absorbE (0, 0, 0)).1 0 0 neg
    ((d0 :: I1).foldl absorbE (0, 0, 0)).2.1 ((d0 :: I1).foldl absorbE (0, 0, 0)).2.2 hx0 hx1
  simp only [List.cons_append] at h1 h2 h3 ⊢
  exact h1.trans (Steps.step (by simp [mkSt]) h2 (h3.trans (Steps.one (by simp [mkSt]) h4)))

/-- Integer part of zeros only, followed by a point and a fraction `zF ++ F1` whose
leading zeros are `zF`. -/
theorem steps_zero_point (zI zF F1 : List Nat) (x0 : Nat) (r0 : List Nat) (neg : Nat)
    (hz : ∀ d ∈ zI, d = 48) (hzF : ∀ d ∈ zF, d = 48) (hF : ∀ d ∈ F1, ISDIGIT d = true)
    (hhead : ∀ y t, F1 ++ x0 :: r0 = y :: t → y ≠ 48) :
    Steps (mkSt .FSM_C (zI ++ 46 :: (zF ++ (F1 ++ x0 :: r0))) 0 0 0 neg 0 0)
      (mkSt .FSM_F (x0 :: r0) (F1.foldl absorbF (0, zF.foldl skipD 0, 0)).1 0 0 neg
        (F1.foldl absorbF (0, zF.foldl skipD 0, 0)).2.1
        (F1.foldl absorbF (0, zF.foldl skipD 0, 0)).2.2) := by
  obtain ⟨y, t, hyt⟩ := append_cons_ne_nil F1 x0 r0
  obtain ⟨y', t', hyt'⟩ := append_cons_ne_nil zF y t
  have h1 := stepsC zI 46 (zF ++ (F1 ++ x0 :: r0)) 0 0 0 neg 0 0 hz
  have h2 := sC_point y' t' 0 0 0 neg 0 0
  have h3 := stepsD zF y t 0 0 0 neg 0 0 hzF
  have h4 := sD_exit y t 0 0 0 neg (zF.foldl skipD 0) 0 (hhead y t hyt)
  have h5 := stepsF F1 x0 r0 0 0 0 neg (zF.foldl skipD 0) 0 hF
  rw [hyt] at h1 h5 ⊢
  rw [hyt'] at h1 h3 ⊢
  exact h1.trans (Steps.step (by simp [mkSt]) h2 (h3.trans (Steps.step (by simp [mkSt]) h4 h5)))

/-- Integer part of zeros only, not followed by a point. -/
theorem steps_zero_only (zI : List Nat) (x0 : Nat) (r0 : List Nat) (neg : Nat)
    (hz : ∀ d ∈ zI, d = 48) (hx0 : ISDIGIT x0 = false) (hx1 : x0 ≠ DPOINT) :
    Steps (mkSt .FSM_C (zI ++ x0 :: r0) 0 0 0 neg 0 0) (mkSt .FSM_F (x0 :: r0) 0 0 0 neg 0 0) := by
  have h48 : x0 ≠ 48 := by rintro rfl; simp [ISDIGIT] at hx0
  have h1 := stepsC zI x0 r0 0 0 0 neg 0 0 hz
  have h2 := sC_exit x0 r0 0 0 0 neg 0 0 h48 hx1
  have h3 := sE_exit x0 r0 0 0 0 neg 0 0 hx0 hx1
  exact h1.trans (Steps.step (by simp [mkSt]) h2 (Steps.one (by simp [mkSt]) h3))

theorem dropWhile_zeros_append (zs L : List Nat) (hz : ∀ d ∈ zs, d = 48) :
    (zs ++ L).dropWhile (fun d => decide (d = 48)) = L.dropWhile (fun d => decide (d = 48)) := by
  induction zs with
  | nil => rfl
  | cons a zs ih =>
    have ha : a = 48 := hz a (List.mem_cons_self _ _)
    have := ih (fun d hd => hz d (List.mem_cons_of_mem _ hd))
    simp [List.dropWhile, ha, this]

theorem dropWhile_nonzero (y : Nat) (t : List Nat) (hy : y ≠ 48) :
    (y :: t).dropWhile (fun d => decide (d = 48)) = y :: t := by
  simp [List.dropWhile, hy]

theorem decValue_zeros_append (zs L : List Nat) (hz : ∀ d ∈ zs, d = 48) :
    decValue (zs ++ L) = decValue L := by
  simp only [decValue]
  rw [horner_append, horner_zeros zs hz]

/-- The mantissa digits of a numeral with at most 18 digits from the first non-zero digit:
from `FSM_C` to `FSM_F` at the character behind the digits, with the decimal value of all
digits as mantissa and minus the number of fraction digits as exponent. -/
theorem steps_mantissa (I pt F : List Nat) (x0 : Nat) (r0 : List Nat) (neg : Nat)
    (hI : ∀ d ∈ I, ISDIGIT d = true) (hF : ∀ d ∈ F, ISDIGIT d = true)
    (hpt : pt = [DPOINT] ∨ (pt = [] ∧ F = []))
    (hx0 : ISDIGIT x0 = false) (hx1 : x0 ≠ DPOINT)
    (h18 : ((I ++ F).dropWhile (fun d => decide (d = 48))).length ≤ 18)
    (hlen : F.length < 2 ^ 31) :
    ∃ digx, Steps (mkSt .FSM_C (I ++ (pt ++ (F ++ x0 :: r0))) 0 0 0 neg 0 0)
      (mkSt .FSM_F (x0 :: r0) digx 0 0 neg (-(F.length : Int)) (decValue (I ++ F))) := by
  obtain ⟨zI, I1, hsplit, hzI, hdrop, hhd⟩ := zeros_split I
  have hI1 : ∀ d ∈ I1, ISDIGIT d = true := fun d hd =>
    hI d (by rw [hsplit]; exact List.mem_append_right _ hd)
  rcases hhd with hnil | ⟨y, t, hyt, hy⟩
  · -- the integer part consists of zeros
    subst hnil
    simp only [List.append_nil] at hsplit
    subst hsplit
    rcases hpt with hp | ⟨hp, hFnil⟩
    · subst hp
      obtain ⟨zF, F1, hFs, hzF, hFdrop, hFhd⟩ := zeros_split F
      have hF1 : ∀ d ∈ F1, ISDIGIT d = true := fun d hd =>
        hF d (by rw [hFs]; exact List.mem_append_right _ hd)
      have hlenF : F.length = zF.length + F1.length := by rw [hFs, List.length_append]
      have h18' : F1.length ≤ 18 := by
        rw [dropWhile_zeros_append I F hzI, ← hFdrop] at h18
        exact h18
      have hhead : ∀ y t, F1 ++ x0 :: r0 = y :: t → y ≠ 48 := by
        intro y t h
        rcases hFhd with hn | ⟨y', t', hy't', hy'⟩
        · subst hn
          simp only [List.nil_append, List.cons.injEq] at h
          rw [← h.1]
          rintro rfl
          simp [ISDIGIT] at hx0
        · subst hy't'
          simp only [List.cons_append, List.cons.injEq] at h
          rw [← h.1]; exact hy'
      have key := steps_zero_point I zF F1 x0 r0 neg hzI hzF hF1 hhead
      have e1 : zF.foldl skipD 0 = 0 - (zF.length : Int) := foldl_skipD zF 0 (by omega)
      obtain ⟨e2, -⟩ := foldl_absorbF F1 hF1 0 (0 - (zF.length : Int)) 0 (by omega)
        (by norm_num) (by omega) (by omega)
      rw [e1, e2] at key
      refine ⟨0 + F1.length, ?_⟩
      have e3 : decValue (I ++ F) = horner 0 F1 := by
        rw [decValue_zeros_append I F hzI, hFs, decValue_zeros_append zF F1 hzF]; rfl
      have e4 : -(F.length : Int) = 0 - (zF.length : Int) - (F1.length : Int) := by
        rw [hlenF]; push_cast; omega
      rw [e3, e4]
      have e5 : I ++ ([DPOINT] ++ (F ++ x0 :: r0)) = I ++ 46 :: (zF ++ (F1 ++ x0 :: r0)) := by
        rw [hFs]; simp [DPOINT]
      rw [e5]
      exact key
    · subst hp; subst hFnil
      refine ⟨0, ?_⟩
      have e3 : decValue (I ++ []) = 0 := by
        rw [List.append_nil]; exact horner_zeros I hzI
      rw [e3]
      exact steps_zero_only I x0 r0 neg hzI hx0 hx1
  · -- the integer part has a non-zero digit
    subst hyt
    have hdropIF : (I ++ F).dropWhile (fun d => decide (d = 48)) = y :: t ++ F := by
      rw [hsplit, List.append_assoc, dropWhile_zeros_append zI _ hzI]
      exact dropWhile_nonzero y (t ++ F) hy
    rw [hdropIF, List.length_append] at h18
    obtain ⟨a1, a2⟩ := foldl_absorbE (y :: t) hI1 0 0 0 (by omega) (by norm_num)
    have eV : decValue (I ++ F) = horner (horner 0 (y :: t)) F := by
      rw [hsplit, List.append_assoc, decValue_zeros_append zI _ hzI]
      exact horner_append 0 (y :: t) F
    rcases hpt with hp | ⟨hp, hFnil⟩
    · subst hp
      have key := steps_int_point zI t F y x0 r0 neg hzI hy hI1 hF
      obtain ⟨e2, -⟩ := foldl_absorbF F hF (0 + (y :: t).length) 0 (horner 0 (y :: t))
        (by omega) a2 (by omega) (by norm_num)
      rw [a1, e2] at key
      refine ⟨0 + (y :: t).length + F.length, ?_⟩
      have e5 : I ++ ([DPOINT] ++ (F ++ x0 :: r0)) = zI ++ (y :: t ++ 46 :: (F ++ x0 :: r0)) := by
        rw [hsplit]; simp [DPOINT]
      rw [e5, eV]
      have e4 : -(F.length : Int) = 0 - (F.length : Int) := by omega
      rw [e4]
      exact key
    · subst hp; subst hFnil
      have key := steps_int_only zI t y x0 r0 neg hzI hy hI1 hx0 hx1
      rw [a1] at key
      refine ⟨0 + (y :: t).length, ?_⟩
      have e5 : I ++ ([] ++ ([] ++ x0 :: r0)) = zI ++ (y :: t ++ x0 :: r0) := by
        rw [hsplit]; simp
      rw [e5, eV]
      exact key

/-- The exponent part of a numeral: from `FSM_F` at the exponent marker (or at the
terminator) to `FSM_STOP`, with the decimal value of the exponent digits in expexp. -/
theorem steps_exp_part (mk es X : List Nat) (digx neg : Nat) (e : Int) (m : Nat)
    (hmk : (∃ c, ISEXP c = true ∧ mk = [c]) ∨ (mk = [] ∧ es = [] ∧ X = []))
    (hes : es = [] ∨ es = [43] ∨ es = [45])
    (hX : ∀ d ∈ X, ISDIGIT d = true) (hX9 : X.length ≤ 9) :
    ∃ b, Steps (mkSt .FSM_F (mk ++ (es ++ (X ++ [0]))) digx 0 0 neg e m) b ∧
      b.state = Fsm.FSM_STOP ∧ b.pn = ⟨neg, e, m⟩ ∧
      b.expneg = (if es = [45] then 1 else 0) ∧ b.expexp = (decValue X : Int) := by
  rcases hmk with ⟨c, hc, rfl⟩ | ⟨rfl, rfl, rfl⟩
  · obtain ⟨zs, X1, hXs, hzs, -, hhd⟩ := zeros_split X
    have hX1 : ∀ d ∈ X1, ISDIGIT d = true := fun d hd =>
      hX d (by rw [hXs]; exact List.mem_append_right _ hd)
    have hlen : X1.length ≤ 9 := by
      have : X.length = zs.length + X1.length := by rw [hXs, List.length_append]
      omega
    obtain ⟨y1, t1, h1⟩ := append_cons_ne_nil X1 0 []
    have hy1 : y1 ≠ 48 := by
      rcases hhd with hn | ⟨y', t', hy't', hy'⟩
      · subst hn
        simp only [List.nil_append, List.cons.injEq] at h1
        rw [← h1.1]; decide
      · subst hy't'
        simp only [List.cons_append, List.cons.injEq] at h1
        rw [← h1.1]; exact hy'
    obtain ⟨y2, t2, h2⟩ := append_cons_ne_nil zs y1 t1
    have hy2 : y2 ≠ 43 ∧ y2 ≠ 45 := by
      have hmem : y2 ∈ X ++ [0] := by
        have : X ++ [0] = y2 :: t2 := by
          rw [hXs, List.append_assoc, h1, h2]
        rw [this]; exact List.mem_cons_self _ _
      rcases List.mem_append.1 hmem with h | h
      · have := hX y2 h
        simp only [ISDIGIT, Bool.and_eq_true, decide_eq_true_eq] at this
        omega
      · simp only [List.mem_singleton] at h
        subst h; decide
    have hstream : X ++ [0] = y2 :: t2 := by rw [hXs, List.append_assoc, h1, h2]
    obtain ⟨v1, v2⟩ := foldl_absorbExp_digits X1 hX1 0 0 (by omega) (by norm_num)
    have hval : decValue X = horner 0 X1 := by
      rw [hXs, decValue_zeros_append zs X1 hzs]; rfl
    -- the run from `FSM_H`
    have tailH : ∀ expneg : Nat, Steps (mkSt .FSM_H (y2 :: t2) digx expneg 0 neg e m)
        (mkSt .FSM_STOP [0] digx expneg ((horner 0 X1 : Nat) : Int) neg e m) := by
      intro expneg
      have s1 := stepsH zs y1 t1 digx expneg 0 neg e m hzs
      have s2 := sH_exit y1 t1 digx expneg 0 neg e m hy1
      have s3 := stepsI X1 0 [] digx expneg 0 neg e m hX1
      have s4 := sI_exit 0 [] digx expneg ((horner 0 X1 : Nat) : Int) neg e m (by decide)
      rw [h2] at s1
      rw [h1] at s3
      have v1' : List.foldl absorbExp 0 X1 = ((horner 0 X1 : Nat) : Int) := v1
      rw [v1'] at s3
      exact s1.trans (Steps.step (by simp [mkSt]) s2 (s3.trans (Steps.one (by simp [mkSt]) s4)))
    rw [hstream, hval]
    rcases hes with rfl | rfl | rfl
    · refine ⟨mkSt .FSM_STOP [0] digx 0 ((horner 0 X1 : Nat) : Int) neg e m, ?_, rfl, rfl,
        by simp [mkSt], rfl⟩
      have s0 := sF_exp c y2 t2 digx 0 0 neg e m hc
      have s1 := sG_exit y2 t2 digx 0 0 neg e m hy2.1 hy2.2
      exact Steps.step (by simp [mkSt]) s0 (Steps.step (by simp [mkSt]) s1 (tailH 0))
    · refine ⟨mkSt .FSM_STOP [0] digx 0 ((horner 0 X1 : Nat) : Int) neg e m, ?_, rfl, rfl,
        by simp [mkSt], rfl⟩
      have s0 := sF_exp c 43 (y2 :: t2) digx 0 0 neg e m hc
      have s1 := sG_plus y2 t2 digx 0 0 neg e m
      exact Steps.step (by simp [mkSt]) s0 (Steps.step (by simp [mkSt]) s1 (tailH 0))
    · refine ⟨mkSt .FSM_STOP [0] digx 1 ((horner 0 X1 : Nat) : Int) neg e m, ?_, rfl, rfl,
        by simp [mkSt], rfl⟩
      have s0 := sF_exp c 45 (y2 :: t2) digx 0 0 neg e m hc
      have s1 := sG_minus y2 t2 digx 0 0 neg e m
      exact Steps.step (by simp [mkSt]) s0 (Steps.step (by simp [mkSt]) s1 (tailH 1))
  · exact ⟨_, steps_at_nul .FSM_F [] digx 0 0 ⟨neg, e, m⟩, rfl, rfl, by simp, rfl⟩

theorem horner_lt (ds : List Nat) (hd : ∀ d ∈ ds, ISDIGIT d = true) :
    ∀ (k a : Nat), a < 10 ^ k → horner a ds < 10 ^ (k + ds.length) := by
  induction ds with
  | nil => intro k a ha; exact ha
  | cons d ds ih =>
    intro k a ha
    have hdig := hd d (List.mem_cons_self _ _)
    simp only [ISDIGIT, Bool.and_eq_true, decide_eq_true_eq] at hdig
    have hs : (10 : Nat) ^ (k + 1) = 10 ^ k * 10 := pow_succ 10 k
    have hb : a * 10 + (d - 48) < 10 ^ (k + 1) := by rw [hs]; omega
    have := ih (fun z hz => hd z (List.mem_cons_of_mem _ hz)) (k + 1) _ hb
    have e1 : k + 1 + ds.length = k + (ds.length + 1) := by omega
    rw [List.length_cons, ← e1]
    exact this

theorem decValue_lt (X : List Nat) (hX : ∀ d ∈ X, ISDIGIT d = true) (n : Nat)
    (hn : X.length ≤ n) : decValue X < 10 ^ n := by
  have := horner_lt X hX 0 0 (by norm_num)
  rw [Nat.zero_add] at this
  exact lt_of_lt_of_le this (Nat.pow_le_pow_right (by norm_num) hn)

theorem parserFinish_record (b : ParserState) :
    (parserFinish b).2 = ⟨b.pn.negative,
      wrap32 (b.pn.exponent + (if b.expneg ≠ 0 then -b.expexp else b.expexp)),
      b.pn.mantissa⟩ := rfl

theorem exp_not_digit {c : Nat} (h : ISEXP c = true) :
    ISDIGIT c = false ∧ c ≠ DPOINT ∧ ISSPACE c = false ∧ c ≠ 43 ∧ c ≠ 45 := by
  simp only [ISEXP, Bool.or_eq_true, decide_eq_true_eq] at h
  rcases h with rfl | rfl <;> decide

/-- The record of a numeral that has a sign, an integer digit or a point. -/
theorem parser_numeral (ws sg I pt F mk es X : List Nat)
    (hws : ∀ x ∈ ws, ISSPACE x = true)
    (hsg : sg = [] ∨ sg = [43] ∨ sg = [45])
    (hI : ∀ d ∈ I, ISDIGIT d = true) (hF : ∀ d ∈ F, ISDIGIT d = true)
    (hpt : pt = [DPOINT] ∨ (pt = [] ∧ F = []))
    (hmk : (∃ c, ISEXP c = true ∧ mk = [c]) ∨ (mk = [] ∧ es = [] ∧ X = []))
    (hes : es = [] ∨ es = [43] ∨ es = [45])
    (hX : ∀ d ∈ X, ISDIGIT d = true) (hX9 : X.length ≤ 9)
    (h18 : ((I ++ F).dropWhile (fun d => decide (d = 48))).length ≤ 18)
    (hlen : F.length < 10 ^ 9)
    (hbody : ¬(sg = [] ∧ I = [] ∧ pt = [])) :
    ∃ status : Nat,
      parser (ws ++ sg ++ I ++ pt ++ F ++ mk ++ es ++ X ++ [0]) ⟨0, 0, 0⟩ =
        some (status, ⟨if sg = [45] then 1 else 0,
          -(F.length : Int) + (if es = [45] then -(decValue X : Int) else (decValue X : Int)),
          decValue (I ++ F)⟩) := by
  -- the stream behind the mantissa digits
  obtain ⟨x0, r0, hT, hx0d, hx0p, hx0s, hx0a, hx0b⟩ :
      ∃ x0 r0, mk ++ (es ++ (X ++ [0])) = x0 :: r0 ∧ ISDIGIT x0 = false ∧ x0 ≠ DPOINT ∧
        ISSPACE x0 = false ∧ x0 ≠ 43 ∧ x0 ≠ 45 := by
    rcases hmk with ⟨c, hc, rfl⟩ | ⟨rfl, rfl, rfl⟩
    · obtain ⟨h1, h2, h3, h4, h5⟩ := exp_not_digit hc
      exact ⟨c, es ++ (X ++ [0]), rfl, h1, h2, h3, h4, h5⟩
    · exact ⟨0, [], rfl, by decide, by decide, by decide, by decide, by decide⟩
  -- the stream behind the sign
  obtain ⟨y, t, hB, hyb, hys⟩ :
      ∃ y t, I ++ (pt ++ (F ++ x0 :: r0)) = y :: t ∧
        (sg = [] → ISDIGIT y = true ∨ y = DPOINT) ∧ ISSPACE y = false := by
    cases I with
    | cons d I1 =>
      have hd := hI d (List.mem_cons_self _ _)
      exact ⟨d, I1 ++ (pt ++ (F ++ x0 :: r0)), rfl, fun _ => Or.inl hd, digit_not_space hd⟩
    | nil =>
      rcases hpt with rfl | ⟨rfl, rfl⟩
      · exact ⟨DPOINT, F ++ x0 :: r0, rfl, fun _ => Or.inr rfl, by decide⟩
      · exact ⟨x0, r0, rfl, fun h => absurd ⟨h, rfl, rfl⟩ hbody, hx0s⟩
  have s1 := steps_sign ws sg y t hws hsg hyb hys
  obtain ⟨digx, s2⟩ := steps_mantissa I pt F x0 r0 (if sg = [45] then 1 else 0) hI hF hpt
    hx0d hx0p h18 (lt_trans hlen (by norm_num))
  obtain ⟨b, s3, hstop, hpn, hneg, hexp⟩ := steps_exp_part mk es X digx
    (if sg = [45] then 1 else 0) (-(F.length : Int)) (decValue (I ++ F)) hmk hes hX hX9
  rw [hB] at s2
  rw [hT] at s3
  have hbuf : ws ++ sg ++ I ++ pt ++ F ++ mk ++ es ++ X ++ [0] = ws ++ (sg ++ y :: t) := by
    rw [← hB, ← hT]; simp only [List.append_assoc]
  have hrun : Steps (parserInit (ws ++ sg ++ I ++ pt ++ F ++ mk ++ es ++ X ++ [0]) ⟨0, 0, 0⟩) b := by
    rw [hbuf]; exact s1.trans (s2.trans s3)
  have hp := parser_of_steps _ _ b hrun hstop
  refine ⟨(parserFinish b).1, ?_⟩
  rw [hp]
  have hx9 : decValue X < 10 ^ 9 := decValue_lt X hX 9 hX9
  have hrec := parserFinish_record b
  rw [hpn, hneg, hexp] at hrec
  have hw : wrap32 (-(F.length : Int) +
      (if (if es = [45] then 1 else 0) ≠ 0 then -(decValue X : Int) else (decValue X : Int))) =
      -(F.length : Int) + (if es = [45] then -(decValue X : Int) else (decValue X : Int)) := by
    by_cases h45 : es = [45]
    · simp only [h45, if_true, ne_eq, one_ne_zero, not_false_eq_true]
      exact wrap32_of_range _ (by omega) (by omega)
    · simp only [h45, if_false, ne_eq, not_true_eq_false]
      exact wrap32_of_range _ (by omega) (by omega)
  simp only [] at hrec
  rw [hw] at hrec
  rw [← hrec]

/-- The record of a numeral without sign, integer digits and point: the machine stops in
`FSM_B` and the record stays zero. -/
theorem parser_no_body (ws mk es X : List Nat) (hws : ∀ x ∈ ws, ISSPACE x = true)
    (hmk : (∃ c, ISEXP c = true ∧ mk = [c]) ∨ (mk = [] ∧ es = [] ∧ X = [])) :
    parser (ws ++ mk ++ es ++ X ++ [0]) ⟨0, 0, 0⟩ = some (PARSER_PZERO, ⟨0, 0, 0⟩) := by
  obtain ⟨x0, r0, hT, hx0d, hx0p, hx0s, hx0a, hx0b⟩ :
      ∃ x0 r0, mk ++ (es ++ (X ++ [0])) = x0 :: r0 ∧ ISDIGIT x0 = false ∧ x0 ≠ DPOINT ∧
        ISSPACE x0 = false ∧ x0 ≠ 43 ∧ x0 ≠ 45 := by
    rcases hmk with ⟨c, hc, rfl⟩ | ⟨rfl, rfl, rfl⟩
    · obtain ⟨h1, h2, h3, h4, h5⟩ := exp_not_digit hc
      exact ⟨c, es ++ (X ++ [0]), rfl, h1, h2, h3, h4, h5⟩
    · exact ⟨0, [], rfl, by decide, by decide, by decide, by decide, by decide⟩
  have hbuf : ws ++ mk ++ es ++ X ++ [0] = ws ++ x0 :: r0 := by
    rw [← hT]; simp only [List.append_assoc]
  have h0 : parserInit (ws ++ x0 :: r0) ⟨0, 0, 0⟩ =
      mkSt .FSM_A ((32 :: ws) ++ x0 :: r0) 0 0 0 0 0 0 := rfl
  have hA := stepsA (32 :: ws) x0 r0 0 0 0 0 0 0 (by
    intro x hx
    rcases List.mem_cons.1 hx with rfl | hx
    · decide
    · exact hws x hx)
  have hrun : Steps (parserInit (ws ++ mk ++ es ++ X ++ [0]) ⟨0, 0, 0⟩)
      (mkSt .FSM_STOP (x0 :: r0) 0 0 0 0 0 0) := by
    rw [hbuf, h0]
    refine hA.trans (Steps.step (by simp [mkSt]) (sA_exit x0 r0 0 0 0 0 0 0 hx0s) ?_)
    exact Steps.one (by simp [mkSt]) (sB_stop x0 r0 0 0 0 0 0 0 hx0a hx0b hx0d hx0p)
  rw [parser_of_steps _ _ _ hrun rfl]
  rfl

/-- The loop started at the beginning of an execution returns what it returns when
started at the end of the execution. -/
theorem loop_after_steps {a b : ParserState} (h : Steps a b) :
    ∀ (fuel : Nat) (r : ParserState),
      whileLoop (fun st => decide (st.state ≠ Fsm.FSM_STOP)) parserStep fuel a = some r →
      ∃ fuel', whileLoop (fun st => decide (st.state ≠ Fsm.FSM_STOP)) parserStep fuel' b =
        some r := by
  induction h with
  | refl a => intro fuel r hr; exact ⟨fuel, hr⟩
  | @step a a' b hne h _ ih =>
    intro fuel r hr
    have hc : (fun st : ParserState => decide (st.state ≠ Fsm.FSM_STOP)) a = true := by
      simp [hne]
    cases fuel with
    | zero => simp [whileLoop, hne] at hr
    | succ n =>
      rw [whileLoop_step (fun st : ParserState => decide (st.state ≠ Fsm.FSM_STOP))
        parserStep n a a' hc h] at hr
      exact ih n r hr

/-- Two buffers whose executions meet in a common state give the same parser result. -/
theorem parser_eq_of_steps (l1 l2 : List Nat) (pn : PrepNumber) (S : ParserState)
    (h1 : Steps (parserInit (l1 ++ [0]) pn) S) (h2 : Steps (parserInit (l2 ++ [0]) pn) S) :
    parser (l1 ++ [0]) pn = parser (l2 ++ [0]) pn := by
  obtain ⟨r1, hr1, -, -, -⟩ := parserLoop_total (fun _ => True) (fun _ _ _ _ _ => trivial)
    (parserInit (l1 ++ [0]) pn) (bufOK_init l1 pn) trivial _ (parserMeasure_init _ _)
  obtain ⟨r2, hr2, -, -, -⟩ := parserLoop_total (fun _ => True) (fun _ _ _ _ _ => trivial)
    (parserInit (l2 ++ [0]) pn) (bufOK_init l2 pn) trivial _ (parserMeasure_init _ _)
  obtain ⟨f1, g1⟩ := loop_after_steps h1 _ r1 hr1
  obtain ⟨f2, g2⟩ := loop_after_steps h2 _ r2 hr2
  have k1 := whileLoop_mono _ _ f1 f2 S r1 g1
  have k2 := whileLoop_mono _ _ f2 f1 S r2 g2
  rw [Nat.add_comm] at k2
  rw [k1] at k2
  have e : r1 = r2 := by cases k2; rfl
  simp only [parser, hr1, hr2, e]

/-- A numeral with a point whose digits from the first non-zero digit on number at least
18 leaves `FSM_F` with digx = 18, whatever follows the fraction. -/
theorem steps_body18 (I F : List Nat) (neg : Nat)
    (hI : ∀ d ∈ I, ISDIGIT d = true) (hF : ∀ d ∈ F, ISDIGIT d = true)
    (h18 : 18 ≤ ((I ++ F).dropWhile (fun d => decide (d = 48))).length) :
    ∃ (e : Int) (m : Nat), ∀ (x : Nat) (r : List Nat),
      Steps (mkSt .FSM_C (I ++ 46 :: (F ++ x :: r)) 0 0 0 neg 0 0)
        (mkSt .FSM_F (x :: r) 18 0 0 neg e m) := by
  obtain ⟨zI, I1, hsplit, hzI, hdrop, hhd⟩ := zeros_split I
  have hI1 : ∀ d ∈ I1, ISDIGIT d = true := fun d hd =>
    hI d (by rw [hsplit]; exact List.mem_append_right _ hd)
  rcases hhd with hnil | ⟨y, t, hyt, hy⟩
  · subst hnil
    simp only [List.append_nil] at hsplit
    subst hsplit
    obtain ⟨zF, F1, hFs, hzF, hFdrop, hFhd⟩ := zeros_split F
    have hF1 : ∀ d ∈ F1, ISDIGIT d = true := fun d hd =>
      hF d (by rw [hFs]; exact List.mem_append_right _ hd)
    have h18' : 18 ≤ F1.length := by
      rw [dropWhile_zeros_append I F hzI, ← hFdrop] at h18
      exact h18
    have hdx : (F1.foldl absorbF (0, zF.foldl skipD 0, 0)).1 = 18 := by
      rw [foldl_absorbF_digx F1 _ (by norm_num)]
      simp only []
      omega
    refine ⟨(F1.foldl absorbF (0, zF.foldl skipD 0, 0)).2.1,
      (F1.foldl absorbF (0, zF.foldl skipD 0, 0)).2.2, ?_⟩
    intro x r
    have hhead : ∀ y t, F1 ++ x :: r = y :: t → y ≠ 48 := by
      intro y t h
      rcases hFhd with hn | ⟨y', t', hy't', hy'⟩
      · subst hn; simp at h18'
      · subst hy't'
        simp only [List.cons_append, List.cons.injEq] at h
        rw [← h.1]; exact hy'
    have key := steps_zero_point I zF F1 x r neg hzI hzF hF1 hhead
    rw [hdx] at key
    have e5 : I ++ 46 :: (F ++ x :: r) = I ++ 46 :: (zF ++ (F1 ++ x :: r)) := by
      rw [hFs]; simp
    rw [e5]
    exact key
  · subst hyt
    have hdropIF : (I ++ F).dropWhile (fun d => decide (d = 48)) = y :: t ++ F := by
      rw [hsplit, List.append_assoc, dropWhile_zeros_append zI _ hzI]
      exact dropWhile_nonzero y (t ++ F) hy
    rw [hdropIF, List.length_append] at h18
    have hdx : (F.foldl absorbF ((y :: t).foldl absorbE (0, 0, 0))).1 = 18 := by
      have h1 := foldl_absorbE_digx (y :: t) (0, 0, 0) (by norm_num)
      have h2 := foldl_absorbF_digx F ((y :: t).foldl absorbE (0, 0, 0)) (by rw [h1]; omega)
      rw [h2, h1]
      simp only []
      omega
    refine ⟨(F.foldl absorbF ((y :: t).foldl absorbE (0, 0, 0))).2.1,
      (F.foldl absorbF ((y :: t).foldl absorbE (0, 0, 0))).2.2, ?_⟩
    intro x r
    have key := steps_int_point zI t F y x r neg hzI hy hI1 hF
    rw [hdx] at key
    have e5 : I ++ 46 :: (F ++ x :: r) = zI ++ (y :: t ++ 46 :: (F ++ x :: r)) := by
      rw [hsplit]; simp
    rw [e5]
    exact key

/-- Digits inserted behind a fraction that has filled the mantissa do not change the
result of the parser. -/
theorem parser_extra_digits (ws sg I F ds q : List Nat)
    (hws : ∀ x ∈ ws, ISSPACE x = true) (hsg : sg = [] ∨ sg = [43] ∨ sg = [45])
    (hI : ∀ d ∈ I, ISDIGIT d = true) (hF : ∀ d ∈ F, ISDIGIT d = true)
    (hds : ∀ d ∈ ds, ISDIGIT d = true)
    (h18 : 18 ≤ ((I ++ F).dropWhile (fun d => decide (d = 48))).length) :
    parser (ws ++ sg ++ I ++ [DPOINT] ++ F ++ ds ++ q ++ [0]) ⟨0, 0, 0⟩ =
      parser (ws ++ sg ++ I ++ [DPOINT] ++ F ++ q ++ [0]) ⟨0, 0, 0⟩ := by
  obtain ⟨x0, r0, hq⟩ := append_cons_ne_nil q 0 []
  obtain ⟨e, m, hbody⟩ := steps_body18 I F (if sg = [45] then 1 else 0) hI hF h18
  -- the stream behind the sign, for an arbitrary rest
  have hsign : ∀ (x : Nat) (r : List Nat),
      Steps (parserInit (ws ++ (sg ++ (I ++ 46 :: (F ++ x :: r)))) ⟨0, 0, 0⟩)
        (mkSt .FSM_F (x :: r) 18 0 0 (if sg = [45] then 1 else 0) e m) := by
    intro x r
    obtain ⟨y, t, hB, hyb, hys⟩ :
        ∃ y t, I ++ 46 :: (F ++ x :: r) = y :: t ∧
          (sg = [] → ISDIGIT y = true ∨ y = DPOINT) ∧ ISSPACE y = false := by
      cases I with
      | cons d I1 =>
        have hd := hI d (List.mem_cons_self _ _)
        exact ⟨d, I1 ++ 46 :: (F ++ x :: r), rfl, fun _ => Or.inl hd, digit_not_space hd⟩
      | nil => exact ⟨46, F ++ x :: r, rfl, fun _ => Or.inr rfl, by decide⟩
    have s1 := steps_sign ws sg y t hws hsg hyb hys
    have s2 := hbody x r
    rw [hB] at s2 ⊢
    exact s1.trans s2
  obtain ⟨y1, t1, h1⟩ := append_cons_ne_nil ds x0 r0
  have run1 := hsign y1 t1
  have run2 := hsign x0 r0
  have s3 := stepsF ds x0 r0 18 0 0 (if sg = [45] then 1 else 0) e m hds
  rw [foldl_absorbF_full ds (18, e, m) (by norm_num), h1] at s3
  have hb1 : ws ++ sg ++ I ++ [DPOINT] ++ F ++ ds ++ q ++ [0] =
      ws ++ (sg ++ (I ++ 46 :: (F ++ y1 :: t1))) := by
    rw [← h1, ← hq]; simp [DPOINT]
  have hb2 : ws ++ sg ++ I ++ [DPOINT] ++ F ++ q ++ [0] =
      ws ++ (sg ++ (I ++ 46 :: (F ++ x0 :: r0))) := by
    rw [← hq]; simp [DPOINT]
  refine parser_eq_of_steps _ _ _ (mkSt .FSM_F (x0 :: r0) 18 0 0 (if sg = [45] then 1 else 0) e m)
    ?_ ?_
  · rw [hb1]; exact run1.trans s3
  · rw [hb2]; exact run2

/-! ## The multiply loop, pass by pass -/

/-- A loop whose body returns only results of another body returns the result of the
loop with that body. -/
theorem whileLoop_of_refines {σ : Type} (cond : σ → Bool) (body body' : σ → Option σ)
    (href : ∀ t u, body' t = some u → body t = some u) :
    ∀ (fuel : Nat) (st r : σ),
      whileLoop cond body' fuel st = some r → whileLoop cond body fuel st = some r := by
  intro fuel
  induction fuel with
  | zero =>
    intro st r h
    cases hc : cond st with
    | false =>
      rw [whileLoop_stop _ _ 0 st hc] at h
      rw [whileLoop_stop _ _ 0 st hc]; exact h
    | true => simp [whileLoop, hc] at h
  | succ n ih =>
    intro st r h
    cases hc : cond st with
    | false =>
      rw [whileLoop_stop _ _ _ st hc] at h
      rw [whileLoop_stop _ _ _ st hc]; exact h
    | true =>
      simp only [whileLoop, hc, if_true] at h ⊢
      cases hb : body' st with
      | none => simp [hb] at h
      | some t' =>
        rw [hb] at h
        rw [href st t' hb]
        simp only [Option.some_bind] at h ⊢
        exact ih t' r h

/-- One pass of the body of the multiply loop on an accumulator below 2^92: the three
shifts and the addition leave exactly 10 s, and the body returns it renormalised. -/
theorem mulStep_leaves (t : ConvState) (hwf : t.s.wf) (hlt : t.s.val < 2 ^ 92) :
    (lsl96 t.s).val = 2 * t.s.val ∧ (lsl96 (lsl96 t.s)).val = 4 * t.s.val ∧
    (lsl96 (lsl96 (lsl96 t.s))).val = 8 * t.s.val ∧
    (add96 (lsl96 (lsl96 (lsl96 t.s))) (lsl96 t.s)).val = 10 * t.s.val ∧
    (add96 (lsl96 (lsl96 (lsl96 t.s))) (lsl96 t.s)).wf ∧
    ∃ (k : Nat) (r : ConvState), mulStep t = some r ∧ mulLeaves t r = true ∧
      r.s.val = 10 * t.s.val / 2 ^ k ∧ r.binexp = t.binexp + k ∧ k ≤ 4 ∧ r.s.wf ∧
      r.s.val < 2 ^ 92 ∧ r.exponent = t.exponent - 1 := by
  have h1 : (lsl96 t.s).val = 2 * t.s.val := by rw [lsl96_val _ hwf]; omega
  have h2 : (lsl96 (lsl96 t.s)).val = 4 * t.s.val := by
    rw [lsl96_val _ (lsl96_wf _), h1]; omega
  have h3 : (lsl96 (lsl96 (lsl96 t.s))).val = 8 * t.s.val := by
    rw [lsl96_val _ (lsl96_wf _), h2]; omega
  have h4 : (add96 (lsl96 (lsl96 (lsl96 t.s))) (lsl96 t.s)).val = 10 * t.s.val := by
    rw [add96_val _ _ (lsl96_wf _) (lsl96_wf _), h3, h1]; omega
  obtain ⟨k, r, hr, hrwf, hrv, hrb, hre, hrB, hrt, hk⟩ := mulStep_spec t hwf hlt
  have hk4 : k ≤ 4 := by
    rcases hrt with rfl | h91
    · omega
    · by_contra hc
      have h5 : 2 ^ 5 ≤ 2 ^ k := Nat.pow_le_pow_right (by norm_num) (by omega)
      have hle : 10 * t.s.val / 2 ^ k ≤ 10 * t.s.val / 2 ^ 5 :=
        Nat.div_le_div_left h5 (by norm_num)
      rw [hrv] at h91
      omega
  refine ⟨h1, h2, h3, h4, add96_wf _ _, k, r, hr, ?_, hrv, hrb, hk4, hrwf, hrB, hre⟩
  obtain ⟨w2, w1, w0⟩ := hrwf
  have hkk : (r.binexp - t.binexp).toNat = k := by rw [hrb]; simp
  simp only [mulLeaves, decide_eq_true_eq, hkk]
  exact ⟨hrv, by omega, hre, w2, w1, w0, hrB⟩

/-- The multiply loop with the checks `mulExact` before and `mulLeaves` after every pass
of its body terminates; the accumulator stays below 2^92. -/
theorem mulLoop_checked (st : ConvState) (hwf : st.s.wf) (hlt : st.s.val < 2 ^ 92)
    (he : 0 ≤ st.exponent) (fuel : Nat) (hfuel : st.exponent.toNat ≤ fuel) :
    ∃ r, whileLoop (fun t => decide (t.exponent > 0))
        (fun t => if mulExact t then
          (mulStep t).bind fun u => if mulLeaves t u then some u else none else none)
        fuel st = some r ∧
      r.s.wf ∧ r.s.val < 2 ^ 92 ∧ r.exponent = 0 := by
  have key := whileLoop_total (fun t : ConvState => decide (t.exponent > 0))
      (fun t => if mulExact t then
        (mulStep t).bind fun u => if mulLeaves t u then some u else none else none)
      (fun t => t.s.wf ∧ t.s.val < 2 ^ 92 ∧ 0 ≤ t.exponent)
      (fun t => t.exponent.toNat)
      (by
        rintro t ⟨g1, g3, g4⟩ hc
        simp only [decide_eq_true_eq] at hc
        obtain ⟨-, -, -, -, -, k, r, hr, hl, -, -, -, hrwf, hrB, hre⟩ := mulStep_leaves t g1 g3
        refine ⟨r, ?_, ⟨hrwf, hrB, by omega⟩, ?_⟩
        · show (if mulExact t then
            (mulStep t).bind fun u => if mulLeaves t u then some u else none else none) = some r
          rw [mulExact_of t g1 g3, if_pos rfl, hr, Option.some_bind, hl, if_pos rfl]
        · show r.exponent.toNat < t.exponent.toNat
          omega)
      fuel st ⟨hwf, hlt, he⟩ hfuel
  obtain ⟨r, hr, ⟨g1, g3, g4⟩, hc⟩ := key
  simp only [decide_eq_false_iff_not] at hc
  exact ⟨r, hr, g1, g3, by omega⟩

theorem mulChecked_refines (t u : ConvState)
    (h : (if mulExact t then
      (mulStep t).bind fun u => if mulLeaves t u then some u else none else none) = some u) :
    mulStep t = some u := by
  cases he : mulExact t with
  | false => simp [he] at h
  | true =>
    simp only [he, if_true] at h
    cases hs : mulStep t with
    | none => simp [hs] at h
    | some v =>
      simp only [hs, Option.some_bind] at h
      cases hl : mulLeaves t v with
      | false => simp [hl] at h
      | true =>
        simp only [hl, if_true, Option.some.injEq] at h
        rw [h]

/-! ## Auxiliary facts for the claims -/

theorem signBits_cases (n : Nat) : (n ≠ 0 ∧ signBits n = 2 ^ 63) ∨ (n = 0 ∧ signBits n = 0) := by
  by_cases h : n ≠ 0
  · left; exact ⟨h, by simp only [signBits, if_pos h]⟩
  · right; have h0 : n = 0 := by simpa using h
    exact ⟨h0, by simp [signBits, h0]⟩

/-! ## The claims -/

/-- C1: for every record the parser can hand to the converter (sign flag n in {0, 1},
mantissa 0 < m < 10^18, decimal exponent -328 <= e <= 309) whose exact value m * 10^e
equals k * 2^j with 2^52 <= k < 2^53 and 1 <= j + 1075 <= 2046, the converter returns
the pattern n * 2^63 + (j + 1075) * 2^52 + (k - 2^52); and "0.5", "2.25", "100" give
0x3FE0000000000000, 0x4002000000000000, 0x4059000000000000. -/
theorem c1_exact_values_convert_exactly (n m : Nat) (e : Int) (k : Nat) (j : Int)
    (hn : n ≤ 1) (hm0 : 0 < m) (hm : m < 10 ^ 18) (he1 : -328 ≤ e) (he2 : e ≤ 309)
    (hk1 : 2 ^ 52 ≤ k) (hk2 : k < 2 ^ 53) (hj1 : 1 ≤ j + 1075) (hj2 : j + 1075 ≤ 2046)
    (hval : (m : ℚ) * (10 : ℚ) ^ e = (k : ℚ) * (2 : ℚ) ^ j) :
    converter ⟨n, e, m⟩ = some (n * 2 ^ 63 + (j + 1075).toNat * 2 ^ 52 + (k - 2 ^ 52)) ∧
    str2dbl (cstr "0.5") = some 0x3FE0000000000000 ∧
    str2dbl (cstr "2.25") = some 0x4002000000000000 ∧
    str2dbl (cstr "100") = some 0x4059000000000000 := by
  refine ⟨?_, by decide!, by decide!, by decide!⟩
  have hnat := exact_value_nat m k e j hval
  have hj : ((j.toNat : Nat) : Int) - ((-j).toNat : Nat) = j := by omega
  have := converter_exact_nat n m e k (-j).toNat j.toNat hn hm0 hm hk1 hk2 hnat
    (by rw [hj]; exact hj1) (by rw [hj]; exact hj2)
  rw [hj] at this
  exact this

/-- Witness for C1: the record of "0.5", 5 * 10^-1 = 2^52 * 2^-53. -/
theorem c1_exact_values_convert_exactly_witness :
    converter ⟨0, -1, 5⟩ =
      some (0 * 2 ^ 63 + ((-53 : Int) + 1075).toNat * 2 ^ 52 + (2 ^ 52 - 2 ^ 52)) ∧
    str2dbl (cstr "0.5") = some 0x3FE0000000000000 ∧
    str2dbl (cstr "2.25") = some 0x4002000000000000 ∧
    str2dbl (cstr "100") = some 0x4059000000000000 :=
  c1_exact_values_convert_exactly 0 5 (-1) (2 ^ 52) (-53) (by norm_num) (by norm_num)
    (by norm_num) (by norm_num) (by norm_num) (by norm_num) (by norm_num) (by norm_num)
    (by norm_num) (by norm_num)

/-- C2 (failing input): on "18014398509481983" (= 2^54 - 1) `str2dbl` returns
0x434FFFFFFF000000, that is 2^54 - 2^25. The exact value lies halfway between the
adjacent doubles 0x434FFFFFFFFFFFFF (= 2^54 - 2) and 0x4350000000000000 (= 2^54), so the
round-half-to-even pattern is 0x4350000000000000 (even fraction); the returned pattern
is 2^24 below it, and 2^24 - 1 below the other neighbour, not at most 1. -/
theorem c2_rounding_carry_lost :
    str2dbl (cstr "18014398509481983") = some 0x434FFFFFFF000000 ∧
    magnitude 0x434FFFFFFF000000 = 2 ^ 54 - 2 ^ 25 ∧
    magnitude 0x434FFFFFFFFFFFFF = 2 ^ 54 - 2 ∧
    magnitude 0x4350000000000000 = 2 ^ 54 ∧
    0x434FFFFFFFFFFFFF + 1 = 0x4350000000000000 ∧
    0x4350000000000000 - 0x434FFFFFFF000000 = 2 ^ 24 ∧
    0x434FFFFFFFFFFFFF - 0x434FFFFFFF000000 = 2 ^ 24 - 1 := by
  refine ⟨by decide!, ?_, ?_, ?_, by norm_num, by norm_num, by norm_num⟩ <;>
    norm_num [magnitude, fracField, expField]

/-- C3 (failing input): on "9007199254740993" (= 2^53 + 1) `str2dbl` returns
0x4340000000000001, whose magnitude 2^53 + 2 is greater than the exact value. -/
theorem c3_rounds_up :
    str2dbl (cstr "9007199254740993") = some 0x4340000000000001 ∧
    magnitude 0x4340000000000001 = 9007199254740994 ∧
    (9007199254740993 : ℚ) < magnitude 0x4340000000000001 := by
  refine ⟨by decide!, ?_, ?_⟩ <;> norm_num [magnitude, fracField, expField]

/-- C4: for every NUL-terminated input `str2dbl` returns a 64-bit pattern whose bit 63
is 1 exactly when the first character after the leading whitespace (0x09..0x13, 0x20)
is '-' (45); in particular "-0" gives 0x8000000000000000 and "0" gives 0. -/
theorem c4_sign_matches_input :
    (∀ l : List Nat, ∃ p, str2dbl (l ++ [0]) = some p ∧ p < 2 ^ 64 ∧
      (signField p = 1 ↔ firstNonSpace (l ++ [0]) = 45)) ∧
    str2dbl (cstr "-0") = some 0x8000000000000000 ∧
    str2dbl (cstr "0") = some 0x0000000000000000 := by
  refine ⟨?_, by decide!, by decide!⟩
  intro l
  obtain ⟨r, p, hp, -, hshape, -, -, hneg, -⟩ := str2dbl_shape l
  refine ⟨p, hp, ?_⟩
  rw [← hneg]
  simp only [signField]
  rcases signBits_cases r.pn.negative with ⟨hn, hs⟩ | ⟨hn, hs⟩ <;>
    rcases hshape with h | h | ⟨B, f, hB1, hB2, hf, h⟩ <;>
    rw [hs] at h <;> subst h <;> omega

/-- C6: trailing garbage is ignored. If `x` is not a digit, '.', '+', '-', 'e', 'E' or
whitespace, then for every `p` and `g` the parser returns (it does return) the same
status and record for `p ++ x :: g` as for `p`, so `str2dbl` returns the same pattern;
in particular "123abc" and "123" both give 0x405EC00000000000. -/
theorem c6_trailing_garbage_ignored (p g : List Nat) (x : Nat) (hx : inert x) :
    (parser (p ++ [0]) ⟨0, 0, 0⟩).isSome = true ∧
    parser (p ++ x :: g ++ [0]) ⟨0, 0, 0⟩ = parser (p ++ [0]) ⟨0, 0, 0⟩ ∧
    str2dbl (p ++ x :: g ++ [0]) = str2dbl (p ++ [0]) ∧
    str2dbl (cstr "123abc") = some 0x405EC00000000000 ∧
    str2dbl (cstr "123") = some 0x405EC00000000000 := by
  have h := parser_ignores_tail ⟨0, 0, 0⟩ p g x hx
  refine ⟨?_, h, ?_, by decide!, by decide!⟩
  · obtain ⟨r, hr, -⟩ := parser_run p
    rw [hr]; rfl
  · simp only [str2dbl, h]

/-- Witness for C6: p = "123", x = 'a', g = "bc". -/
theorem c6_trailing_garbage_ignored_witness :
    (parser ([49, 50, 51] ++ [0]) ⟨0, 0, 0⟩).isSome = true ∧
    parser ([49, 50, 51] ++ 97 :: [98, 99] ++ [0]) ⟨0, 0, 0⟩ =
      parser ([49, 50, 51] ++ [0]) ⟨0, 0, 0⟩ ∧
    str2dbl ([49, 50, 51] ++ 97 :: [98, 99] ++ [0]) = str2dbl ([49, 50, 51] ++ [0]) ∧
    str2dbl (cstr "123abc") = some 0x405EC00000000000 ∧
    str2dbl (cstr "123") = some 0x405EC00000000000 :=
  c6_trailing_garbage_ignored [49, 50, 51] [98, 99] 97
    ⟨by decide, by decide, by decide, by decide, by decide, by decide⟩

/-- C7 (failing input): the body "1" followed by '+' or '-' (not an exponent
marker) is not read as the body alone: "1+5" gives the pattern of "1e5" (100000.0)
and "1-5" a pattern different from that of "1" (1.0). -/
theorem c7_sign_without_marker :
    str2dbl (cstr "1") = some 0x3FF0000000000000 ∧
    str2dbl (cstr "1+5") = some 0x40F86A0000000000 ∧
    str2dbl (cstr "1e5") = some 0x40F86A0000000000 ∧
    str2dbl (cstr "1-5") = some 0x3EE4F8B588E368F1 ∧
    (parser (cstr "1+5") ⟨0, 0, 0⟩).map (fun r => r.2.exponent) = some 5 := by
  refine ⟨by decide!, by decide!, by decide!, by decide!, by decide!⟩

/-- C8 (failing input): a 27-digit integer followed by "e2147483639" has decimal
exponent 9 + 2147483639 > 309 but `str2dbl` returns positive zero, and
"0.0000000001e-2147483639" has decimal exponent -10 - 2147483639 < -328 but
`str2dbl` returns positive infinity: the final addition of the explicit exponent
wraps around in 32 bits. -/
theorem c8_exponent_sum_wraps :
    str2dbl (cstr "111111111111111111111111111e2147483639") = some DOUBLE_PLUS_ZERO ∧
    (parser (cstr "111111111111111111111111111e2147483639") ⟨0, 0, 0⟩).map
      (fun r => r.2.exponent) = some (-2147483648) ∧
    str2dbl (cstr "0.0000000001e-2147483639") = some DOUBLE_PLUS_INFINITY ∧
    (parser (cstr "0.0000000001e-2147483639") ⟨0, 0, 0⟩).map
      (fun r => r.2.exponent) = some 2147483647 := by
  refine ⟨by decide!, by decide!, by decide!, by decide!⟩

/-- C9: for every NUL-terminated input `str2dbl` returns one of the two zeros, one of
the two infinities, or a pattern whose exponent field is in 1..2046; so never a NaN
(exponent field 2047, fraction non-zero) and never a subnormal (exponent field 0,
fraction non-zero). -/
theorem c9_no_nan_no_subnormal (l : List Nat) :
    ∃ p, str2dbl (l ++ [0]) = some p ∧
      (p = 0x0000000000000000 ∨ p = 0x8000000000000000 ∨ p = 0x7FF0000000000000 ∨
        p = 0xFFF0000000000000 ∨ (1 ≤ expField p ∧ expField p ≤ 2046)) ∧
      ¬(expField p = 2047 ∧ fracField p ≠ 0) ∧ ¬(expField p = 0 ∧ fracField p ≠ 0) := by
  obtain ⟨r, p, hp, -, hshape, -, -, -, -⟩ := str2dbl_shape l
  refine ⟨p, hp, ?_⟩
  simp only [expField, fracField]
  rcases signBits_cases r.pn.negative with ⟨hn, hs⟩ | ⟨hn, hs⟩ <;>
    rcases hshape with h | h | ⟨B, f, hB1, hB2, hf, h⟩ <;>
    rw [hs] at h <;> subst h <;> omega

/-- C10 (counterexample): a string of 328 digits '1' is classified as positive
infinity (status 3), not as normal; the record has exponent 310 = 328 - 18. -/
theorem c10_long_numeral_not_normal :
    parser (List.replicate 328 49 ++ [0]) ⟨0, 0, 0⟩ =
      some (PARSER_PINF, ⟨0, 310, 111111111111111111⟩) ∧ PARSER_PINF ≠ PARSER_OK := by
  refine ⟨by decide!, by decide⟩

/-- C10 (amended): for every digit string `ds` of length n with 18 < n < 2^31 whose first
digit is not '0', the parser fills the record with negative = 0, mantissa = the decimal
value of the first 18 digits and exponent = n - 18, and returns status normal when
n - 18 <= 309 and positive infinity otherwise; the same status and record are returned
for the first 18 digits followed by 'e' and the decimal representation of n - 18, so
`str2dbl` returns the same pattern for both. -/
theorem c10_long_integers_truncated (ds : List Nat) (hd : ∀ d ∈ ds, ISDIGIT d = true)
    (h1 : ds.head? ≠ some 48) (hn : 18 < ds.length) (hn2 : ds.length < 2 ^ 31) :
    parser (ds ++ [0]) ⟨0, 0, 0⟩ =
      some (if ds.length - 18 ≤ 309 then PARSER_OK else PARSER_PINF,
        ⟨0, ((ds.length - 18 : Nat) : Int), decValue (ds.take 18)⟩) ∧
    parser (ds.take 18 ++ 101 :: decimal (ds.length - 18) ++ [0]) ⟨0, 0, 0⟩ =
      parser (ds ++ [0]) ⟨0, 0, 0⟩ ∧
    str2dbl (ds ++ [0]) = str2dbl (ds.take 18 ++ 101 :: decimal (ds.length - 18) ++ [0]) := by
  -- split the digits
  obtain ⟨d1, a', b1, b', hds, ha⟩ : ∃ d1 a' b1 b', ds = (d1 :: a') ++ (b1 :: b') ∧
      (d1 :: a').length = 18 := by
    have hsplit := List.take_append_drop 18 ds
    have hlt : (ds.take 18).length = 18 := by simp; omega
    have hld : (ds.drop 18).length = ds.length - 18 := by simp
    cases hta : ds.take 18 with
    | nil => rw [hta] at hlt; simp at hlt
    | cons d1 a' =>
      cases hdr : ds.drop 18 with
      | nil => rw [hdr] at hld; simp at hld; omega
      | cons b1 b' =>
        rw [hta, hdr] at hsplit
        exact ⟨d1, a', b1, b', hsplit.symm, by rw [← hta]; exact hlt⟩
  have htake : ds.take 18 = d1 :: a' := by
    rw [hds, List.take_append_of_le_length (by omega), List.take_of_length_le (by omega)]
  have hlen : ds.length - 18 = b'.length + 1 := by
    rw [hds, List.length_append, ha]; simp
  have hd1 : ISDIGIT d1 = true := hd d1 (by rw [hds]; simp)
  have h10 : d1 ≠ 48 := by
    intro h; apply h1; rw [hds, h]; rfl
  have hda : ∀ d ∈ d1 :: a', ISDIGIT d = true := by
    intro d hm; apply hd; rw [hds]; exact List.mem_append_left _ hm
  have hdb : ∀ d ∈ b1 :: b', ISDIGIT d = true := by
    intro d hm; apply hd; rw [hds]; exact List.mem_append_right _ hm
  have hM : decValue (d1 :: a') ≠ 0 := by
    have hpos : 0 < horner (0 * 10 + (d1 - 48)) a' := by
      apply horner_pos
      simp only [ISDIGIT, Bool.and_eq_true, decide_eq_true_eq] at hd1
      omega
    rw [decValue, horner_cons]; omega
  have ha' : a'.length + 1 = 18 := by simpa using ha
  have hK2 : b'.length + 1 < 2 ^ 31 := by omega
  -- first string
  have run1 : Steps (parserInit (ds ++ [0]) ⟨0, 0, 0⟩)
      ⟨.FSM_STOP, 0, [], 18, 0, 0, ⟨0, ((b'.length + 1 : Nat) : Int), decValue (d1 :: a')⟩⟩ := by
    have e0 : ds ++ [0] = d1 :: (a' ++ b1 :: (b' ++ 0 :: [])) := by rw [hds]; simp
    rw [e0]
    refine (steps_to_E d1 _ _ hd1 h10).trans ?_
    have s1 := steps_E_absorb b1 (b' ++ 0 :: []) 0 0 0 0 a' d1 0 0 hda (by omega) (by norm_num)
    have s2 := steps_E_skip 0 [] 18 0 0 0 (decValue (d1 :: a')) (by omega) b' b1 0 hdb
      (by push_cast; omega)
    have s3 := steps_at_nul .FSM_E [] 18 0 0
      ⟨0, 0 + ((b'.length + 1 : Nat) : Int), decValue (d1 :: a')⟩
    rw [show 0 + (a'.length + 1) = 18 by omega] at s1
    rw [zero_add] at s3
    rw [zero_add] at s2
    exact s1.trans (s2.trans s3)
  have p1 := parser_of_steps ds ⟨0, 0, 0⟩ _ run1 rfl
  rw [parserFinish_pos _ _ _ _ 0 _ _ hM (b'.length + 1) (by simp) (by omega) hK2] at p1
  -- second string
  obtain ⟨k1, ks, hdec, hk1⟩ := decimal_head (b'.length + 1) (by omega)
  have hdk : ∀ d ∈ k1 :: ks, ISDIGIT d = true := by
    rw [← hdec]; exact decimal_isdigit _
  have run2 : Steps
      (parserInit ((d1 :: a' ++ 101 :: decimal (b'.length + 1)) ++ [0]) ⟨0, 0, 0⟩)
      ⟨.FSM_STOP, 0, [], 18, 0, ((b'.length + 1 : Nat) : Int),
        ⟨0, 0, decValue (d1 :: a')⟩⟩ := by
    have e0 : (d1 :: a' ++ 101 :: decimal (b'.length + 1)) ++ [0] =
        d1 :: (a' ++ 101 :: (k1 :: (ks ++ 0 :: []))) := by rw [hdec]; simp
    rw [e0]
    refine (steps_to_E d1 _ _ hd1 h10).trans ?_
    have s1 := steps_E_absorb 101 (k1 :: (ks ++ 0 :: [])) 0 0 0 0 a' d1 0 0 hda (by omega)
      (by norm_num)
    rw [show 0 + (a'.length + 1) = 18 by omega] at s1
    have s2 := step_E_exp 101 k1 (ks ++ 0 :: []) 18 0 0 ⟨0, 0, decValue (d1 :: a')⟩ (by decide)
    have s3 := Steps.one (by simp)
      (step_G_digit k1 (ks ++ 0 :: []) 18 0 0 ⟨0, 0, decValue (d1 :: a')⟩
        (hdk k1 (List.mem_cons_self _ _)))
    have s4 := Steps.one (by simp)
      (step_H_nonzero k1 (ks ++ 0 :: []) 18 0 0 ⟨0, 0, decValue (d1 :: a')⟩ hk1)
    have s5 := steps_I_absorb 0 [] 18 0 ⟨0, 0, decValue (d1 :: a')⟩ ks k1 0 hdk
    rw [← hdec, foldl_absorbExp_decimal _ (by omega)] at s5
    have s6 := steps_at_nul .FSM_I [] 18 0 ((b'.length + 1 : Nat) : Int)
      ⟨0, 0, decValue (d1 :: a')⟩
    exact s1.trans (s2.trans (s3.trans (s4.trans (s5.trans s6))))
  have p2 := parser_of_steps _ ⟨0, 0, 0⟩ _ run2 rfl
  rw [parserFinish_pos _ _ _ _ _ _ _ hM (b'.length + 1) (by simp) (by omega) hK2] at p2
  have e2 : ds.take 18 ++ 101 :: decimal (ds.length - 18) ++ [0] =
      (d1 :: a' ++ 101 :: decimal (b'.length + 1)) ++ [0] := by
    rw [htake, hlen]
  have p12 : parser (ds.take 18 ++ 101 :: decimal (ds.length - 18) ++ [0]) ⟨0, 0, 0⟩ =
      parser (ds ++ [0]) ⟨0, 0, 0⟩ := by rw [e2, p1, p2]
  refine ⟨?_, p12, ?_⟩
  · rw [p1, htake, hlen]
  · simp only [str2dbl, p12]

/-- Witness for C10 (amended): the 20-digit numeral "12345678901234567890". -/
theorem c10_long_integers_truncated_witness :
    parser ([49, 50, 51, 52, 53, 54, 55, 56, 57, 48, 49, 50, 51, 52, 53, 54, 55, 56, 57, 48]
        ++ [0]) ⟨0, 0, 0⟩ =
      some (if [49, 50, 51, 52, 53, 54, 55, 56, 57, 48, 49, 50, 51, 52, 53, 54, 55, 56, 57,
            48].length - 18 ≤ 309 then PARSER_OK else PARSER_PINF,
        ⟨0, (([49, 50, 51, 52, 53, 54, 55, 56, 57, 48, 49, 50, 51, 52, 53, 54, 55, 56, 57,
            48].length - 18 : Nat) : Int),
          decValue ([49, 50, 51, 52, 53, 54, 55, 56, 57, 48, 49, 50, 51, 52, 53, 54, 55, 56, 57,
            48].take 18)⟩) ∧
    parser ([49, 50, 51, 52, 53, 54, 55, 56, 57, 48, 49, 50, 51, 52, 53, 54, 55, 56, 57,
          48].take 18 ++ 101 :: decimal ([49, 50, 51, 52, 53, 54, 55, 56, 57, 48, 49, 50, 51,
          52, 53, 54, 55, 56, 57, 48].length - 18) ++ [0]) ⟨0, 0, 0⟩ =
      parser ([49, 50, 51, 52, 53, 54, 55, 56, 57, 48, 49, 50, 51, 52, 53, 54, 55, 56, 57, 48]
        ++ [0]) ⟨0, 0, 0⟩ ∧
    str2dbl ([49, 50, 51, 52, 53, 54, 55, 56, 57, 48, 49, 50, 51, 52, 53, 54, 55, 56, 57, 48]
        ++ [0]) =
      str2dbl ([49, 50, 51, 52, 53, 54, 55, 56, 57, 48, 49, 50, 51, 52, 53, 54, 55, 56, 57,
          48].take 18 ++ 101 :: decimal ([49, 50, 51, 52, 53, 54, 55, 56, 57, 48, 49, 50, 51,
          52, 53, 54, 55, 56, 57, 48].length - 18) ++ [0]) :=
  c10_long_integers_truncated
    [49, 50, 51, 52, 53, 54, 55, 56, 57, 48, 49, 50, 51, 52, 53, 54, 55, 56, 57, 48]
    (by decide) (by decide) (by decide) (by decide)

/-- C11: a numeral is leading whitespace `ws`, a sign `sg` (empty, "+" or "-"), integer
digits `I`, a point `pt` with fraction digits `F` (or neither), and an exponent marker
`mk` with a sign `es` and at most 9 exponent digits `X` (or none of them). If it has at
most 18 digits from its first non-zero digit to its last mantissa digit and fewer than
10^9 characters, then `parser` returns a record whose mantissa is the decimal value of
the digits `I ++ F`, whose negative flag is set exactly when the sign is "-", and with
mantissa * 10^exponent = (value of I.F) * 10^x, where x is the signed value of `X`.
Unless the numeral has neither sign nor integer digit nor point, the exponent is
-(number of fraction digits) + x. Example: "0.001001" gives mantissa 1001 and
exponent -6. -/
theorem c11_record_of_numeral (ws sg I pt F mk es X : List Nat)
    (hws : ∀ x ∈ ws, ISSPACE x = true)
    (hsg : sg = [] ∨ sg = [43] ∨ sg = [45])
    (hI : ∀ d ∈ I, ISDIGIT d = true) (hF : ∀ d ∈ F, ISDIGIT d = true)
    (hpt : pt = [DPOINT] ∨ (pt = [] ∧ F = []))
    (hmk : (∃ c, ISEXP c = true ∧ mk = [c]) ∨ (mk = [] ∧ es = [] ∧ X = []))
    (hes : es = [] ∨ es = [43] ∨ es = [45])
    (hX : ∀ d ∈ X, ISDIGIT d = true) (hX9 : X.length ≤ 9)
    (h18 : ((I ++ F).dropWhile (fun d => decide (d = 48))).length ≤ 18)
    (hlen : (ws ++ sg ++ I ++ pt ++ F ++ mk ++ es ++ X).length < 10 ^ 9) :
    (∃ (status : Nat) (r : PrepNumber),
      parser (ws ++ sg ++ I ++ pt ++ F ++ mk ++ es ++ X ++ [0]) ⟨0, 0, 0⟩ = some (status, r) ∧
      r.mantissa = decValue (I ++ F) ∧
      (r.negative ≠ 0 ↔ sg = [45]) ∧
      (r.mantissa : ℚ) * (10 : ℚ) ^ r.exponent =
        (decValue (I ++ F) : ℚ) / (10 : ℚ) ^ F.length *
          (10 : ℚ) ^ (if es = [45] then -(decValue X : Int) else (decValue X : Int)) ∧
      (¬(sg = [] ∧ I = [] ∧ pt = []) →
        r.exponent = -(F.length : Int) +
          (if es = [45] then -(decValue X : Int) else (decValue X : Int)))) ∧
    parser (cstr "0.001001") ⟨0, 0, 0⟩ = some (PARSER_OK, ⟨0, -6, 1001⟩) := by
  refine ⟨?_, by decide!⟩
  have hFlen : F.length < 10 ^ 9 := by
    simp only [List.length_append] at hlen
    omega
  by_cases hbody : sg = [] ∧ I = [] ∧ pt = []
  · obtain ⟨rfl, rfl, rfl⟩ := hbody
    have hFnil : F = [] := by
      rcases hpt with h | ⟨-, h⟩
      · cases h
      · exact h
    subst hFnil
    have hp := parser_no_body ws mk es X hws hmk
    refine ⟨PARSER_PZERO, ⟨0, 0, 0⟩, ?_, rfl, ?_, ?_, ?_⟩
    · simp only [List.append_nil]; exact hp
    · simp
    · simp [decValue, horner]
    · intro h; exact absurd ⟨rfl, rfl, rfl⟩ h
  · obtain ⟨status, hp⟩ := parser_numeral ws sg I pt F mk es X hws hsg hI hF hpt hmk hes hX hX9
      h18 hFlen hbody
    refine ⟨status, _, hp, rfl, ?_, ?_, fun _ => rfl⟩
    · by_cases h45 : sg = [45]
      · simp [h45]
      · simp [h45]
    · show (decValue (I ++ F) : ℚ) * (10 : ℚ) ^ (-(F.length : Int) +
          (if es = [45] then -(decValue X : Int) else (decValue X : Int))) = _
      rw [zpow_add₀ (by norm_num : (10 : ℚ) ≠ 0), zpow_neg, zpow_natCast]
      ring

/-- Witness for C11: the numeral " -01.05e-03". -/
theorem c11_record_of_numeral_witness :
    (∃ (status : Nat) (r : PrepNumber),
      parser ([32] ++ [45] ++ [48, 49] ++ [DPOINT] ++ [48, 53] ++ [101] ++ [45] ++ [48, 51] ++ [0])
        ⟨0, 0, 0⟩ = some (status, r) ∧
      r.mantissa = decValue ([48, 49] ++ [48, 53]) ∧
      (r.negative ≠ 0 ↔ [45] = [45]) ∧
      (r.mantissa : ℚ) * (10 : ℚ) ^ r.exponent =
        (decValue ([48, 49] ++ [48, 53]) : ℚ) / (10 : ℚ) ^ [48, 53].length *
          (10 : ℚ) ^ (if [45] = [45] then -(decValue [48, 51] : Int)
            else (decValue [48, 51] : Int)) ∧
      (¬([45] = [] ∧ [48, 49] = [] ∧ [DPOINT] = []) →
        r.exponent = -(([48, 53] : List Nat).length : Int) +
          (if [45] = [45] then -(decValue [48, 51] : Int) else (decValue [48, 51] : Int)))) ∧
    parser (cstr "0.001001") ⟨0, 0, 0⟩ = some (PARSER_OK, ⟨0, -6, 1001⟩) :=
  c11_record_of_numeral [32] [45] [48, 49] [DPOINT] [48, 53] [101] [45] [48, 51]
    (by decide) (by decide) (by decide) (by decide) (Or.inl rfl)
    (Or.inl ⟨101, by decide, rfl⟩) (by decide) (by decide) (by decide) (by decide) (by decide)

/-- C12: for every NUL-terminated buffer and every initial record the state-machine loop
returns a state with state = FSM_STOP, and `str2dbl` returns a pattern. For every record
with a non-zero 64-bit mantissa (whatever its exponent, so in particular for
-328 <= exponent <= 309) the multiply loop returns, the divide loop returns even when its
body is only allowed to run on a non-zero accumulator (so the inner left-shift loop never
starts on zero), the accumulator that enters the final normalisation is non-zero, the
normalisation returns, and `converter` returns the pattern assembled from its result. -/
theorem c12_every_call_terminates :
    (∀ (l : List Nat) (pn : PrepNumber), ∃ r,
      whileLoop (fun st => decide (st.state ≠ Fsm.FSM_STOP)) parserStep
        ((l ++ [0]).length + 10) (parserInit (l ++ [0]) pn) = some r ∧
      r.state = Fsm.FSM_STOP) ∧
    (∀ l : List Nat, ∃ p, str2dbl (l ++ [0]) = some p) ∧
    (∀ pn : PrepNumber, pn.mantissa ≠ 0 → pn.mantissa < 2 ^ 64 → ∃ a b c : ConvState,
      whileLoop (fun t => decide (t.exponent > 0)) mulStep pn.exponent.toNat
        ⟨⟨0, u32 (pn.mantissa >>> 32), u32 (pn.mantissa &&& 0xFFFFFFFF)⟩, 92, pn.exponent⟩
          = some a ∧
      whileLoop (fun t => decide (t.exponent < 0))
        (fun t => if 0 < t.s.val then divStep t else none) (-pn.exponent).toNat a = some b ∧
      whileLoop (fun t => decide (t.exponent < 0)) divStep (-pn.exponent).toNat a = some b ∧
      0 < b.s.val ∧ normalize b = some c ∧
      converter pn = some (assemble pn.negative (c.binexp + 1023) c.s)) := by
  refine ⟨?_, ?_, ?_⟩
  · intro l pn
    obtain ⟨r, hr, hstop, -, -⟩ := parserLoop_total (fun _ => True)
      (fun _ _ _ _ _ => trivial) (parserInit (l ++ [0]) pn) (bufOK_init l pn) trivial _
      (parserMeasure_init _ _)
    exact ⟨r, hr, hstop⟩
  · intro l
    obtain ⟨r, p, hp, -⟩ := str2dbl_shape l
    exact ⟨p, hp⟩
  · intro pn hm0 hm
    obtain ⟨a, b, c, ha, hb, hbpos, hc, -, -, -⟩ := converter_run pn hm0 hm
    have ha' := whileLoop_of_guarded _ mulStep mulExact _ _ _ ha
    have hb' := whileLoop_of_guarded _ divStep (fun t => decide (0 < t.s.val)) _ _ _
      (by simpa only [decide_eq_true_eq] using hb)
    refine ⟨a, b, c, ha', hb, hb', hbpos, hc, ?_⟩
    rw [converter_eq_acc, converterAcc_of_run pn a b c ha hb hc]
    rfl

/-- Witness for C12: the record with mantissa 7 and exponent -2. -/
theorem c12_every_call_terminates_witness :
    ∃ a b c : ConvState,
      whileLoop (fun t => decide (t.exponent > 0)) mulStep (PrepNumber.mk 0 (-2) 7).exponent.toNat
        ⟨⟨0, u32 ((PrepNumber.mk 0 (-2) 7).mantissa >>> 32),
          u32 ((PrepNumber.mk 0 (-2) 7).mantissa &&& 0xFFFFFFFF)⟩, 92,
          (PrepNumber.mk 0 (-2) 7).exponent⟩ = some a ∧
      whileLoop (fun t => decide (t.exponent < 0))
        (fun t => if 0 < t.s.val then divStep t else none)
        (-(PrepNumber.mk 0 (-2) 7).exponent).toNat a = some b ∧
      whileLoop (fun t => decide (t.exponent < 0)) divStep
        (-(PrepNumber.mk 0 (-2) 7).exponent).toNat a = some b ∧
      0 < b.s.val ∧ normalize b = some c ∧
      converter (PrepNumber.mk 0 (-2) 7) =
        some (assemble (PrepNumber.mk 0 (-2) 7).negative (c.binexp + 1023) c.s) :=
  c12_every_call_terminates.2.2 ⟨0, -2, 7⟩ (by decide) (by norm_num)

/-- C13 (failing input): "18014398509481983" brings the converter to the normalised
accumulator s2 = 0x1FFFFFFF, s1 = 0xFFFFFF80, s0 = 0 with biased exponent 1076. The
pattern assembled there is 0x434FFFFFFF000000, whereas b * 2^52 + floor((f + 128) / 256)
with f = (s2 mod 2^28) * 2^32 + s1 is 0x4350000000000000: the rounding carry out of the
bits taken from s1 is not added to the bits taken from s2. The same happens for
s2 = 0x10000001. -/
theorem c13_rounding_carry_not_added :
    (converterAcc ⟨0, 0, 18014398509481983⟩).map (fun st => (st.s, st.binexp + 1023)) =
      some (⟨0x1FFFFFFF, 0xFFFFFF80, 0⟩, 1076) ∧
    assemble 0 1076 ⟨0x1FFFFFFF, 0xFFFFFF80, 0⟩ = 0x434FFFFFFF000000 ∧
    1076 * 2 ^ 52 + ((0x1FFFFFFF % 2 ^ 28) * 2 ^ 32 + 0xFFFFFF80 + 128) / 256 =
      0x4350000000000000 ∧
    assemble 0 1023 ⟨0x10000001, 0xFFFFFF80, 0⟩ = 1023 * 2 ^ 52 + 2 ^ 24 ∧
    1023 * 2 ^ 52 + ((0x10000001 % 2 ^ 28) * 2 ^ 32 + 0xFFFFFF80 + 128) / 256 =
      1023 * 2 ^ 52 + 2 ^ 25 := by
  refine ⟨by decide!, by decide!, by norm_num, by decide!, by norm_num⟩

/-- C14 (counterexample): for the accumulator 2^95 the local `r0` is 0xCCCCCC, so the
shift `r0 << 16` has the value 0xCCCCCC0000, which exceeds 32 bits; the 32-bit shift
keeps 0xCCCC0000. The quotient stored is nevertheless floor(2^95 / 10). -/
theorem c14_shift_exceeds_32_bits :
    div10R0 ⟨0x80000000, 0, 0⟩ = 0xCCCCCC ∧
    div10R0 ⟨0x80000000, 0, 0⟩ <<< 16 = 0xCCCCCC0000 ∧
    2 ^ 32 ≤ div10R0 ⟨0x80000000, 0, 0⟩ <<< 16 ∧
    div10 ⟨0x80000000, 0, 0⟩ = ⟨0x0CCCCCCC, 0xCCCCCCCC, 0xCCCCCCCC⟩ ∧
    (div10 ⟨0x80000000, 0, 0⟩).val = 2 ^ 95 / 10 := by
  refine ⟨by decide!, by decide!, by decide!, by decide!, by decide!⟩

/-- C14 (amended): for all limbs below 2^32 the limbs stored by the long division are
again below 2^32 and hold floor(s / 10). Every shift and bitwise or of the step has a
value below 2^32 before reduction to 32 bits, except the shift `r0 << 16`: `r0` is below
2^24, the 32-bit shift keeps its low 16 bits, and its high 8 bits are the low byte stored
in `q1`. -/
theorem c14_long_division_exact (s : Limbs) (h : s.wf) :
    (div10 s).val = s.val / 10 ∧ (div10 s).wf ∧
    (∀ v ∈ div10Wide s, v < 2 ^ 32) ∧
    div10R0 s < 2 ^ 24 ∧
    u32 (div10R0 s <<< 16) = div10R0 s % 2 ^ 16 * 2 ^ 16 ∧
    (div10 s).s1 % 2 ^ 8 = div10R0 s / 2 ^ 16 ∧
    (div10 s).s0 / 2 ^ 16 = div10R0 s % 2 ^ 16 := by
  obtain ⟨h2, h1, h0⟩ := id h
  have hr : s.s2 % 10 < 10 := Nat.mod_lt _ (by norm_num)
  have e1 := div10_aux1 s.s1 (s.s2 % 10) h1 hr
  have hr1 : (s.s1 / 256 + s.s2 % 10 * 2 ^ 24) % 10 < 10 := Nat.mod_lt _ (by norm_num)
  have e2 := div10_aux2 s.s1 s.s0 ((s.s1 / 256 + s.s2 % 10 * 2 ^ 24) % 10) h0 hr1
  have hR : div10R0 s = (s.s1 % 256 * 2 ^ 16 + s.s0 / 2 ^ 16 +
      (s.s1 / 256 + s.s2 % 10 * 2 ^ 24) % 10 * 2 ^ 24) / 10 := by
    simp only [div10R0]
    rw [e1, e2]
  have hR24 : div10R0 s < 2 ^ 24 := by rw [hR]; omega
  have hq1 : u32 ((s.s1 >>> 8) ||| u32 ((s.s2 % 10) <<< 24)) / 10 * 2 ^ 8 < 2 ^ 32 := by
    rw [e1]; omega
  have hlow : (s.s1 &&& 0xFF) * 2 ^ 16 < 2 ^ 32 := by
    rw [and_low s.s1 8 0xFF (by norm_num)]; omega
  have hlow0 : s.s0 &&& 0xFFFF < 2 ^ 32 := by
    rw [and_low s.s0 16 0xFFFF (by norm_num)]; omega
  refine ⟨div10_val s h, div10_wf s h, ?_, hR24, u32_shl16 _, ?_, ?_⟩
  · intro v hv
    simp only [div10Wide, List.mem_cons, List.mem_singleton, List.not_mem_nil, or_false] at hv
    rcases hv with e | e | e | e | e | e | e | e | e | e <;> rw [e]
    · exact wide_mod10 _ 24 (by norm_num)
    · exact wide_or _ _ (wide_shr _ _ h1) (u32_lt _)
    · exact wide_shl _ 16 hlow
    · exact wide_mod10 _ 24 (by norm_num)
    · exact wide_or _ _ (wide_or _ _ (u32_lt _) (wide_shr _ _ h0)) (u32_lt _)
    · exact wide_shl _ 8 hq1
    · refine wide_or _ _ (u32_lt _) (wide_shr _ _ ?_)
      exact lt_of_le_of_lt Nat.and_le_right (by norm_num)
    · exact wide_mod10 _ 16 (by norm_num)
    · exact wide_or _ _ hlow0 (u32_lt _)
    · refine wide_or _ _ (u32_lt _) ?_
      exact lt_of_le_of_lt (Nat.div_le_self _ _) (u32_lt _)
  · have k1 : (div10 s).s1 = (s.s1 / 256 + s.s2 % 10 * 2 ^ 24) / 10 * 256 +
        (s.s1 % 256 * 2 ^ 16 + s.s0 / 2 ^ 16 +
          (s.s1 / 256 + s.s2 % 10 * 2 ^ 24) % 10 * 2 ^ 24) / 10 / 2 ^ 16 :=
      congrArg Limbs.s1 (div10_eq s h)
    rw [k1, ← hR]
    exact div10_low_byte _ _ hR24
  · have k0 : (div10 s).s0 = (s.s1 % 256 * 2 ^ 16 + s.s0 / 2 ^ 16 +
          (s.s1 / 256 + s.s2 % 10 * 2 ^ 24) % 10 * 2 ^ 24) / 10 % 2 ^ 16 * 2 ^ 16 +
        (s.s0 % 2 ^ 16 + (s.s1 % 256 * 2 ^ 16 + s.s0 / 2 ^ 16 +
          (s.s1 / 256 + s.s2 % 10 * 2 ^ 24) % 10 * 2 ^ 24) % 10 * 2 ^ 16) / 10 :=
      congrArg Limbs.s0 (div10_eq s h)
    rw [k0, ← hR]
    exact div10_high_half _ _ (div10_last _ _)

/-- Witness for C14: the accumulator 2^95 (limbs 0x80000000, 0, 0). -/
theorem c14_long_division_exact_witness :
    (div10 ⟨0x80000000, 0, 0⟩).val = (Limbs.mk 0x80000000 0 0).val / 10 ∧
    (div10 ⟨0x80000000, 0, 0⟩).wf ∧
    (∀ v ∈ div10Wide ⟨0x80000000, 0, 0⟩, v < 2 ^ 32) ∧
    div10R0 ⟨0x80000000, 0, 0⟩ < 2 ^ 24 ∧
    u32 (div10R0 ⟨0x80000000, 0, 0⟩ <<< 16) = div10R0 ⟨0x80000000, 0, 0⟩ % 2 ^ 16 * 2 ^ 16 ∧
    (div10 ⟨0x80000000, 0, 0⟩).s1 % 2 ^ 8 = div10R0 ⟨0x80000000, 0, 0⟩ / 2 ^ 16 ∧
    (div10 ⟨0x80000000, 0, 0⟩).s0 / 2 ^ 16 = div10R0 ⟨0x80000000, 0, 0⟩ % 2 ^ 16 :=
  c14_long_division_exact ⟨0x80000000, 0, 0⟩ ⟨by norm_num, by norm_num, by norm_num⟩

/-- C15: for every mantissa below 2^64 and every positive decimal exponent the multiply
loop returns, and it returns the same state when every pass of its body is checked: before
the pass (`mulExact`) the limbs are below 2^32 and the accumulator s is below 2^92, and
the state the body returns (`mulLeaves`) holds 10 s shifted right by the number of
increments of binexp, again with limbs below 2^32 and value below 2^92. The body is the
right-shift loop run on the accumulator left by the three `lsl96` and the `add96`, and on
every accumulator below 2^92 these leave 2 s, 4 s, 8 s and exactly 10 s in limbs below
2^32 (nothing is shifted or carried out of the 96 bits); the renormalisation then shifts
right at most four times and leaves floor(10 s / 2^k) below 2^92. -/
theorem c15_multiply_never_overflows (m : Nat) (e : Int) (hm : m < 2 ^ 64) (he : 0 < e) :
    (∃ r : ConvState,
      whileLoop (fun t => decide (t.exponent > 0))
        (fun t => if mulExact t then
          (mulStep t).bind fun u => if mulLeaves t u then some u else none else none) e.toNat
        ⟨⟨0, u32 (m >>> 32), u32 (m &&& 0xFFFFFFFF)⟩, 92, e⟩ = some r ∧
      whileLoop (fun t => decide (t.exponent > 0)) mulStep e.toNat
        ⟨⟨0, u32 (m >>> 32), u32 (m &&& 0xFFFFFFFF)⟩, 92, e⟩ = some r ∧
      r.s.wf ∧ r.s.val < 2 ^ 92 ∧ r.exponent = 0) ∧
    (Limbs.mk 0 (u32 (m >>> 32)) (u32 (m &&& 0xFFFFFFFF))).val = m ∧
    (∀ t : ConvState, mulStep t =
      whileLoop (fun u => decide (u.s.s2 &&& mask28 ≠ 0)) shiftRightStep 96
        ⟨add96 (lsl96 (lsl96 (lsl96 t.s))) (lsl96 t.s), t.binexp, t.exponent - 1⟩) ∧
    (∀ t : ConvState, t.s.wf → t.s.val < 2 ^ 92 →
      (lsl96 t.s).val = 2 * t.s.val ∧ (lsl96 (lsl96 t.s)).val = 4 * t.s.val ∧
      (lsl96 (lsl96 (lsl96 t.s))).val = 8 * t.s.val ∧
      (add96 (lsl96 (lsl96 (lsl96 t.s))) (lsl96 t.s)).val = 10 * t.s.val ∧
      (add96 (lsl96 (lsl96 (lsl96 t.s))) (lsl96 t.s)).wf ∧
      ∃ (k : Nat) (r : ConvState), mulStep t = some r ∧ mulLeaves t r = true ∧
        r.s.val = 10 * t.s.val / 2 ^ k ∧ r.binexp = t.binexp + k ∧ k ≤ 4 ∧ r.s.wf ∧
        r.s.val < 2 ^ 92 ∧ r.exponent = t.exponent - 1) := by
  obtain ⟨hwf0, hv0⟩ := init_limbs m hm
  obtain ⟨r, hr, hrwf, hrlt, hre⟩ :=
    mulLoop_checked ⟨⟨0, u32 (m >>> 32), u32 (m &&& 0xFFFFFFFF)⟩, 92, e⟩ hwf0
      (by simp only [hv0]; omega) (le_of_lt he) _ (le_refl _)
  exact ⟨⟨r, hr, whileLoop_of_refines _ mulStep _ mulChecked_refines _ _ _ hr, hrwf, hrlt, hre⟩,
    hv0, fun _ => rfl, mulStep_leaves⟩

/-- Witness for C15: the mantissa 2^64 - 1 with the decimal exponent 3. -/
theorem c15_multiply_never_overflows_witness :
    (∃ r : ConvState,
      whileLoop (fun t => decide (t.exponent > 0))
        (fun t => if mulExact t then
          (mulStep t).bind fun u => if mulLeaves t u then some u else none else none)
        (3 : Int).toNat
        ⟨⟨0, u32 (18446744073709551615 >>> 32), u32 (18446744073709551615 &&& 0xFFFFFFFF)⟩,
          92, 3⟩ = some r ∧
      whileLoop (fun t => decide (t.exponent > 0)) mulStep (3 : Int).toNat
        ⟨⟨0, u32 (18446744073709551615 >>> 32), u32 (18446744073709551615 &&& 0xFFFFFFFF)⟩,
          92, 3⟩ = some r ∧
      r.s.wf ∧ r.s.val < 2 ^ 92 ∧ r.exponent = 0) ∧
    (Limbs.mk 0 (u32 (18446744073709551615 >>> 32))
      (u32 (18446744073709551615 &&& 0xFFFFFFFF))).val = 18446744073709551615 ∧
    (∀ t : ConvState, mulStep t =
      whileLoop (fun u => decide (u.s.s2 &&& mask28 ≠ 0)) shiftRightStep 96
        ⟨add96 (lsl96 (lsl96 (lsl96 t.s))) (lsl96 t.s), t.binexp, t.exponent - 1⟩) ∧
    (∀ t : ConvState, t.s.wf → t.s.val < 2 ^ 92 →
      (lsl96 t.s).val = 2 * t.s.val ∧ (lsl96 (lsl96 t.s)).val = 4 * t.s.val ∧
      (lsl96 (lsl96 (lsl96 t.s))).val = 8 * t.s.val ∧
      (add96 (lsl96 (lsl96 (lsl96 t.s))) (lsl96 t.s)).val = 10 * t.s.val ∧
      (add96 (lsl96 (lsl96 (lsl96 t.s))) (lsl96 t.s)).wf ∧
      ∃ (k : Nat) (r : ConvState), mulStep t = some r ∧ mulLeaves t r = true ∧
        r.s.val = 10 * t.s.val / 2 ^ k ∧ r.binexp = t.binexp + k ∧ k ≤ 4 ∧ r.s.wf ∧
        r.s.val < 2 ^ 92 ∧ r.exponent = t.exponent - 1) :=
  c15_multiply_never_overflows 18446744073709551615 3 (by norm_num) (by norm_num)

/-- C16: for every record with a non-zero mantissa below 2^64 (whatever its exponent, so
in particular for -328 <= exponent <= 309) `converter` reaches the biased-exponent checks
with limbs below 2^32 and 2^92 <= s < 2^93: bit 28 of s2 is set, bits 29..31 are clear,
and masking s2 with the complement of mask28 subtracts exactly 2^28. -/
theorem c16_accumulator_normalised (pn : PrepNumber) (hm0 : pn.mantissa ≠ 0)
    (hm : pn.mantissa < 2 ^ 64) :
    ∃ st : ConvState, converterAcc pn = some st ∧
      converter pn = some (assemble pn.negative (st.binexp + 1023) st.s) ∧
      st.s.wf ∧ 2 ^ 92 ≤ st.s.val ∧ st.s.val < 2 ^ 93 ∧
      st.s.s2 / 2 ^ 28 = 1 ∧ st.s.s2 &&& mask28 = 2 ^ 28 ∧
      st.s.s2 &&& (0xFFFFFFFF ^^^ mask28) = st.s.s2 - 2 ^ 28 := by
  obtain ⟨a, b, c, ha, hb, -, hc, hwf, hlo, hhi⟩ := converter_run pn hm0 hm
  have hacc := converterAcc_of_run pn a b c ha hb hc
  have hs2 : c.s.s2 / 2 ^ 28 = 1 := by
    obtain ⟨h2, h1, h0⟩ := hwf
    simp only [Limbs.val] at hlo hhi
    omega
  have hmask : (0xFFFFFFFF ^^^ mask28 : Nat) = 2 ^ 28 - 1 := by decide
  refine ⟨c, hacc, ?_, hwf, hlo, hhi, hs2, ?_, ?_⟩
  · rw [converter_eq_acc, hacc]; rfl
  · rw [mask28_eq, and_mask_shifted, hs2]; norm_num
  · rw [hmask, Nat.and_pow_two_sub_one_eq_mod]
    omega

/-- Witness for C16: the record with mantissa 1 and exponent 0. -/
theorem c16_accumulator_normalised_witness :
    ∃ st : ConvState, converterAcc ⟨0, 0, 1⟩ = some st ∧
      converter ⟨0, 0, 1⟩ =
        some (assemble (PrepNumber.mk 0 0 1).negative (st.binexp + 1023) st.s) ∧
      st.s.wf ∧ 2 ^ 92 ≤ st.s.val ∧ st.s.val < 2 ^ 93 ∧
      st.s.s2 / 2 ^ 28 = 1 ∧ st.s.s2 &&& mask28 = 2 ^ 28 ∧
      st.s.s2 &&& (0xFFFFFFFF ^^^ mask28) = st.s.s2 - 2 ^ 28 :=
  c16_accumulator_normalised ⟨0, 0, 1⟩ (by decide) (by norm_num)

/-- C17 (failing input): for a 27-digit integer followed by "e2147483639" the loop ends
with exponent 9 and expexp 2147483639; the final addition stores -2147483648, which is
outside the range -2147483647..2147483647 and is not the sum 2147483648 clamped to
2147483647. -/
theorem c17_final_addition_overflows :
    (whileLoop (fun st => decide (st.state ≠ Fsm.FSM_STOP)) parserStep
        ((cstr "111111111111111111111111111e2147483639").length + 10)
        (parserInit (cstr "111111111111111111111111111e2147483639") ⟨0, 0, 0⟩)).map
      (fun st => (st.pn.exponent, st.expneg, st.expexp)) = some (9, 0, 2147483639) ∧
    (parser (cstr "111111111111111111111111111e2147483639") ⟨0, 0, 0⟩).map
      (fun r => r.2.exponent) = some (-2147483648) ∧
    (-2147483648 : Int) < -2147483647 ∧ min ((9 : Int) + 2147483639) 2147483647 = 2147483647 := by
  refine ⟨by decide!, by decide!, by norm_num, by norm_num⟩

/-- C18: take a numeral with leading whitespace `ws`, a sign `sg`, integer digits `I`, a
point and fraction digits `F`, in which the digits from the first non-zero digit on
number at least 18 (so 18 digits are absorbed), followed by anything `q`. Inserting
further digits `ds` at the end of the fraction leaves the result of `parser` (status and
record) and hence the pattern returned by `str2dbl` unchanged; both functions return a
result. Example: "1.23456789012345678" and "1.234567890123456789999" both give
0x3FF3C0CA428C59FB. -/
theorem c18_extra_fraction_digits_dropped (ws sg I F ds q : List Nat)
    (hws : ∀ x ∈ ws, ISSPACE x = true) (hsg : sg = [] ∨ sg = [43] ∨ sg = [45])
    (hI : ∀ d ∈ I, ISDIGIT d = true) (hF : ∀ d ∈ F, ISDIGIT d = true)
    (hds : ∀ d ∈ ds, ISDIGIT d = true)
    (h18 : 18 ≤ ((I ++ F).dropWhile (fun d => decide (d = 48))).length) :
    parser (ws ++ sg ++ I ++ [DPOINT] ++ F ++ ds ++ q ++ [0]) ⟨0, 0, 0⟩ =
      parser (ws ++ sg ++ I ++ [DPOINT] ++ F ++ q ++ [0]) ⟨0, 0, 0⟩ ∧
    (parser (ws ++ sg ++ I ++ [DPOINT] ++ F ++ q ++ [0]) ⟨0, 0, 0⟩).isSome = true ∧
    str2dbl (ws ++ sg ++ I ++ [DPOINT] ++ F ++ ds ++ q ++ [0]) =
      str2dbl (ws ++ sg ++ I ++ [DPOINT] ++ F ++ q ++ [0]) ∧
    (str2dbl (ws ++ sg ++ I ++ [DPOINT] ++ F ++ q ++ [0])).isSome = true ∧
    str2dbl (cstr "1.23456789012345678") = some 0x3FF3C0CA428C59FB ∧
    str2dbl (cstr "1.234567890123456789999") = some 0x3FF3C0CA428C59FB := by
  have h := parser_extra_digits ws sg I F ds q hws hsg hI hF hds h18
  refine ⟨h, ?_, ?_, ?_, by decide!, by decide!⟩
  · obtain ⟨r, hr, -⟩ := parser_run (ws ++ sg ++ I ++ [DPOINT] ++ F ++ q)
    rw [hr]; rfl
  · simp only [str2dbl, h]
  · obtain ⟨r, p, hp, -⟩ := str2dbl_shape (ws ++ sg ++ I ++ [DPOINT] ++ F ++ q)
    rw [hp]; rfl

/-- Witness for C18: the numeral "1.23456789012345678" with the digits "9999" inserted. -/
theorem c18_extra_fraction_digits_dropped_witness :
    parser ([] ++ [] ++ [49] ++ [DPOINT] ++
        [50, 51, 52, 53, 54, 55, 56, 57, 48, 49, 50, 51, 52, 53, 54, 55, 56] ++
        [57, 57, 57, 57] ++ [] ++ [0]) ⟨0, 0, 0⟩ =
      parser ([] ++ [] ++ [49] ++ [DPOINT] ++
        [50, 51, 52, 53, 54, 55, 56, 57, 48, 49, 50, 51, 52, 53, 54, 55, 56] ++ [] ++ [0])
        ⟨0, 0, 0⟩ ∧
    (parser ([] ++ [] ++ [49] ++ [DPOINT] ++
        [50, 51, 52, 53, 54, 55, 56, 57, 48, 49, 50, 51, 52, 53, 54, 55, 56] ++ [] ++ [0])
        ⟨0, 0, 0⟩).isSome = true ∧
    str2dbl ([] ++ [] ++ [49] ++ [DPOINT] ++
        [50, 51, 52, 53, 54, 55, 56, 57, 48, 49, 50, 51, 52, 53, 54, 55, 56] ++
        [57, 57, 57, 57] ++ [] ++ [0]) =
      str2dbl ([] ++ [] ++ [49] ++ [DPOINT] ++
        [50, 51, 52, 53, 54, 55, 56, 57, 48, 49, 50, 51, 52, 53, 54, 55, 56] ++ [] ++ [0]) ∧
    (str2dbl ([] ++ [] ++ [49] ++ [DPOINT] ++
        [50, 51, 52, 53, 54, 55, 56, 57, 48, 49, 50, 51, 52, 53, 54, 55, 56] ++ [] ++ [0])).isSome
      = true ∧
    str2dbl (cstr "1.23456789012345678") = some 0x3FF3C0CA428C59FB ∧
    str2dbl (cstr "1.234567890123456789999") = some 0x3FF3C0CA428C59FB :=
  c18_extra_fraction_digits_dropped [] [] [49]
    [50, 51, 52, 53, 54, 55, 56, 57, 48, 49, 50, 51, 52, 53, 54, 55, 56] [57, 57, 57, 57] []
    (by decide) (by decide) (by decide) (by decide) (by decide) (by decide)

/-- C19: in a state whose current character is NUL the loop body returns without
executing `GETC` (it succeeds even on an empty buffer, leaves the read pointer where it
was and keeps c = 0). Hence for every buffer `a ++ 0 :: b` the loop reaches FSM_STOP with
the bytes `b` behind the NUL still unread (the pointer only advances, so every character
read lies in `a ++ [0]`), and `parser` returns a result: the out-of-bounds branch of the
read is never taken. -/
theorem c19_no_read_past_nul (a b : List Nat) (pn : PrepNumber) :
    (∀ st : ParserState, st.c = 0 →
      ∃ st', parserStep st = some st' ∧ st'.s = st.s ∧ st'.c = 0) ∧
    (∃ r, whileLoop (fun st => decide (st.state ≠ Fsm.FSM_STOP)) parserStep
        ((a ++ 0 :: b).length + 10) (parserInit (a ++ 0 :: b) pn) = some r ∧
      r.state = Fsm.FSM_STOP ∧ ∃ t, r.s = t ++ b) ∧
    (parser (a ++ 0 :: b) pn).isSome = true := by
  obtain ⟨r, hr, hstop, hok⟩ := parserLoop_readOK b (parserInit (a ++ 0 :: b) pn)
    (Or.inl ⟨a, rfl⟩) ((a ++ 0 :: b).length + 10) (parserMeasure_init _ _)
  refine ⟨parserStep_at_nul, ⟨r, hr, hstop, ?_⟩, ?_⟩
  · rcases hok with ⟨t, ht⟩ | ⟨-, hs⟩
    · exact ⟨t ++ [0], by rw [ht]; simp⟩
    · exact ⟨[], by rw [hs]; rfl⟩
  · simp only [parser, hr, Option.map_some', Option.isSome_some]

/-- C20 (failing input): for s = 0 and d = 1 the 64-bit variant of `sub96` leaves
(0, 0xFFFFFFFF, 0xFFFFFFFF) while the 32-bit variant leaves
(0xFFFFFFFF, 0xFFFFFFFF, 0xFFFFFFFF), which is (s - d) mod 2^96 = 2^96 - 1: after a
borrow out of the low limb the 64-bit variant leaves the high limb one too large. The
rest of the claim holds: for all limbs below 2^32 the two variants of `add96` leave the
same limbs, with value (s + d) mod 2^96, and the 32-bit variant of `sub96` leaves
(s - d) mod 2^96. -/
theorem c20_sub96_variants_differ :
    sub96 ⟨0, 0, 0⟩ ⟨0, 0, 1⟩ = ⟨0, 0xFFFFFFFF, 0xFFFFFFFF⟩ ∧
    sub96_32 ⟨0, 0, 0⟩ ⟨0, 0, 1⟩ = ⟨0xFFFFFFFF, 0xFFFFFFFF, 0xFFFFFFFF⟩ ∧
    (sub96_32 ⟨0, 0, 0⟩ ⟨0, 0, 1⟩).val = ((0 : Nat) + 2 ^ 96 - 1) % 2 ^ 96 ∧
    (sub96 ⟨0, 0, 0⟩ ⟨0, 0, 1⟩).val ≠ ((0 : Nat) + 2 ^ 96 - 1) % 2 ^ 96 ∧
    sub96 ⟨5, 7, 0⟩ ⟨0, 0, 1⟩ = ⟨6, 6, 0xFFFFFFFF⟩ ∧
    sub96_32 ⟨5, 7, 0⟩ ⟨0, 0, 1⟩ = ⟨5, 6, 0xFFFFFFFF⟩ ∧
    (∀ s d : Limbs, s.wf → d.wf →
      add96_32 s d = add96 s d ∧ (add96 s d).val = (s.val + d.val) % 2 ^ 96) ∧
    (∀ s d : Limbs, s.wf → d.wf →
      (sub96_32 s d).wf ∧ (sub96_32 s d).val = (s.val + 2 ^ 96 - d.val) % 2 ^ 96) := by
  refine ⟨by decide!, by decide!, by decide!, by decide!, by decide!, by decide!,
    fun s d hs hd => ⟨add96_32_eq s d hs hd, add96_val s d hs hd⟩,
    fun s d hs hd => ⟨sub96_32_wf s d, sub96_32_val s d hs hd⟩⟩

end Str2Dbl
